import Mathlib

/-!
# Accelerad: rcontrib and rtrace drivers

A shallow embedding of `src/rt/rcontrib.c` and `src/rt/rtrace.c`.

Conventions of the embedding:

* global C variables are the fields of one state record that every operation
  receives and returns;
* `double` values are exact rationals (infinities and NaN are not
  represented); the two sums the code converts to `int`, `v + 1.5` in
  `addmodifier` and `bval + .5` in `trace_contrib`, are rounded to the nearest
  double, a tie to the even one, as the binary64 addition rounds them; every
  other operation on doubles is exact;
* `(int)x` is truncation toward zero when the truncated value is in the range
  of a 32-bit `int`; outside it C leaves the conversion undefined, and the
  operation returns `Res.undefined`;
* `int` values are integers; the `unsigned int` bin total and the
  `unsigned long` ray counters wrap at `2^32` and `2^64`;
* `error` with a class other than WARNING ends the program: the operation
  returns `Res.fatal` with the state reached at that moment;
* dereferencing a null record or writing outside an array returns `Res.undefined`;
* what the program writes is recorded as a list of events in the state;
* the sources are read with `ACCELERAD` defined and `DAYSIM` not defined;
* memory allocation succeeds, and a ray cache is the list of its entries
  together with its capacity;
* the evaluation engine, the worker processes and the device are outside the
  two files: their calls are events, and what the device leaves behind is a
  parameter of the run;
* the input is the list of the records read, and, where `getvec` matters, the
  list of the items of the stream.
-/

set_option autoImplicit false

namespace Rcontrib

/-- The colour accumulator type `DCOLOR`, three reals. -/
abbrev DCOLOR := ℚ × ℚ × ℚ

/-- The vector type `FVECT`, three reals. -/
abbrev FVECT := ℚ × ℚ × ℚ

/-- The macro `addcolor(c1,c2)`: componentwise `c1 += c2`. -/
def addcolor (c1 c2 : DCOLOR) : DCOLOR :=
  (c1.1 + c2.1, c1.2.1 + c2.2.1, c1.2.2 + c2.2.2)

/-- The macro `multcolor(c1,c2)`: componentwise `c1 *= c2`. -/
def multcolor (c1 c2 : DCOLOR) : DCOLOR :=
  (c1.1 * c2.1, c1.2.1 * c2.2.1, c1.2.2 * c2.2.2)

/-- The macro `DOT(v1,v2)`. -/
def DOT (v1 v2 : FVECT) : ℚ :=
  v1.1 * v2.1 + v1.2.1 * v2.2.1 + v1.2.2 * v2.2.2

/-- Rounding of a real to the nearest integer, a tie to the even one. -/
def rne (y : ℚ) : Int :=
  let f := Rat.floor y
  if y - f < 1 / 2 then f
  else if 1 / 2 < y - f then f + 1
  else if f % 2 = 0 then f else f + 1

/-- The search of `ilogb` upwards from `e`, at most `k` steps. -/
def ilogb_up (a : ℚ) : Nat → Int → Int
  | 0, e => e
  | k + 1, e => if (2 : ℚ) ^ (e + 1) ≤ a then ilogb_up a k (e + 1) else e

/-- The search of `ilogb` downwards from `e`, at most `k` steps. -/
def ilogb_down (a : ℚ) : Nat → Int → Int
  | 0, e => e
  | k + 1, e => if (2 : ℚ) ^ e ≤ a then e else ilogb_down a k (e - 1)

/-- The binary exponent of a positive real `a`: the `e` with
`2^e ≤ a < 2^(e+1)`, looked for between -1101 and 1100, which covers the
exponents of the `double` format. -/
def ilogb (a : ℚ) : Int :=
  if 1 ≤ a then ilogb_up a 1100 0 else ilogb_down a 1100 (-1)

/-- The exponent of the `double` that holds a positive real: the binary
exponent, and -1022 below the normal range. -/
def dexp (a : ℚ) : Int :=
  max (ilogb a) (-1022)

/-- The result of a `double` operation whose exact result is `x`: the nearest
multiple of `2^(e-52)`, where `e` is the exponent of `x`, a tie going to the
even multiple (IEEE 754 binary64, round to nearest even). An overflow is not
turned into an infinity: the value stays beyond the range of `int`. -/
def dround (x : ℚ) : ℚ :=
  if x = 0 then 0
  else if 0 < x then rne (x / (2 : ℚ) ^ (dexp x - 52)) * (2 : ℚ) ^ (dexp x - 52)
  else -(rne (-x / (2 : ℚ) ^ (dexp (-x) - 52)) * (2 : ℚ) ^ (dexp (-x) - 52))

/-- The C conversion `(int)x` of a `double` to a 32-bit `int`: truncation
toward zero, and no value when the truncated value is outside the range of
`int`, where C leaves the conversion undefined. -/
def to_int (x : ℚ) : Option Int :=
  let t : Int := if 0 ≤ x then Rat.floor x else -Rat.floor (-x)
  if -2 ^ 31 ≤ t ∧ t < 2 ^ 31 then some t else none

/-- Error classes of `error(class, message)`. -/
inductive ErrType
  | WARNING
  | USER
  | SYSTEM
  | INTERNAL
  | CONSISTENCY
  deriving DecidableEq, Repr

/-- The messages `rcontrib.c` passes to `error`. -/
inductive Msg
  | duplicate_modifier (modn : String)
  | too_many_modifiers
  | cannot_track_void
  | illegal_constant_bin
  | bad_bin_count (modn : String)
  | cannot_find_modfile
  | too_many_in_file
  | bad_bin_number (bn : Int)
  | dummy_rays_ignored
  | partial_accumulation
  | unexpected_EOF
  | out_of_memory
  | multiprocessing_with_GPU
  deriving DecidableEq, Repr

/-- A parsed bin expression (`EPNODE`): a constant (`type == NUM`) or an
expression whose value depends on the ray context. -/
inductive EPNODE
  | NUM (v : ℚ)
  | EXPR (id : Nat)
  deriving DecidableEq, Repr

/-- The modifier contribution record `MODCONT`. -/
structure MODCONT where
  outspec : Option String
  modname : String
  params : Option String
  binv : EPNODE
  bin0 : Nat
  nbins : Int
  start_bin : Nat
  cbin : List DCOLOR
  deriving DecidableEq, Repr

/-- The arguments of one `contribOptix` call. -/
structure OptixCall where
  width : Nat
  height : Nat
  imm_irrad : Bool
  lim_dist : Bool
  contrib : Bool
  bins : Nat
  rays : List (FVECT × FVECT)
  deriving DecidableEq, Repr

/-- What the program does that is visible outside: a modifier record handed to
`mod_output`, the `end_record` call closing an emission cycle, a warning, and
the device call. -/
inductive Event
  | mod_output (modname : String) (cbin : List DCOLOR)
  | end_record
  | warning (m : Msg)
  | contribOptix (c : OptixCall)
  deriving DecidableEq, Repr

/-- The global variables of `rcontrib`. `modname` holds `modname[0..nmods-1]`,
so `nmods` is its length; `modconttab` holds the entries of the lookup table
whose `data` is not NULL, in the order they were stored. -/
structure Globals where
  accumulate : Int
  nchild : Int
  contrib : Bool
  imm_irrad : Bool
  lim_dist : Bool
  use_optix : Bool
  xres : Int
  yres : Int
  source : List Nat
  modname : List String
  modconttab : List (String × MODCONT)
  total_bins : Nat
  account : Int
  raysleft : Nat
  waitflush : Int
  lastray : Nat
  lastdone : Nat
  ignore_warning_given : Nat
  out : List Event
  deriving DecidableEq, Repr

/-- The result of an operation: it returns, or `error` ends the program in the
state given, or the behaviour is undefined. -/
inductive Res (α : Type)
  | ok (a : α)
  | fatal (t : ErrType) (m : Msg) (g : Globals)
  | undefined
  deriving DecidableEq, Repr

/-- Sequencing of operations. -/
def Res.bind {α β : Type} (r : Res α) (f : α → Res β) : Res β :=
  match r with
  | .ok a => f a
  | .fatal t m g => .fatal t m g
  | .undefined => .undefined

/-- The value an operation returns, when it returns. -/
def Res.val? {α : Type} (r : Res α) : Option α :=
  match r with
  | .ok a => some a
  | _ => none

/-- Modelled from the spec: the reserved name `VOIDID` of the void modifier,
the "no modifier" sentinel (object.h is not among the sources). -/
def VOIDID : String := "void"

/-- Modelled from the spec: `lu_find(&modconttab, key)->data`, the lookup of a
modifier record by name (lookup.c is not among the sources); `none` is a NULL
`data`. -/
def lu_find (tab : List (String × MODCONT)) (key : String) : Option MODCONT :=
  tab.lookup key

/-- A store through the pointer `lu_find(&modconttab, key)->data`. -/
def lu_set (tab : List (String × MODCONT)) (key : String) (mp : MODCONT) :
    List (String × MODCONT) :=
  tab.map fun e => if e.1 = key then (e.1, mp) else e

/-- Modelled from the spec: the call `error(WARNING, m)`, a warning is
reported and the run continues (error.c is not among the sources). -/
def warn (g : Globals) (m : Msg) : Globals :=
  { g with out := g.out ++ [Event.warning m] }

/-- Modelled from the spec: the parser call `eparse(binv)` after the NULL
default, a NULL bin expression is the constant `"0"` (the expression parser is
not among the sources, bin expressions arrive parsed). -/
def eparse (binv : Option EPNODE) : EPNODE :=
  binv.getD (EPNODE.NUM 0)

/-- The end of `addmodifier` (rcontrib.c:146-167), once the bin count `bincnt`
is settled: the results holder is allocated with `bincnt` zeroed bins, its bin
slots are reserved, and it is entered in the table. `malloc` succeeds, and
`getostream`, which is outside the sources, returns a stream for every bin, so
`bin0` stays 0. -/
def install (g : Globals) (modn : String) (outf prms : Option String) (ebinv : EPNODE)
    (bincnt : Int) : Globals :=
  let mp : MODCONT :=
    { outspec := outf, modname := modn, params := prms, binv := ebinv, bin0 := 0
      nbins := bincnt, start_bin := g.total_bins
      cbin := List.replicate bincnt.toNat 0 }
  { g with total_bins := (g.total_bins + bincnt.toNat) % 2 ^ 32
           modconttab := g.modconttab ++ [(modn, mp)] }

/-- The function `addmodifier` (rcontrib.c:107). `MAXMODLIST` is defined in
rcontrib.h, which is not among the sources, and is a parameter here. -/
def addmodifier (MAXMODLIST : Nat) (g : Globals) (modn : String)
    (outf prms : Option String) (binv : Option EPNODE) (bincnt : Int) : Res Globals :=
  match lu_find g.modconttab modn with
  | some _ => .fatal .USER (.duplicate_modifier modn) g
  | none =>
    if MAXMODLIST ≤ g.modname.length then .fatal .INTERNAL .too_many_modifiers g
    else if modn = VOIDID then .fatal .USER .cannot_track_void g
    else
      let g1 := { g with modname := g.modname ++ [modn] }
      match eparse binv with
      | .NUM v =>
        match to_int (dround (v + 3 / 2)) with
        | none => .undefined
        | some n =>
          if n ≠ 1 then .fatal .USER .illegal_constant_bin g1
          else .ok (install g1 modn outf prms (.NUM v) n)
      | .EXPR i =>
        if bincnt ≤ 0 then .fatal .USER (.bad_bin_count modn) g1
        else .ok (install g1 modn outf prms (.EXPR i) bincnt)

/-- Modelled from the spec: `wordfile(mname, MAXMODLIST, path)` (wordfile.c is
not among the sources). The argument is the list of words of the file, `none`
when the file cannot be read; at most `MAXMODLIST - 1` words are stored before
the terminating NULL, and the result is the stored words (their number is the
value `wordfile` returns). -/
def wordfile (MAXMODLIST : Nat) (file : Option (List String)) : Option (List String) :=
  file.map fun ws => ws.take (MAXMODLIST - 1)

/-- The loop `for (i = 0; mname[i]; i++) addmodifier(mname[i], ...)` of
`addmodfile`. -/
def addmodfile_loop (MAXMODLIST : Nat) (outf prms : Option String)
    (binv : Option EPNODE) (bincnt : Int) : Globals → List String → Res Globals
  | g, [] => .ok g
  | g, m :: ms =>
    (addmodifier MAXMODLIST g m outf prms binv bincnt).bind fun g1 =>
      addmodfile_loop MAXMODLIST outf prms binv bincnt g1 ms

/-- The function `addmodfile` (rcontrib.c:172). -/
def addmodfile (MAXMODLIST : Nat) (g : Globals) (file : Option (List String))
    (outf prms : Option String) (binv : Option EPNODE) (bincnt : Int) : Res Globals :=
  match wordfile MAXMODLIST file with
  | none => .fatal .SYSTEM .cannot_find_modfile g
  | some mname =>
    if MAXMODLIST - 1 ≤ mname.length then .fatal .INTERNAL .too_many_in_file g
    else addmodfile_loop MAXMODLIST outf prms binv bincnt g mname

/-- The part of `rcinit` (rcontrib.c:206) that sets the counters of a single
process (`nproc = 1`, no recovery of earlier output). -/
def rcinit (g : Globals) : Globals :=
  let raysleft0 : Nat :=
    if 0 < g.yres then
      (if 0 < g.xres then (g.xres * g.yres).toNat % 2 ^ 64 else g.yres.toNat)
    else 0
  { g with
    account := g.accumulate
    raysleft := if 1 < g.accumulate then (raysleft0 * g.accumulate.toNat) % 2 ^ 64
                else raysleft0
    waitflush := if 0 < g.yres ∧ 1 < g.xres then 0 else g.xres }

/-- The object a ray hit (`r->ro`): its number and the name of its modifier,
`objptr(r->ro->omod)->oname`, `none` when `omod` is `OVOID`. -/
structure OBJREC where
  id : Nat
  omod : Option String
  deriving DecidableEq, Repr

/-- What `trace_contrib` reads of a ray: the object hit, the source index, the
ray colour, the coefficient `raycontrib(contr, r, PRIMARY)` computes, and the
values the expression evaluator gives in the context of this ray, by parameter
string and expression. -/
structure RAY where
  ro : Option OBJREC
  rsrc : Int
  rcol : DCOLOR
  coef : DCOLOR
  ctx : Option String → Nat → ℚ

/-- Modelled from the spec: the evaluator call `evalue(ep)` in a ray context
(the expression evaluator is not among the sources). -/
def evalue (ctx : Nat → ℚ) : EPNODE → ℚ
  | .NUM v => v
  | .EXPR i => ctx i

/-- The function `trace_contrib` (rcontrib.c:261), the trace callback summing contributions.
`source` lists the objects `source[i].so`. -/
def trace_contrib (g : Globals) (r : RAY) : Res Globals :=
  match r.ro with
  | none => .ok g
  | some ro =>
    match ro.omod with
    | none => .ok g
    | some oname =>
      if 0 ≤ r.rsrc ∧ g.source.get? r.rsrc.toNat ≠ some ro.id then .ok g
      else
        match lu_find g.modconttab oname with
        | none => .ok g
        | some mp =>
          let bval := evalue (r.ctx mp.params) mp.binv
          if bval ≤ -1 / 2 then .ok g
          else
            match to_int (dround (bval + 1 / 2)) with
            | none => .undefined
            | some bn =>
              if mp.nbins ≤ bn then .ok (warn g (.bad_bin_number bn))
              else
                let contr := if g.contrib then multcolor r.coef r.rcol else r.coef
                if bn < 0 ∨ mp.cbin.length ≤ bn.toNat then .undefined
                else
                  .ok { g with
                        modconttab := lu_set g.modconttab oname
                          { mp with cbin := mp.cbin.set bn.toNat
                                      (addcolor (mp.cbin.getD bn.toNat 0) contr) } }

/-- The call `memset(mp->cbin, 0, sizeof(DCOLOR)*mp->nbins)`. -/
def memset_cbin (mp : MODCONT) : MODCONT :=
  { mp with cbin := List.replicate mp.nbins.toNat 0 }

/-- The loop of `done_contrib` over `modname[0..nmods-1]`: output the record,
then clear its bins. -/
def done_contrib_loop : Globals → List String → Res Globals
  | g, [] => .ok g
  | g, m :: ms =>
    match lu_find g.modconttab m with
    | none => .undefined
    | some mp =>
      done_contrib_loop
        { g with
          out := g.out ++ [Event.mod_output mp.modname mp.cbin]
          modconttab := lu_set g.modconttab m (memset_cbin mp) } ms

/-- The function `done_contrib` (rcontrib.c:338). -/
def done_contrib (g : Globals) : Res Globals :=
  if g.account ≤ 0 then .ok g
  else
    let g1 := { g with account := g.account - 1 }
    if g1.account ≠ 0 then .ok g1
    else
      (done_contrib_loop g1 g1.modname).bind fun g2 =>
        .ok { g2 with out := g2.out ++ [Event.end_record], account := g2.accumulate }

/-- One record of the input: origin, direction, and the calls of the trace
callback the evaluation engine makes while it evaluates this ray. -/
structure RAYIN where
  orig : FVECT
  direc : FVECT
  traces : List RAY

/-- Whether `normalize(direc)` returns `0.0`: the vector has zero length. -/
def zerolen (direc : FVECT) : Bool :=
  decide (DOT direc direc = 0)

/-- The evaluation of one ray by `eval_irrad` or `eval_rad`: the engine calls
the trace callback for each ray of the shading tree. -/
def eval_ray : Globals → List RAY → Res Globals
  | g, [] => .ok g
  | g, r :: rs => (trace_contrib g r).bind fun g1 => eval_ray g1 rs

/-- The count of the rays sent (rcontrib.c:416-418): `lastray` starts over
when it would wrap, then advances. -/
def next_lastray (g : Globals) : Globals :=
  let g1 := if (g.lastray + 1) % 2 ^ 64 < g.lastray
            then { g with lastray := 0, lastdone := 0 } else g
  { g1 with lastray := (g1.lastray + 1) % 2 ^ 64 }

/-- The end of the loop body (rcontrib.c:430-432): `lastdone` advances, and
the loop ends when the last of the declared rays is done. -/
def count_done (g : Globals) : Globals × Bool :=
  let g1 := { g with lastdone := (g.lastdone + 1) % 2 ^ 64 }
  if g1.raysleft ≠ 0 then
    ({ g1 with raysleft := g1.raysleft - 1 }, decide (g1.raysleft - 1 = 0))
  else (g1, false)

/-- The flush request of a zero direction (rcontrib.c:420-423). -/
def flush_request (g : Globals) : Globals :=
  let g1 := if g.yres ≤ 0 ∨ g.xres ≤ 1 then { g with waitflush := 1 } else g
  if g1.nchild = -1 then { g1 with account := 1 } else g1

/-- The body of the sequential loop of `rcontrib` (rcontrib.c:409-432) for one
input record. The flag returned says whether the loop ends (`break`). -/
def rcontrib_ray (g : Globals) (r : RAYIN) : Res (Globals × Bool) :=
  if g.nchild ≠ -1 ∧ zerolen r.direc = true ∧ g.accumulate = 0 then
    let g1 := if g.ignore_warning_given = 0 then warn g .dummy_rays_ignored else g
    .ok ({ g1 with ignore_warning_given := g1.ignore_warning_given + 1 }, false)
  else
    let g2 := next_lastray g
    let evaluated : Res Globals :=
      if zerolen r.direc = true then .ok (flush_request g2)
      else eval_ray g2 r.traces
    (evaluated.bind done_contrib).bind fun g4 => .ok (count_done g4)

/-- The sequential loop of `rcontrib` over the records read from the input. -/
def rcontrib_loop : Globals → List RAYIN → Res Globals
  | g, [] => .ok g
  | g, r :: rs =>
    (rcontrib_ray g r).bind fun p =>
      if p.2 = true then .ok p.1 else rcontrib_loop p.1 rs

/-- The output of the last record at the end of `rcontrib`
(rcontrib.c:434-441), partial or total. -/
def final_record (g : Globals) : Res Globals :=
  if g.nchild ≠ -1 ∧ (g.accumulate ≤ 0 ∨ g.account < g.accumulate) then
    let g1 := if g.account < g.accumulate
              then { warn g .partial_accumulation with
                     accumulate := g.accumulate - g.account }
              else g
    done_contrib { g1 with account := 1 }
  else .ok g

/-- The end of `rcontrib` (rcontrib.c:434-444): the output of the last record,
then the check of the declared ray count. -/
def rcontrib_eoi (g : Globals) : Res Globals :=
  (final_record g).bind fun g2 =>
    if g2.raysleft ≠ 0 then .fatal .USER .unexpected_EOF g2 else .ok g2

/-- The constant `EXPECTED_RAY_COUNT`. -/
def EXPECTED_RAY_COUNT : Nat := 32

/-- The ray cache of the device path: its capacity `total_rays` and the
entries stored so far (`current_ray` is their number). -/
structure Cache where
  total_rays : Nat
  rays : List (FVECT × FVECT)
  deriving DecidableEq, Repr

/-- The loop filling the ray cache (rcontrib.c:384-395): the capacity doubles
when the cache is full, then the record is stored at index `current_ray`. -/
def cache_loop : Cache → List RAYIN → Res Cache
  | c, [] => .ok c
  | c, r :: rs =>
    let c1 := if c.rays.length = c.total_rays
              then { c with total_rays := c.total_rays * 2 } else c
    if c1.total_rays ≤ c1.rays.length then .undefined
    else cache_loop { c1 with rays := c1.rays ++ [(r.orig, r.direc)] } rs

/-- The ray cache of the device path before the first record is read
(rcontrib.c:377-381): empty, with the capacity `raysleft`, or
`EXPECTED_RAY_COUNT` when no ray count is declared. -/
def cache_start (g : Globals) : Cache :=
  { total_rays := if g.raysleft ≠ 0 then g.raysleft else EXPECTED_RAY_COUNT, rays := [] }

/-- The device path of `rcontrib` (rcontrib.c:375-405) up to the return of
`contribOptix`. What the device does to the program state is `dev`. -/
def rcontrib_optix (dev : OptixCall → Globals → Globals) (g : Globals)
    (input : List RAYIN) : Res Globals :=
  (cache_loop (cache_start g) input).bind fun c =>
    let total_rays := c.rays.length
    let g1 := if g.raysleft ≠ 0
              then { g with raysleft := (g.raysleft + 2 ^ 64 - total_rays % 2 ^ 64) % 2 ^ 64 }
              else g
    let width0 : Int := if 0 < g1.yres ∧ 0 < g1.xres then g1.xres else 1
    let width : Int := if 0 < g1.yres ∧ 1 < g1.accumulate then width0 * g1.accumulate
                       else width0
    let call : OptixCall :=
      { width := width.toNat
        height := if 0 < g1.yres then g1.yres.toNat else total_rays
        imm_irrad := g1.imm_irrad, lim_dist := g1.lim_dist, contrib := g1.contrib
        bins := g1.total_bins, rays := c.rays }
    .ok (dev call { g1 with out := g1.out ++ [Event.contribOptix call] })

/-- The function `rcontrib` (rcontrib.c:359), the principal calculation loop of a single
process, on the records read from the standard input. -/
def rcontrib (dev : OptixCall → Globals → Globals) (g : Globals)
    (input : List RAYIN) : Res Globals :=
  let g0 := rcinit g
  let looped : Res Globals :=
    if g0.use_optix = true then rcontrib_optix dev g0 input
    else rcontrib_loop g0 input
  looped.bind rcontrib_eoi

/-! ### Notions the statements about `rcontrib` use -/

/-- The bin array of the modifier `n` (empty when `n` has no record). -/
def binsOf (g : Globals) (n : String) : List DCOLOR :=
  ((lu_find g.modconttab n).map MODCONT.cbin).getD []

/-- The value of bin `b` of the modifier `n`, when there is such a bin. -/
def binval (g : Globals) (n : String) (b : Nat) : Option DCOLOR :=
  (lu_find g.modconttab n).bind fun mp => mp.cbin[b]?

/-- The registry as `addmodifier` builds it: the table holds one record per
listed name, in the order of the list, each under its own name and with as
many bins as its positive bin count says. -/
def RegOK (g : Globals) : Prop :=
  g.modconttab.map Prod.fst = g.modname ∧ g.modname.Nodup ∧
  ∀ e ∈ g.modconttab, e.2.modname = e.1 ∧ 0 < e.2.nbins ∧ e.2.cbin.length = e.2.nbins.toNat

instance (g : Globals) : Decidable (RegOK g) := by
  unfold RegOK
  exact inferInstance

/-- The bin value `bval` the evaluator gives for the ray `t` and the record `mp`. -/
def bval_of (t : RAY) (mp : MODCONT) : ℚ :=
  evalue (t.ctx mp.params) mp.binv

/-- The bin index `bn = (int)(bval + .5)` of the ray `t` in the record `mp`,
when the conversion is defined. -/
def bin_of (t : RAY) (mp : MODCONT) : Option Int :=
  to_int (dround (bval_of t mp + 1 / 2))

/-- The contribution `trace_contrib` adds for the ray `t`. -/
def contr_of (g : Globals) (t : RAY) : DCOLOR :=
  if g.contrib = true then multcolor t.coef t.rcol else t.coef

/-- The ray `t` strikes the registered modifier `m` and its bin expression
resolves to the bin `b` of that modifier. -/
def strikes (g : Globals) (t : RAY) (m : String) (b : Nat) : Prop :=
  ∃ ro mp, t.ro = some ro ∧ ro.omod = some m ∧
    ¬ (0 ≤ t.rsrc ∧ g.source.get? t.rsrc.toNat ≠ some ro.id) ∧
    lu_find g.modconttab m = some mp ∧
    -1 / 2 < bval_of t mp ∧ bin_of t mp = some (b : Int) ∧ (b : Int) < mp.nbins

/-- The bin value of the ray `t` is in the range of `int`: when the ray
strikes an object whose modifier has a record, the sum `bval + .5` is below
`2^31 - 2^-23`, the least real that the addition rounds up to `2^31`. -/
def bin_in_range (g : Globals) (t : RAY) : Prop :=
  match t.ro with
  | none => True
  | some ro =>
    match ro.omod with
    | none => True
    | some m =>
      match lu_find g.modconttab m with
      | none => True
      | some mp => bval_of t mp + 1 / 2 < 2 ^ 31 - 1 / 2 ^ 23

instance (g : Globals) (t : RAY) : Decidable (bin_in_range g t) := by
  unfold bin_in_range
  cases t.ro with
  | none => exact inferInstance
  | some ro =>
    dsimp only
    cases ro.omod with
    | none => exact inferInstance
    | some m =>
      dsimp only
      cases lu_find g.modconttab m <;> exact inferInstance

/-- The number of emission cycles in an output: the `end_record` calls. -/
def ncycles (out : List Event) : Nat :=
  (out.filter fun e => decide (e = Event.end_record)).length

/-- The records one emission cycle hands to `mod_output`, for the modifiers
`names` with the bin arrays `bins` gives them. -/
def cycle_of (names : List String) (bins : String → List DCOLOR) : List Event :=
  names.map fun n => Event.mod_output n (bins n)

/-- One registration request: the arguments of an `addmodifier` call. -/
structure Request where
  modn : String
  outf : Option String
  prms : Option String
  binv : Option EPNODE
  bincnt : Int

/-- A sequence of `addmodifier` calls, as `main` makes them for the modifiers
of the command line. -/
def register_all (MAXMODLIST : Nat) : Globals → List Request → Res Globals
  | g, [] => .ok g
  | g, q :: qs =>
    (addmodifier MAXMODLIST g q.modn q.outf q.prms q.binv q.bincnt).bind fun g1 =>
      register_all MAXMODLIST g1 qs

/-- The bin count `addmodifier` gives a modifier it accepts: 1 for a constant
bin expression, the count supplied otherwise. -/
def nbins_of (binv : Option EPNODE) (bincnt : Int) : Int :=
  match eparse binv with
  | .NUM _ => 1
  | .EXPR _ => bincnt

/-- The bin-count test of `addmodifier` as the code makes it: a constant bin
expression `v` for which `(int)(v + 1.5)` is not 1, or an expression that is
not constant with a bin count that is not positive. -/
def bad_bins (binv : Option EPNODE) (bincnt : Int) : Prop :=
  match eparse binv with
  | .NUM v => to_int (dround (v + 3 / 2)) ≠ some 1
  | .EXPR _ => bincnt ≤ 0

instance (binv : Option EPNODE) (bincnt : Int) : Decidable (bad_bins binv bincnt) := by
  unfold bad_bins
  cases eparse binv <;> exact inferInstance

/-- The bin-count failure of `addmodifier` as the specification words it: a
constant other than the single-bin value 0 while no positive count is
supplied, or an expression that is not constant with a count that is not
positive. -/
def spec_bad_bins (binv : Option EPNODE) (bincnt : Int) : Prop :=
  match eparse binv with
  | .NUM v => v ≠ 0 ∧ bincnt ≤ 0
  | .EXPR _ => bincnt ≤ 0

instance (binv : Option EPNODE) (bincnt : Int) : Decidable (spec_bad_bins binv bincnt) := by
  unfold spec_bad_bins
  cases eparse binv <;> exact inferInstance

/-- The result is one of the two bin-count errors of `addmodifier`. -/
def is_bin_error (r : Res Globals) : Prop :=
  match r with
  | .fatal .USER .illegal_constant_bin _ => True
  | .fatal .USER (.bad_bin_count _) _ => True
  | _ => False

/-- The record `addmodifier` creates for an accepted request. -/
def new_record (g : Globals) (modn : String) (outf prms : Option String)
    (binv : Option EPNODE) (bincnt : Int) : MODCONT :=
  { outspec := outf, modname := modn, params := prms, binv := eparse binv, bin0 := 0
    nbins := nbins_of binv bincnt, start_bin := g.total_bins
    cbin := List.replicate (nbins_of binv bincnt).toNat 0 }

/-- The state `addmodifier` leaves for an accepted request. -/
def registered (g : Globals) (modn : String) (outf prms : Option String)
    (binv : Option EPNODE) (bincnt : Int) : Globals :=
  { g with
    modname := g.modname ++ [modn]
    total_bins := (g.total_bins + (nbins_of binv bincnt).toNat) % 2 ^ 32
    modconttab := g.modconttab ++ [(modn, new_record g modn outf prms binv bincnt)] }

/-- The bin ranges of the records start at `s` and follow one another without
a gap, each with a positive length. -/
def Contiguous : Nat → List MODCONT → Prop
  | _, [] => True
  | s, mp :: rest =>
    mp.start_bin = s ∧ 0 < mp.nbins ∧ Contiguous (s + mp.nbins.toNat) rest

/-- The total number of bins of the records. -/
def bins_sum (recs : List MODCONT) : Nat :=
  (recs.map fun mp => mp.nbins.toNat).sum

/-- The bin range of `a` ends where the bin range of `b` starts, or before. -/
def range_before (a b : MODCONT) : Prop :=
  a.start_bin + a.nbins.toNat ≤ b.start_bin

/-- The records of the registry, in the order of their registration. -/
def records (g : Globals) : List MODCONT :=
  g.modconttab.map Prod.snd

/-- The bin counts a sequence of accepted requests reserves. -/
def requested (reqs : List Request) : List Int :=
  reqs.map fun q => nbins_of q.binv q.bincnt

/-- A state with an empty registry and no output, for the given accumulate
factor. -/
def start (accumulate : Int) : Globals :=
  { accumulate := accumulate, nchild := 0, contrib := false, imm_irrad := false
    lim_dist := false, use_optix := false, xres := 0, yres := 0, source := []
    modname := [], modconttab := [], total_bins := 0, account := 0, raysleft := 0
    waitflush := 0, lastray := 0, lastdone := 0, ignore_warning_given := 0, out := [] }

/-- The record `mp` with the value `v` in its bin `b`. -/
def with_bin (mp : MODCONT) (b : Nat) (v : DCOLOR) : MODCONT :=
  { mp with cbin := mp.cbin.set b v }

/-- The sum of the contributions `trace_contrib` adds for the rays `ts`. -/
def contr_sum (g : Globals) (ts : List RAY) : DCOLOR :=
  (ts.map (contr_of g)).sum

/-- The sum of the contributions of all trace calls of the input records. -/
def window_sum (g : Globals) (rays : List RAYIN) : DCOLOR :=
  (rays.map fun r => contr_sum g r.traces).sum

/-- The state `g` has the sources, the settings, the names and the output of
the state `g0`. -/
def Agree (g g0 : Globals) : Prop :=
  g.source = g0.source ∧ g.contrib = g0.contrib ∧ g.out = g0.out ∧
    g.modname = g0.modname ∧ g.accumulate = g0.accumulate ∧ g.nchild = g0.nchild

/-- The bin arrays one window leaves for the emission: the bins of `g`, with
the value `v` in bin `b` of the modifier `m`. -/
def bins_with (g : Globals) (m : String) (b : Nat) (v : DCOLOR) (n : String) : List DCOLOR :=
  if n = m then (binsOf g m).set b v else binsOf g n

/-- What `trace_contrib` reads of a record besides its bins. -/
def rec_meta (mp : MODCONT) : Option String × EPNODE × Int :=
  (mp.params, mp.binv, mp.nbins)

/-- The state `g1` has the counters, the settings and the names of the state
`g`, as many emission cycles in its output, and its records differ from those
of `g` in their bins only. -/
def Keeps (g1 g : Globals) : Prop :=
  g1.accumulate = g.accumulate ∧ g1.nchild = g.nchild ∧ g1.account = g.account ∧
    g1.raysleft = g.raysleft ∧ g1.modname = g.modname ∧ ncycles g1.out = ncycles g.out ∧
    ∀ n, (lu_find g1.modconttab n).map rec_meta = (lu_find g.modconttab n).map rec_meta

/-- The number of rays of the input that are no flush request. -/
def nonflush (input : List RAYIN) : Nat :=
  (input.filter fun r => !zerolen r.direc).length

/-- An input record with a zero direction: a flush request. -/
def flush_in : RAYIN :=
  { orig := (0, 0, 0), direc := (0, 0, 0), traces := [] }

/-- A ray that strikes an object with the modifier "wall", is no shadow ray,
and carries the coefficient `c`. -/
def wall_ray (c : DCOLOR) : RAY :=
  { ro := some { id := 1, omod := some "wall" }, rsrc := -1, rcol := (1, 1, 1), coef := c
    ctx := fun _ _ => 0 }

/-- The registry of the accumulation scenario: accumulate factor 3 and the one
modifier "wall" with its single bin, the counters set by `rcinit`. -/
def wall_state : Globals :=
  rcinit (registered (start 3) "wall" none none none 0)

/-- An input record of the scenario: a ray with a direction that is not zero,
whose evaluation calls the trace callback once, for "wall" with `(1,0,0)`. -/
def wall_in : RAYIN :=
  { orig := (0, 0, 0), direc := (0, 0, 1), traces := [wall_ray (1, 0, 0)] }

/-- A registry in which the last ray of a window of 3 is due: "wall" holds
`(2,0,0)` and `account` is 1. -/
def wall_last : Globals :=
  { wall_state with
    account := 1
    modconttab := [("wall", with_bin (new_record (start 3) "wall" none none none 0) 0 (2, 0, 0))] }


/-! ### Notions the statements about the device path use -/

/-- The capacity of a ray cache of capacity `cap` holding `len` entries after
`n` more entries are stored, doubling whenever the cache is full. -/
def cap_after : Nat → Nat → Nat → Nat
  | cap, _, 0 => cap
  | cap, len, n + 1 => cap_after (if len = cap then cap * 2 else cap) (len + 1) n

/-- The origin and direction of an input record, as the device path stores
them. -/
def entry_of (r : RAYIN) : FVECT × FVECT := (r.orig, r.direc)

/-- A device that leaves the state of the program as it is. -/
def no_device : OptixCall → Globals → Globals := fun _ g => g

/-- The device calls of an output, in order. -/
def device_calls (out : List Event) : List OptixCall :=
  out.filterMap fun e => match e with
    | Event.contribOptix c => some c
    | _ => none


/-- The error an operation ends the program with, when it does, and the state
it ends in. -/
def Res.failure? {α : Type} (r : Res α) : Option (ErrType × Msg × Globals) :=
  match r with
  | .fatal t m g => some (t, m, g)
  | _ => none

/-- A run on the device with accumulate factor 1, the one modifier "wall" and
no declared resolution. -/
def optix_wall : Globals :=
  { registered (start 1) "wall" none none none 0 with use_optix := true }

/-- A run on the device with accumulate factor 1, the one modifier "wall" and
the declared resolution 2 by 1: 2 rays are declared. -/
def optix_rows : Globals :=
  { registered (start 1) "wall" none none none 0 with use_optix := true, xres := 2, yres := 1 }

/-- The same run as `optix_rows` without the device. -/
def seq_rows : Globals :=
  { registered (start 1) "wall" none none none 0 with xres := 2, yres := 1 }


/-! ### Notions the statement about a run that totals all rays uses -/

/-- The contribution `trace_contrib` adds to bin `b` of the modifier `n` for
the ray `t`: the contribution of the ray when it strikes an object with the
modifier `n`, is no shadow ray off its source, and its bin expression
resolves to `b`, a bin of the modifier; zero in every other case. -/
def share (g : Globals) (n : String) (b : Nat) (t : RAY) : DCOLOR :=
  match t.ro with
  | none => 0
  | some ro =>
    match ro.omod with
    | none => 0
    | some oname =>
      if 0 ≤ t.rsrc ∧ g.source.get? t.rsrc.toNat ≠ some ro.id then 0
      else
        match lu_find g.modconttab oname with
        | none => 0
        | some mp =>
          if oname = n ∧ -1 / 2 < bval_of t mp ∧ bin_of t mp = some (b : Int) ∧
              (b : Int) < mp.nbins
          then contr_of g t else 0

/-- The sum of the contributions all trace calls of a run add to bin `b` of
the modifier `n`; a record with a zero direction is not evaluated. -/
def run_sum (g : Globals) (n : String) (b : Nat) (input : List RAYIN) : DCOLOR :=
  (input.map fun r =>
    if zerolen r.direc = true then 0 else (r.traces.map (share g n b)).sum).sum

/-- The state `g1` has the sources, the settings, the counters and the names
of the state `g`, and its records differ from those of `g` in their bins
only. -/
def Frame (g1 g : Globals) : Prop :=
  g1.source = g.source ∧ g1.contrib = g.contrib ∧ g1.accumulate = g.accumulate ∧
    g1.nchild = g.nchild ∧ g1.account = g.account ∧ g1.raysleft = g.raysleft ∧
    g1.modname = g.modname ∧
    ∀ n, (lu_find g1.modconttab n).map rec_meta = (lu_find g.modconttab n).map rec_meta

/-- The events are warnings. -/
def OnlyWarnings (ws : List Event) : Prop :=
  ∀ e ∈ ws, ∃ m, e = Event.warning m

/-- From the state `g` to the state `g1` nothing is output but warnings, no
bin is cleared, and bin `b` of the modifier `n` has grown by `S n b`. -/
def Adds (g1 g : Globals) (S : String → Nat → DCOLOR) : Prop :=
  RegOK g1 ∧ Frame g1 g ∧ (∃ ws, g1.out = g.out ++ ws ∧ OnlyWarnings ws) ∧
    ∀ n b, binval g1 n b = (binval g n b).map fun v => v + S n b

/-- A run that totals all rays: accumulate factor 0 and the one modifier
"wall". -/
def total_state : Globals :=
  registered (start 0) "wall" none none none 0



/-- The registry with the one modifier "wall", registered with a bin
expression that is not constant and the bin count 4. -/
def bins_state : Globals :=
  rcinit (registered (start 3) "wall" none none (some (EPNODE.EXPR 0)) 4)

/-- A ray that strikes an object with the modifier "wall", is no shadow ray,
and for which the evaluator gives every expression the value `10^10`. -/
def far_ray : RAY :=
  { ro := some { id := 1, omod := some "wall" }, rsrc := -1, rcol := (1, 1, 1)
    coef := (1, 0, 0), ctx := fun _ _ => 10000000000 }

/-- An input record with a direction that is not zero, whose evaluation calls
the trace callback once, for "wall" with the bin value `10^10`. -/
def far_in : RAYIN :=
  { orig := (0, 0, 0), direc := (0, 0, 1), traces := [far_ray] }

/-- A run that totals all rays: accumulate factor 0 and the one modifier
"wall", registered with a bin expression that is not constant and the bin
count 4. -/
def far_total : Globals :=
  registered (start 0) "wall" none none (some (EPNODE.EXPR 0)) 4

/-- A run on the device with the horizontal resolution 2 and no vertical
resolution (`-x 2 -y 0`): no ray count is declared. -/
def optix_wall_x2 : Globals :=
  { registered (start 1) "wall" none none none 0 with use_optix := true, xres := 2 }

end Rcontrib


namespace Rtrace

/-- The vector type `FVECT`, three reals. -/
abbrev FVECT := ℚ × ℚ × ℚ

/-- The macro `DOT(v1,v2)`. -/
def DOT (v1 v2 : FVECT) : ℚ :=
  v1.1 * v2.1 + v1.2.1 * v2.2.1 + v1.2.2 * v2.2.2

/-- The macro `VSUM(vr,v1,v2,f)`: `vr = v1 + f*v2`. -/
def VSUM (v1 v2 : FVECT) (f : ℚ) : FVECT :=
  (v1.1 + f * v2.1, v1.2.1 + f * v2.2.1, v1.2.2 + f * v2.2.2)

/-- The messages `rtrace` passes to `error`. -/
inductive Msg
  | children_died
  | lost_children
  | unable_to_complete
  | write_error
  | unexpected_EOF
  | out_of_memory
  | botched_input_format
  deriving DecidableEq, Repr

/-- The evaluation function `r->revf` of a ray. -/
inductive Revf
  | raytrace
  | rayirrad
  | raycast
  deriving DecidableEq, Repr

/-- The field writers `oputf_t` a table of output fields can hold. -/
inductive OField
  | oputo | oputd | oputv | oputV | oputl | oputL | oputc | oputp
  | oputr | oputR | oputx | oputX | oputn | oputN | oputs
  | oputw | oputW | oputm | oputM | oputtilde
  deriving DecidableEq, Repr

/-- What `rtrace.c` itself sets of a `RAY`: origin, direction, maximum
distance and evaluation function; `traced` says that `rayvalue` has filled in
the results. -/
structure RAY where
  rorg : FVECT
  rdir : FVECT
  rmax : ℚ
  revf : Revf
  traced : Bool
  deriving DecidableEq, Repr

/-- What the program does that is visible outside: a record written by
`printvals` (the writers called, in order, the ray, and whether a newline
ends it), a flush of the standard output, the calls of the ray FIFO of the
worker processes, and the device call. -/
inductive Event
  | record (fields : List OField) (r : RAY) (newline : Bool)
  | fflush
  | ray_fifo_in (r : RAY)
  | ray_fifo_flush
  | ray_pclose
  | computeOptix (width height : Nat) (imm_irrad : Bool) (rays : List RAY)
  deriving DecidableEq, Repr

/-- The global and local variables of `rtrace` after the output tables are set
up. `ray_cache` holds the entries stored so far, so `current_ray` is its
length, and `total_rays` is its capacity. -/
structure Globals where
  hresolu : Int
  vresolu : Int
  outform : Char
  imm_irrad : Bool
  lim_dist : Bool
  castonly : Bool
  use_optix : Bool
  ray_pnprocs : Int
  ray_out : List OField
  thisray : RAY
  samplendx : Int
  vcount : Nat
  nextflush : Int
  something2flush : Bool
  total_rays : Nat
  ray_cache : List RAY
  out : List Event
  deriving DecidableEq, Repr

/-- The result of an operation: it returns, or `error` ends the program in the
state given, or the behaviour is undefined. -/
inductive Res (α : Type)
  | ok (a : α)
  | fatal (m : Msg) (g : Globals)
  | undefined
  deriving DecidableEq, Repr

/-- Sequencing of operations. -/
def Res.bind {α β : Type} (r : Res α) (f : α → Res β) : Res β :=
  match r with
  | .ok a => f a
  | .fatal m g => .fatal m g
  | .undefined => .undefined

/-- The constant `EXPECTED_RAY_COUNT`. -/
def EXPECTED_RAY_COUNT : Nat := 32

/-- One record of the input, two vectors read by `getvec`, with what
`normalize(direc)` makes of the direction: the length `d` it returns and the
unit vector `ndir` it leaves (neither is rational in general). -/
structure RAYIN where
  orig : FVECT
  direc : FVECT
  d : ℚ
  ndir : FVECT
  deriving DecidableEq, Repr

/-- Whether `normalize(direc)` returns `0.0`: the vector has zero length. -/
def zerolen (direc : FVECT) : Bool :=
  decide (DOT direc direc = 0)

/-- Modelled from the spec: the engine call
`rayorigin(&thisray, PRIMARY, NULL, NULL)`, a fresh primary ray; origin,
direction and maximum distance are left as they are. -/
def rayorigin (r : RAY) : RAY :=
  { r with revf := Revf.raytrace, traced := false }

/-- Modelled from the spec: the engine call `rayvalue(&thisray)`, the opaque
evaluation of a ray. -/
def rayvalue (r : RAY) : RAY :=
  { r with traced := true }

/-- The function `printvals` (rtrace.c:502): the state after the call and the value returned. -/
def printvals (g : Globals) (r : RAY) : Globals × Int :=
  match g.ray_out with
  | [] => (g, 0)
  | f :: fs =>
    ({ g with out := g.out ++ [Event.record (f :: fs) r (decide (g.outform = 'a'))] }, 1)

/-- The function `bogusray` (rtrace.c:417): print out an empty record. -/
def bogusray (g : Globals) : Globals :=
  if g.use_optix = true then g
  else
    let g1 := { g with thisray := rayorigin g.thisray }
    (printvals g1 g1.thisray).1

/-- The ray `rtcompute` sets up in `thisray` (rtrace.c:471-485). -/
def primary_ray (g : Globals) (org dir : FVECT) (dmax : ℚ) : RAY :=
  let r0 := rayorigin g.thisray
  if g.imm_irrad = true then
    { r0 with rorg := VSUM org dir (11 / 100000)
              rdir := (-dir.1, -dir.2.1, -dir.2.2)
              rmax := 0
              revf := Revf.rayirrad }
  else
    { r0 with rorg := org, rdir := dir, rmax := dmax
              revf := if g.castonly = true then Revf.raycast else r0.revf }

/-- The function `rtcompute` (rtrace.c:464): compute and print the value of one ray. The
worker FIFO takes every ray it is given. -/
def rtcompute (g : Globals) (org dir : FVECT) (dmax : ℚ) : Globals :=
  let g1 := { g with thisray := primary_ray g org dir dmax }
  if g1.use_optix = true then g1
  else if 1 < g1.ray_pnprocs then
    { g1 with out := g1.out ++ [Event.ray_fifo_in g1.thisray] }
  else
    let g2 := { g1 with samplendx := g1.samplendx + 1, thisray := rayvalue g1.thisray }
    (printvals g2 g2.thisray).1

/-- The flush of the worker FIFO made when there are worker processes. -/
def fifo_flush_if (g : Globals) : Globals :=
  if 1 < g.ray_pnprocs then { g with out := g.out ++ [Event.ray_fifo_flush] } else g

/-- The value `(!vresolu | (hresolu <= 1)) * hresolu` of the flush interval. -/
def flush_interval (g : Globals) : Int :=
  if g.vresolu = 0 ∨ g.hresolu ≤ 1 then g.hresolu else 0

/-- The first part of the loop body of `rtrace` (rtrace.c:197-244, without
the DAYSIM sensor code): a flush request prints an empty record, any other
ray is computed and printed; the output is flushed when it is time. -/
def rtrace_eval (g : Globals) (r : RAYIN) : Globals :=
  if zerolen r.direc = true then
    if g.use_optix = true then bogusray g
    else if g.something2flush = true then
      let ga := bogusray (fifo_flush_if g)
      { ga with out := ga.out ++ [Event.fflush]
                nextflush := flush_interval ga
                something2flush := false }
    else bogusray g
  else
    let ga := rtcompute g r.orig r.ndir (if g.lim_dist = true then r.d else 0)
    if ga.use_optix = true then ga
    else
      let gb := { ga with nextflush := ga.nextflush - 1 }
      if gb.nextflush = 0 then
        let gc := fifo_flush_if gb
        { gc with out := gc.out ++ [Event.fflush], nextflush := gc.hresolu }
      else { gb with something2flush := true }

/-- The store into the ray cache of the device path (rtrace.c:246-254): the
capacity doubles when the cache is full, then `thisray` is stored at index
`current_ray`. -/
def store_ray (g : Globals) : Res Globals :=
  if g.use_optix = true then
    let g2 := if g.ray_cache.length = g.total_rays
              then { g with total_rays := g.total_rays * 2 } else g
    if g2.total_rays ≤ g2.ray_cache.length then .undefined
    else .ok { g2 with ray_cache := g2.ray_cache ++ [g2.thisray] }
  else .ok g

/-- The end of the loop body (rtrace.c:259-260): the loop ends when the last
of the declared rows is done. -/
def count_row (g : Globals) : Globals × Bool :=
  if g.vcount ≠ 0 then
    ({ g with vcount := g.vcount - 1 }, decide (g.vcount - 1 = 0))
  else (g, false)

/-- The body of the loop of `rtrace` (rtrace.c:197-260) for one input record.
The flag returned says whether the loop ends (`break`). -/
def rtrace_ray (g : Globals) (r : RAYIN) : Res (Globals × Bool) :=
  (store_ray (rtrace_eval g r)).bind fun g3 => .ok (count_row g3)

/-- The loop of `rtrace` over the records read from the input. -/
def rtrace_loop : Globals → List RAYIN → Res Globals
  | g, [] => .ok g
  | g, r :: rs =>
    (rtrace_ray g r).bind fun p =>
      if p.2 = true then .ok p.1 else rtrace_loop p.1 rs

/-- The loop writing the device results (rtrace.c:269-271). -/
def print_cache : Globals → List RAY → Globals
  | g, [] => g
  | g, r :: rs => print_cache (printvals g r).1 rs

/-- The end of `rtrace` (rtrace.c:262-284). What the device leaves in entry
`i` of the array is `dev i`. -/
def rtrace_end (dev : Nat → RAY → RAY) (g : Globals) : Res Globals :=
  let g1 : Globals :=
    if g.use_optix = true then
      let total := g.ray_cache.length
      let ga := { g with
        total_rays := total
        out := g.out ++ [Event.computeOptix
          (if g.hresolu ≠ 0 then g.hresolu.toNat else 1)
          (if g.vresolu ≠ 0 then g.vresolu.toNat else total)
          g.imm_irrad g.ray_cache] }
      let results := g.ray_cache.enum.map fun p => dev p.1 p.2
      let gb := print_cache { ga with ray_cache := results } results
      { gb with ray_cache := [] }
    else if 1 < g.ray_pnprocs then
      let ga := fifo_flush_if g
      { ga with out := ga.out ++ [Event.ray_pclose] }
    else g
  let g2 := { g1 with out := g1.out ++ [Event.fflush] }
  if g2.vcount ≠ 0 then .fatal .unexpected_EOF g2 else .ok g2

/-- The counters `rtrace` sets before its loop (rtrace.c:129-132, 174-181). -/
def rtrace_init (g : Globals) : Globals :=
  let vcount : Nat :=
    if 1 < g.hresolu then (g.hresolu * g.vresolu % 2 ^ 64).toNat
    else (g.vresolu % 2 ^ 64).toNat
  { g with
    vcount := vcount
    nextflush := flush_interval g
    something2flush := false
    total_rays := if g.use_optix = true
                  then (if vcount ≠ 0 then vcount else EXPECTED_RAY_COUNT)
                  else g.total_rays
    ray_cache := [] }

/-- The function `rtrace` (rtrace.c:124) from the setting of the counters on,
with the output tables set up and the worker processes, if any, started
(`ray_pnprocs`), on the records read from the input. -/
def rtrace (dev : Nat → RAY → RAY) (g : Globals) (input : List RAYIN) : Res Globals :=
  (rtrace_loop (rtrace_init g) input).bind (rtrace_end dev)

/-- The number of records `printvals` has written. -/
def nrecords (out : List Event) : Nat :=
  (out.filter fun e => match e with
    | Event.record _ _ _ => true
    | _ => false).length

/-! ### Notions the statements about `rtrace` use -/

/-- The value an operation returns, when it returns. -/
def Res.val? {α : Type} (r : Res α) : Option α :=
  match r with
  | .ok a => some a
  | _ => none

/-- The number of rays of the input that are no flush request. -/
def nonflush (input : List RAYIN) : Nat :=
  (input.filter fun r => !zerolen r.direc).length

/-- The number of flush requests of the input. -/
def nflush (input : List RAYIN) : Nat :=
  (input.filter fun r => zerolen r.direc).length

/-- A sequential run: one process, no device, no declared resolution, ascii
output of the value field. -/
def seq_state : Globals :=
  { hresolu := 0, vresolu := 0, outform := 'a', imm_irrad := false, lim_dist := false
    castonly := false, use_optix := false, ray_pnprocs := 0
    ray_out := [OField.oputv]
    thisray := { rorg := (0, 0, 0), rdir := (0, 0, 0), rmax := 0, revf := Revf.raytrace
                 traced := false }
    samplendx := 0, vcount := 0, nextflush := 0, something2flush := false
    total_rays := 0, ray_cache := [], out := [] }

/-- An input record with a zero direction: a flush request. -/
def flush_in : RAYIN :=
  { orig := (0, 0, 0), direc := (0, 0, 0), d := 0, ndir := (0, 0, 0) }

/-- An input record with the direction `(0,0,2)`, of length 2. -/
def ray_in : RAYIN :=
  { orig := (0, 0, 0), direc := (0, 0, 2), d := 2, ndir := (0, 0, 1) }


/-! ### Notions the statements about the device path of `rtrace` use -/

/-- The entries the device path stores for the records `input` when `thisray`
is `tr` before the first of them: a flush request stores `thisray` as it is,
any other record the ray `rtcompute` sets up, which is then `thisray`. -/
def cache_entries (g : Globals) : RAY → List RAYIN → List RAY
  | _, [] => []
  | tr, r :: rs =>
    let e := if zerolen r.direc = true then tr
             else primary_ray g r.orig r.ndir (if g.lim_dist = true then r.d else 0)
    e :: cache_entries g e rs

/-- The records the loop of `rtrace` reads from `input` when `vcount` rows are
declared: all of them when `vcount` is 0, else the first `vcount`. -/
def rows_read (vcount : Nat) (input : List RAYIN) : List RAYIN :=
  if vcount = 0 then input else input.take vcount

/-- The records the loop of `rtrace` leaves unread: the control flow of
`rtrace_loop`, returning what is left of the input when the loop ends. -/
def rtrace_rest : Globals → List RAYIN → Res (List RAYIN)
  | _, [] => .ok []
  | g, r :: rs =>
    (rtrace_ray g r).bind fun p =>
      if p.2 = true then .ok rs else rtrace_rest p.1 rs

/-- The device calls of an output, in order: the declared shape and the array
of rays. -/
def device_calls (out : List Event) : List (Nat × Nat × List RAY) :=
  out.filterMap fun e => match e with
    | Event.computeOptix w h _ rays => some (w, h, rays)
    | _ => none

/-- The records of an output, in order: the ray each was written for. -/
def record_rays (out : List Event) : List RAY :=
  out.filterMap fun e => match e with
    | Event.record _ r _ => some r
    | _ => none

/-- A run on the device with no declared resolution, ascii output of the
value field. -/
def optix_state : Globals :=
  { seq_state with use_optix := true }

/-- The entry the device path stores for the record `r`: `thisray` as it is
for a flush request, else the ray `rtcompute` sets up. -/
def optix_stored (g : Globals) (r : RAYIN) : RAY :=
  if zerolen r.direc = true then g.thisray
  else primary_ray g r.orig r.ndir (if g.lim_dist = true then r.d else 0)

/-- The state the device path is in after the record `r` is stored. -/
def optix_step (g : Globals) (r : RAYIN) : Globals :=
  { g with
    thisray := optix_stored g r
    total_rays := if g.ray_cache.length = g.total_rays then g.total_rays * 2 else g.total_rays
    ray_cache := g.ray_cache ++ [optix_stored g r] }


/-- The records `printvals` writes for the rays `rs`, one each and in order,
none when the field list is empty. -/
def records_for (g : Globals) (rs : List RAY) : List Event :=
  match g.ray_out with
  | [] => []
  | f :: fs => rs.map fun r => Event.record (f :: fs) r (decide (g.outform = 'a'))

/-- The array of rays as the device leaves it: entry `i` is `dev i` of what was
stored there. -/
def device_results (dev : Nat → RAY → RAY) (rays : List RAY) : List RAY :=
  rays.enum.map fun p => dev p.1 p.2

/-- The invariant of the ray cache: on the device the capacity is positive and
holds the entries stored. -/
def CacheOK (g : Globals) : Prop :=
  g.use_optix = true → 0 < g.total_rays ∧ g.ray_cache.length ≤ g.total_rays


/-! ### The input stream -/

/-- One item of the input stream: a number (in ascii a word that `isflt`
accepts, in binary a whole float or double), or anything else the stream
holds (in ascii a word that is no number, in binary the bytes of a number cut
short). -/
inductive Item
  | num (v : ℚ)
  | other
  deriving DecidableEq, Repr

/-- What `getvec` returns: 0 with the vector read, leaving the rest of the
stream; or -1; or it ends the program with the CONSISTENCY error
"botched input format". -/
inductive GetVec
  | vec (v : FVECT) (rest : List Item)
  | fail
  | botched
  deriving DecidableEq, Repr

/-- The function `getvec` (rtrace.c:518): get a vector from the stream. In
every format it returns -1 unless three numbers are next: in ascii when
`fgetword` finds no word or `isflt` refuses it, in binary when `getbinary`
reads fewer than 3 items. -/
def getvec (fmt : Char) (fp : List Item) : GetVec :=
  if fmt = 'a' ∨ fmt = 'f' ∨ fmt = 'd' then
    match fp with
    | .num x :: .num y :: .num z :: rest => .vec (x, y, z) rest
    | _ => .fail
  else .botched

/-- The records the condition of the loop of `rtrace`,
`getvec(orig) == 0 && getvec(direc) == 0`, yields one after the other in a
format that is not botched: the loop ends at the first vector that is not
three numbers. -/
def read_rays : List Item → List (FVECT × FVECT)
  | .num a :: .num b :: .num c :: .num d :: .num e :: .num f :: rest =>
    ((a, b, c), (d, e, f)) :: read_rays rest
  | _ => []

/-- The records read with what `normalize(direc)` makes of each direction:
`norm` gives the length it returns and the unit vector it leaves. -/
def rays_of (norm : FVECT → ℚ × FVECT) (recs : List (FVECT × FVECT)) : List RAYIN :=
  recs.map fun p => { orig := p.1, direc := p.2, d := (norm p.2).1, ndir := (norm p.2).2 }

/-- The function `rtrace` on the input stream: the first call of `getvec`
ends the program when the format is botched. -/
def rtrace_stream (dev : Nat → RAY → RAY) (norm : FVECT → ℚ × FVECT) (fmt : Char)
    (g : Globals) (fp : List Item) : Res Globals :=
  if fmt = 'a' ∨ fmt = 'f' ∨ fmt = 'd' then rtrace dev g (rays_of norm (read_rays fp))
  else .fatal .botched_input_format (rtrace_init g)

/-- The items of complete records, origin then direction. -/
def items_of : List (FVECT × FVECT) → List Item
  | [] => []
  | p :: ps =>
    .num p.1.1 :: .num p.1.2.1 :: .num p.1.2.2 ::
      .num p.2.1 :: .num p.2.2.1 :: .num p.2.2.2 :: items_of ps

/-- A normalisation for the examples: it is right for the vectors along the
third axis with a length that is not negative. -/
def norm_z (v : FVECT) : ℚ × FVECT :=
  (v.2.2, (0, 0, if v.2.2 = 0 then 0 else 1))


/-- A sequential run with 2 declared rows (`-y 2`). -/
def rows_state : Globals :=
  { seq_state with vresolu := 2 }


/-- A run on the device with no declared resolution that computes immediate
irradiance (`-I`). -/
def optix_irrad : Globals :=
  { optix_state with imm_irrad := true }


/-! ### The output tables -/

/-- The warnings of `setoutput`. -/
inductive OutWarning
  | otV_accuracy
  | otW_accuracy
  | oVW_require_trace
  | orRxX_incompatible
  deriving DecidableEq, Repr

/-- What `setoutput` reads besides the field string: the ambient parameters
and the irradiance flags, and the constant `FTINY` (fvect.h is not among the
sources). -/
structure OutConf where
  ambounce : Int
  ambacc : ℚ
  ambssamp : Int
  do_irrad : Bool
  imm_irrad : Bool
  FTINY : ℚ
  deriving DecidableEq, Repr

/-- The state of `setoutput`: the entries written into the two tables, each
ended by its NULL; `on_every` says that `table` points into `every_out`;
`tracing` that `trace` is `ourtrace`; `sources_followed` that `trace_sources`
was called. -/
structure Tables where
  ray_out : List OField
  every_out : List OField
  on_every : Bool
  castonly : Bool
  tracing : Bool
  sources_followed : Bool
  warnings : List OutWarning
  deriving DecidableEq, Repr

/-- The switch of `setoutput` (rtrace.c:311-399): the field writer a character
selects, without the DAYSIM code. -/
def writer_of (c : Char) : Option OField :=
  if c = 'o' then some .oputo
  else if c = 'd' then some .oputd
  else if c = 'r' then some .oputr
  else if c = 'R' then some .oputR
  else if c = 'x' then some .oputx
  else if c = 'X' then some .oputX
  else if c = 'v' then some .oputv
  else if c = 'V' then some .oputV
  else if c = 'l' then some .oputl
  else if c = 'c' then some .oputc
  else if c = 'L' then some .oputL
  else if c = 'p' then some .oputp
  else if c = 'n' then some .oputn
  else if c = 'N' then some .oputN
  else if c = 's' then some .oputs
  else if c = 'w' then some .oputw
  else if c = 'W' then some .oputW
  else if c = 'm' then some .oputm
  else if c = 'M' then some .oputM
  else if c = '~' then some .oputtilde
  else none

/-- The field writers whose case sets `castonly = 0`. -/
def clears_castonly (f : OField) : Bool :=
  match f with
  | .oputr | .oputR | .oputx | .oputX | .oputv | .oputl | .oputn | .oputW => true
  | _ => false

/-- The warning the cases of `V` and `W` give when the ambient calculation is
on: `ambounce > 0 && (ambacc > FTINY || ambssamp > 0)`. -/
def accuracy_warning (conf : OutConf) (f : OField) : List OutWarning :=
  if 0 < conf.ambounce ∧ (conf.FTINY < conf.ambacc ∨ 0 < conf.ambssamp) then
    match f with
    | .oputV => [.otV_accuracy]
    | .oputW => [.otW_accuracy]
    | _ => []
  else []

/-- The number of entries before the position `table` points to. -/
def table_pos (t : Tables) : Nat :=
  if t.on_every = true then t.every_out.length else t.ray_out.length

/-- The statement `*table++ = f` with the rest of its case: the tables have 32
entries each, a write past the end is undefined. -/
def put_field (conf : OutConf) (t : Tables) (f : OField) : Res Tables :=
  if 32 ≤ table_pos t then .undefined
  else
    let t1 := if t.on_every = true then { t with every_out := t.every_out ++ [f] }
              else { t with ray_out := t.ray_out ++ [f] }
    .ok { t1 with castonly := if clears_castonly f = true then false else t1.castonly
                  warnings := t1.warnings ++ accuracy_warning conf f }

/-- The statement `*table = NULL`. -/
def end_table (t : Tables) : Res Tables :=
  if 32 ≤ table_pos t then .undefined else .ok t

/-- The case `t` of the switch after its test of `*vs`: the table being
filled is ended and `every_out` is filled from its start. -/
def trace_table (t : Tables) : Res Tables :=
  (end_table t).bind fun t1 =>
    .ok { t1 with every_out := [], on_every := true, tracing := true, castonly := false }

/-- One round of the switch of `setoutput` for the character `c`, `vs` being
what follows it in the string. -/
def setoutput_char (conf : OutConf) (t : Tables) (c : Char) (vs : List Char) : Res Tables :=
  match writer_of c with
  | some f => put_field conf t f
  | none =>
    if c = 'T' then
      if vs = [] then .ok t else trace_table { t with sources_followed := true }
    else if c = 't' then
      if vs = [] then .ok t else trace_table t
    else .ok t

/-- The loop `while (*vs) switch (*vs++)` of `setoutput`. -/
def setoutput_loop (conf : OutConf) : Tables → List Char → Res Tables
  | t, [] => .ok t
  | t, c :: vs => (setoutput_char conf t c vs).bind fun t1 => setoutput_loop conf t1 vs

/-- The warnings of the compatibility check at the end of `setoutput`
(rtrace.c:402-409), for one entry of `ray_out`. -/
def compat_warnings (conf : OutConf) (f : OField) : List OutWarning :=
  (if f = .oputV ∨ f = .oputW then [OutWarning.oVW_require_trace] else []) ++
  (if (conf.do_irrad = true ∨ conf.imm_irrad = true) ∧
      (f = .oputr ∨ f = .oputR ∨ f = .oputx ∨ f = .oputX)
   then [OutWarning.orRxX_incompatible] else [])

/-- The function `setoutput` (rtrace.c:301): set up the output tables for the
field string `vs`. -/
def setoutput (conf : OutConf) (vs : List Char) : Res Tables :=
  let t0 : Tables :=
    { ray_out := [], every_out := [], on_every := false, castonly := true
      tracing := false, sources_followed := false, warnings := [] }
  (setoutput_loop conf t0 vs).bind fun t1 =>
    (end_table t1).bind fun t2 =>
      .ok { t2 with warnings := t2.warnings ++ (t2.ray_out.map (compat_warnings conf)).flatten }

/-! ### The trace callback -/

/-- A ray as the trace callback reads it: the modifier `r->ro->omod` of the
object it hit, `none` when it hit nothing (`r->ro == NULL`), and the ray it
was spawned from (`r->parent`), which a primary ray does not have. -/
inductive TRAY
  | primary (ro : Option Int)
  | spawned (ro : Option Int) (parent : TRAY)
  deriving DecidableEq, Repr

/-- The field `r->ro` of a ray, as far as the callback reads it. -/
def TRAY.ro : TRAY → Option Int
  | .primary ro => ro
  | .spawned ro _ => ro

/-- The field `r->parent` of a ray. -/
def TRAY.parent : TRAY → Option TRAY
  | .primary _ => none
  | .spawned _ p => some p

/-- What the trace callback writes to the standard output: a tab, the values
of a field writer, a newline. -/
inductive Written
  | tab
  | field (f : OField)
  | newline
  deriving DecidableEq, Repr

/-- The function `tabin` (rtrace.c:607): the loop
`for (rp = r->parent; rp != NULL; rp = rp->parent) putchar('\t')`. -/
def tabin : TRAY → List Written
  | .primary _ => []
  | .spawned _ p => Written.tab :: tabin p

/-- Modelled from the spec: the call `inset(traset, obj)`, 1 when the object
is in the trace set and 0 when it is not (objset.c is not among the
sources). -/
def inset (traset : List Int) (obj : Int) : Int :=
  if obj ∈ traset then 1 else 0

/-- What `ourtrace` reads: the table `every_out`, the flag `traincl`, the
trace set and the output format. -/
structure TraceConf where
  every_out : List OField
  traincl : Int
  traset : List Int
  outform : Char
  deriving DecidableEq, Repr

/-- The function `ourtrace` (rtrace.c:585): what it writes for the ray `r`. -/
def ourtrace (c : TraceConf) (r : TRAY) : List Written :=
  match c.every_out with
  | [] => []
  | f :: fs =>
    let skip : Bool :=
      match r.ro with
      | none => decide (c.traincl = 1)
      | some omod => decide (c.traincl ≠ -1 ∧ c.traincl ≠ inset c.traset omod)
    if skip = true then []
    else tabin r ++ (f :: fs).map Written.field ++
      (if c.outform = 'a' then [Written.newline] else [])

/-- The ancestors of a ray: its parent, the parent of its parent, and so on up
to the primary ray. -/
def ancestors (r : TRAY) : List TRAY :=
  match r with
  | .primary _ => []
  | .spawned _ p => p :: ancestors p

/-- A trace setting for the examples: the value field, ascii output, the trace
set holding the modifier 7. -/
def trace_conf (traincl : Int) : TraceConf :=
  { every_out := [OField.oputv], traincl := traincl, traset := [7], outform := 'a' }

/-- Ambient parameters for the examples: no ambient bounce. -/
def out_conf : OutConf :=
  { ambounce := 0, ambacc := 0, ambssamp := 0, do_irrad := false, imm_irrad := false
    FTINY := 1 / 1000000 }


/-- A run on the device with the horizontal resolution 2 and no vertical
resolution (`-x 2 -y 0`): no rows are declared. -/
def optix_x2 : Globals :=
  { optix_state with hresolu := 2 }

end Rtrace

/-! ## Theorems about `rcontrib` -/

namespace Rcontrib

@[simp] theorem bind_ok {α β : Type} (a : α) (f : α → Res β) :
    (Res.ok a).bind f = f a := rfl

@[simp] theorem bind_fatal {α β : Type} (t : ErrType) (m : Msg) (g : Globals)
    (f : α → Res β) : (Res.fatal t m g : Res α).bind f = Res.fatal t m g := rfl

@[simp] theorem bind_undefined {α β : Type} (f : α → Res β) :
    (Res.undefined : Res α).bind f = Res.undefined := rfl

theorem addcolor_eq_add (c1 c2 : DCOLOR) : addcolor c1 c2 = c1 + c2 := rfl

/-! ### The lookup table -/

theorem lu_find_cons (k : String) (a : String) (b : MODCONT) (tab : List (String × MODCONT)) :
    lu_find ((a, b) :: tab) k = if k = a then some b else lu_find tab k := by
  unfold lu_find
  rw [List.lookup_cons]
  by_cases h : k = a
  · simp [h]
  · have : (k == a) = false := by simpa using h
    simp [h, this]

theorem lu_find_lu_set (tab : List (String × MODCONT)) (k : String) (v : MODCONT)
    (k' : String) :
    lu_find (lu_set tab k v) k' =
      if k' = k then (lu_find tab k').map (fun _ => v) else lu_find tab k' := by
  induction tab with
  | nil => simp [lu_find, lu_set]
  | cons e tab ih =>
    obtain ⟨a, b⟩ := e
    have hset : lu_set ((a, b) :: tab) k v
        = (if a = k then (a, v) else (a, b)) :: lu_set tab k v := by
      simp [lu_set]
    rw [hset]
    by_cases hak : a = k
    · subst hak
      simp only [if_true, lu_find_cons, ih]
      by_cases hk : k' = a
      · simp [hk]
      · simp [hk]
    · simp only [hak, if_false, lu_find_cons, ih]
      by_cases hk : k' = a
      · subst hk
        simp [hak]
      · simp [hk]

theorem lu_set_keys (tab : List (String × MODCONT)) (k : String) (v : MODCONT) :
    (lu_set tab k v).map Prod.fst = tab.map Prod.fst := by
  induction tab with
  | nil => rfl
  | cons e tab ih =>
    simp only [lu_set, List.map_cons, List.map_map] at ih ⊢
    refine congrArg₂ _ ?_ ih
    by_cases h : e.1 = k <;> simp [h]

theorem lu_set_lu_set (tab : List (String × MODCONT)) (k : String) (v w : MODCONT) :
    lu_set (lu_set tab k v) k w = lu_set tab k w := by
  induction tab with
  | nil => rfl
  | cons e tab ih =>
    simp only [lu_set, List.map_cons, List.map_map] at ih ⊢
    refine congrArg₂ _ ?_ ih
    by_cases h : e.1 = k <;> simp [h]

theorem lu_find_none_of_not_mem (tab : List (String × MODCONT)) (k : String)
    (h : k ∉ tab.map Prod.fst) : lu_find tab k = none := by
  induction tab with
  | nil => rfl
  | cons e tab ih =>
    obtain ⟨a, b⟩ := e
    simp only [List.map_cons, List.mem_cons, not_or] at h
    rw [lu_find_cons, if_neg h.1]
    exact ih h.2

theorem lu_find_mem (tab : List (String × MODCONT)) (k : String) (mp : MODCONT)
    (h : lu_find tab k = some mp) : (k, mp) ∈ tab := by
  induction tab with
  | nil => simp [lu_find] at h
  | cons e tab ih =>
    obtain ⟨a, b⟩ := e
    rw [lu_find_cons] at h
    by_cases hk : k = a
    · rw [if_pos hk] at h
      simp only [Option.some.injEq] at h
      subst hk; subst h
      exact List.mem_cons_self _ _
    · rw [if_neg hk] at h
      exact List.mem_cons_of_mem _ (ih h)

theorem lu_find_some_of_mem_keys (tab : List (String × MODCONT)) (k : String)
    (h : k ∈ tab.map Prod.fst) : ∃ mp, lu_find tab k = some mp := by
  induction tab with
  | nil => simp at h
  | cons e tab ih =>
    obtain ⟨a, b⟩ := e
    rw [lu_find_cons]
    by_cases hk : k = a
    · exact ⟨b, by rw [if_pos hk]⟩
    · rw [if_neg hk]
      simp only [List.map_cons, List.mem_cons] at h
      rcases h with h | h
      · exact absurd h hk
      · exact ih h

theorem lu_find_append (tab : List (String × MODCONT)) (a : String) (b : MODCONT)
    (k : String) :
    lu_find (tab ++ [(a, b)]) k =
      match lu_find tab k with
      | some mp => some mp
      | none => if k = a then some b else none := by
  induction tab with
  | nil =>
    rw [List.nil_append, lu_find_cons]
    rfl
  | cons e tab ih =>
    obtain ⟨a', b'⟩ := e
    rw [List.cons_append, lu_find_cons, lu_find_cons]
    by_cases hk : k = a'
    · simp [hk]
    · simp only [hk, if_false]
      exact ih

/-- The table is left as it is by a store of the record it already holds, when
no name occurs twice. -/
theorem lu_set_self (tab : List (String × MODCONT)) (k : String) (mp : MODCONT)
    (hnd : (tab.map Prod.fst).Nodup) (h : lu_find tab k = some mp) :
    lu_set tab k mp = tab := by
  induction tab with
  | nil => rfl
  | cons e tab ih =>
    obtain ⟨a, b⟩ := e
    simp only [List.map_cons, List.nodup_cons] at hnd
    rw [lu_find_cons] at h
    have hset : lu_set ((a, b) :: tab) k mp
        = (if a = k then (a, mp) else (a, b)) :: lu_set tab k mp := by
      simp [lu_set]
    rw [hset]
    by_cases hk : k = a
    · subst hk
      rw [if_pos rfl] at h
      simp only [Option.some.injEq] at h
      subst h
      simp only [if_true]
      congr 1
      have hno : ∀ e ∈ tab, ¬ e.1 = k := by
        intro e he heq
        exact hnd.1 (heq ▸ List.mem_map_of_mem Prod.fst he)
      unfold lu_set
      conv_rhs => rw [← List.map_id tab]
      apply List.map_congr_left
      intro e he
      simp [hno e he]
    · rw [if_neg hk] at h
      have hak : ¬ a = k := fun h' => hk h'.symm
      simp only [hak, if_false]
      congr 1
      exact ih hnd.2 h

/-! ### The rounding of a `double` sum and the conversion to `int` -/

theorem rne_floor (y : ℚ) : Rat.floor y ≤ rne y ∧ rne y ≤ Rat.floor y + 1 := by
  unfold rne
  simp only []
  split_ifs <;> constructor <;> omega

theorem rne_ge (y : ℚ) (n : Int) (h : (n : ℚ) ≤ y) : n ≤ rne y :=
  le_trans (Rat.le_floor.mpr h) (rne_floor y).1

theorem rne_le (y : ℚ) (n : Int) (h : y ≤ n) : rne y ≤ n := by
  have h1 : ((Rat.floor y : Int) : ℚ) ≤ y := Int.floor_le y
  have hf : Rat.floor y ≤ n := by
    have : ((Rat.floor y : Int) : ℚ) ≤ (n : ℚ) := le_trans h1 h
    exact_mod_cast this
  by_cases hd : y - (Rat.floor y : Int) < 1 / 2
  · unfold rne
    simp only []
    rw [if_pos hd]
    exact hf
  · have hlt : Rat.floor y < n := by
      have : ((Rat.floor y : Int) : ℚ) < (n : ℚ) := by linarith
      exact_mod_cast this
    have := (rne_floor y).2
    omega

theorem rne_lt_iff (y : ℚ) (n : Int) (hn : n % 2 = 0) : rne y < n ↔ y < n - 1 / 2 := by
  have h1 : ((Rat.floor y : Int) : ℚ) ≤ y := Int.floor_le y
  have h2 : y < ((Rat.floor y : Int) : ℚ) + 1 := Int.lt_floor_add_one y
  constructor
  · intro h
    by_contra hc
    push_neg at hc
    have hf : n - 1 ≤ Rat.floor y := by
      apply Rat.le_floor.mpr
      push_cast
      linarith
    unfold rne at h
    simp only [] at h
    split_ifs at h with c1 c2 c3
    · have e : Rat.floor y = n - 1 := by omega
      rw [e] at c1
      push_cast at c1
      linarith
    · omega
    · omega
    · omega
  · intro h
    have hf : Rat.floor y ≤ n - 1 := by
      have : ((Rat.floor y : Int) : ℚ) < (n : ℚ) := by linarith
      have : Rat.floor y < n := by exact_mod_cast this
      omega
    unfold rne
    simp only []
    split_ifs with c1 c2 c3
    · omega
    · by_contra hc
      have e : Rat.floor y = n - 1 := by omega
      rw [e] at c2
      push_cast at c2
      linarith
    · omega
    · by_contra hc
      have e : Rat.floor y = n - 1 := by omega
      rw [e] at c1 c2
      push_cast at c1 c2
      linarith

theorem ilogb_up_spec (a : ℚ) : ∀ (k : Nat) (e : Int), (2 : ℚ) ^ e ≤ a →
    e ≤ ilogb_up a k e ∧ (2 : ℚ) ^ (ilogb_up a k e) ≤ a ∧
      (a < (2 : ℚ) ^ (ilogb_up a k e + 1) ∨ ilogb_up a k e = e + k) := by
  intro k
  induction k with
  | zero =>
    intro e h
    exact ⟨le_refl _, h, Or.inr (by simp [ilogb_up])⟩
  | succ k ih =>
    intro e h
    by_cases c : (2 : ℚ) ^ (e + 1) ≤ a
    · have e1 : ilogb_up a (k + 1) e = ilogb_up a k (e + 1) := by
        simp only [ilogb_up]
        rw [if_pos c]
      rw [e1]
      obtain ⟨h0, h1, h2⟩ := ih (e + 1) c
      refine ⟨by omega, h1, ?_⟩
      rcases h2 with h2 | h2
      · exact Or.inl h2
      · right
        rw [h2]
        push_cast
        ring
    · have e1 : ilogb_up a (k + 1) e = e := by
        simp only [ilogb_up]
        rw [if_neg c]
      rw [e1]
      exact ⟨le_refl _, h, Or.inl (lt_of_not_le c)⟩

theorem ilogb_down_spec (a : ℚ) : ∀ (k : Nat) (e : Int), a < (2 : ℚ) ^ (e + 1) →
    ilogb_down a k e ≤ e ∧ a < (2 : ℚ) ^ (ilogb_down a k e + 1) ∧
      ((2 : ℚ) ^ (ilogb_down a k e) ≤ a ∨ ilogb_down a k e = e - k) := by
  intro k
  induction k with
  | zero =>
    intro e h
    exact ⟨le_refl _, h, Or.inr (by simp [ilogb_down])⟩
  | succ k ih =>
    intro e h
    by_cases c : (2 : ℚ) ^ e ≤ a
    · have e1 : ilogb_down a (k + 1) e = e := by
        simp only [ilogb_down]
        rw [if_pos c]
      rw [e1]
      exact ⟨le_refl _, h, Or.inl c⟩
    · have e1 : ilogb_down a (k + 1) e = ilogb_down a k (e - 1) := by
        simp only [ilogb_down]
        rw [if_neg c]
      rw [e1]
      have c2 : a < (2 : ℚ) ^ (e - 1 + 1) := by
        rw [sub_add_cancel]
        exact lt_of_not_le c
      obtain ⟨h0, h1, h2⟩ := ih (e - 1) c2
      refine ⟨by omega, h1, ?_⟩
      rcases h2 with h2 | h2
      · exact Or.inl h2
      · right
        rw [h2]
        push_cast
        ring

theorem dexp_spec (a : ℚ) :
    -1022 ≤ dexp a ∧ ((2 : ℚ) ^ (dexp a) ≤ a ∨ dexp a = -1022) ∧
      (a < (2 : ℚ) ^ (dexp a + 1) ∨ dexp a = 1100) := by
  unfold dexp ilogb
  by_cases h : 1 ≤ a
  · rw [if_pos h]
    obtain ⟨h0, h1, h2⟩ := ilogb_up_spec a 1100 0 (by simpa using h)
    have e : max (ilogb_up a 1100 0) (-1022) = ilogb_up a 1100 0 := max_eq_left (by omega)
    rw [e]
    refine ⟨by omega, Or.inl h1, ?_⟩
    rcases h2 with h2 | h2
    · exact Or.inl h2
    · right
      rw [h2]
      norm_num
  · rw [if_neg h]
    obtain ⟨h0, h1, h2⟩ := ilogb_down_spec a 1100 (-1) (by simpa using lt_of_not_le h)
    by_cases hr : -1022 ≤ ilogb_down a 1100 (-1)
    · have e : max (ilogb_down a 1100 (-1)) (-1022) = ilogb_down a 1100 (-1) := max_eq_left hr
      rw [e]
      refine ⟨hr, ?_, Or.inl h1⟩
      rcases h2 with h2 | h2
      · exact Or.inl h2
      · exfalso
        rw [h2] at hr
        norm_num at hr
    · have e : max (ilogb_down a 1100 (-1)) (-1022) = -1022 := max_eq_right (by omega)
      rw [e]
      refine ⟨le_refl _, Or.inr rfl, Or.inl ?_⟩
      refine lt_of_lt_of_le h1 (zpow_le_zpow_right₀ (by norm_num) (by omega))

theorem dexp_eq (a : ℚ) (k : Int) (h1 : (2 : ℚ) ^ k ≤ a) (h2 : a < (2 : ℚ) ^ (k + 1))
    (hk1 : -1022 ≤ k) (hk2 : k < 1100) : dexp a = k := by
  obtain ⟨_, hl, hu⟩ := dexp_spec a
  have two : (1 : ℚ) < 2 := by norm_num
  have le1 : dexp a ≤ k := by
    rcases hl with hl | hl
    · have : (2 : ℚ) ^ (dexp a) < (2 : ℚ) ^ (k + 1) := lt_of_le_of_lt hl h2
      have := (zpow_lt_zpow_iff_right₀ two).mp this
      omega
    · omega
  rcases hu with hu | hu
  · have : (2 : ℚ) ^ k < (2 : ℚ) ^ (dexp a + 1) := lt_of_le_of_lt h1 hu
    have := (zpow_lt_zpow_iff_right₀ two).mp this
    omega
  · omega

theorem dround_pos (x : ℚ) (h : 0 < x) :
    dround x = rne (x / (2 : ℚ) ^ (dexp x - 52)) * (2 : ℚ) ^ (dexp x - 52) := by
  unfold dround
  rw [if_neg (ne_of_gt h), if_pos h]

theorem dround_neg (x : ℚ) : dround (-x) = -dround x := by
  rcases lt_trichotomy x 0 with h | h | h
  · have h1 : 0 < -x := by linarith
    have e1 : dround x = -dround (-x) := by
      rw [dround_pos (-x) h1]
      unfold dround
      rw [if_neg (ne_of_lt h), if_neg (not_lt.mpr (le_of_lt h))]
    rw [e1, neg_neg]
  · rw [h]
    simp [dround]
  · have h1 : ¬ 0 < -x := by linarith
    have h2 : -x ≠ 0 := by linarith
    rw [dround_pos x h]
    unfold dround
    rw [if_neg h2, if_neg h1, neg_neg]

theorem two_zpow_split (j : Nat) (e k : Int) (h : (j : Int) = k - e + 52) :
    (2 : ℚ) ^ j * (2 : ℚ) ^ (e - 52) = (2 : ℚ) ^ k := by
  have e1 : k = (j : Int) + (e - 52) := by omega
  rw [e1, zpow_add₀ (by norm_num : (2 : ℚ) ≠ 0), zpow_natCast]

theorem rne_ge_pow (y : ℚ) (j : Nat) (h : (2 : ℚ) ^ j ≤ y) :
    (2 : ℚ) ^ j ≤ (rne y : ℚ) := by
  have : (2 : Int) ^ j ≤ rne y := by
    apply rne_ge
    push_cast
    exact h
  exact_mod_cast this

theorem rne_le_pow (y : ℚ) (j : Nat) (h : y ≤ (2 : ℚ) ^ j) :
    (rne y : ℚ) ≤ (2 : ℚ) ^ j := by
  have : rne y ≤ (2 : Int) ^ j := by
    apply rne_le
    push_cast
    exact h
  exact_mod_cast this

/-- A positive real at least `2^k` is rounded to a double at least `2^k`. -/
theorem dround_ge_pow (a : ℚ) (k : Int) (ha : 0 < a) (hk : -1074 ≤ k)
    (h : (2 : ℚ) ^ k ≤ a) : (2 : ℚ) ^ k ≤ dround a := by
  obtain ⟨h0, hl, _⟩ := dexp_spec a
  have hu : (0 : ℚ) < (2 : ℚ) ^ (dexp a - 52) := zpow_pos (by norm_num) _
  rw [dround_pos a ha]
  by_cases c : 0 ≤ k - dexp a + 52
  · have hj : (((k - dexp a + 52).toNat : Nat) : Int) = k - dexp a + 52 := Int.toNat_of_nonneg c
    have hs := two_zpow_split _ _ _ hj
    have : (2 : ℚ) ^ (k - dexp a + 52).toNat ≤ (rne (a / (2 : ℚ) ^ (dexp a - 52)) : ℚ) := by
      apply rne_ge_pow
      rw [le_div_iff₀ hu, hs]
      exact h
    calc (2 : ℚ) ^ k = (2 : ℚ) ^ (k - dexp a + 52).toNat * (2 : ℚ) ^ (dexp a - 52) := hs.symm
      _ ≤ _ := mul_le_mul_of_nonneg_right this (le_of_lt hu)
  · have hle : (2 : ℚ) ^ (dexp a) ≤ a := by
      rcases hl with hl | hl
      · exact hl
      · omega
    have hs := two_zpow_split 52 (dexp a) (dexp a) (by omega)
    have : (2 : ℚ) ^ 52 ≤ (rne (a / (2 : ℚ) ^ (dexp a - 52)) : ℚ) := by
      apply rne_ge_pow
      rw [le_div_iff₀ hu, hs]
      exact hle
    calc (2 : ℚ) ^ k ≤ (2 : ℚ) ^ (dexp a) := zpow_le_zpow_right₀ (by norm_num) (by omega)
      _ = (2 : ℚ) ^ 52 * (2 : ℚ) ^ (dexp a - 52) := hs.symm
      _ ≤ _ := mul_le_mul_of_nonneg_right this (le_of_lt hu)

/-- A positive real below `2^k` is rounded to a double at most `2^k`. -/
theorem dround_le_pow (a : ℚ) (k : Int) (ha : 0 < a) (hk : -1074 ≤ k) (h : a < (2 : ℚ) ^ k) :
    dround a ≤ (2 : ℚ) ^ k := by
  obtain ⟨h0, hl, _⟩ := dexp_spec a
  have hu : (0 : ℚ) < (2 : ℚ) ^ (dexp a - 52) := zpow_pos (by norm_num) _
  have two : (1 : ℚ) < 2 := by norm_num
  have c : 0 ≤ k - dexp a + 52 := by
    rcases hl with hl | hl
    · have : (2 : ℚ) ^ (dexp a) < (2 : ℚ) ^ k := lt_of_le_of_lt hl h
      have := (zpow_lt_zpow_iff_right₀ two).mp this
      omega
    · omega
  have hj : (((k - dexp a + 52).toNat : Nat) : Int) = k - dexp a + 52 := Int.toNat_of_nonneg c
  have hs := two_zpow_split _ _ _ hj
  rw [dround_pos a ha]
  have : (rne (a / (2 : ℚ) ^ (dexp a - 52)) : ℚ) ≤ (2 : ℚ) ^ (k - dexp a + 52).toNat := by
    apply rne_le_pow
    rw [div_le_iff₀ hu, hs]
    exact le_of_lt h
  calc _ ≤ (2 : ℚ) ^ (k - dexp a + 52).toNat * (2 : ℚ) ^ (dexp a - 52) :=
        mul_le_mul_of_nonneg_right this (le_of_lt hu)
    _ = (2 : ℚ) ^ k := hs

theorem dround_nonneg (x : ℚ) (h : 0 ≤ x) : 0 ≤ dround x := by
  rcases eq_or_lt_of_le h with h | h
  · rw [← h]
    simp [dround]
  · rw [dround_pos x h]
    have hu : (0 : ℚ) < (2 : ℚ) ^ (dexp x - 52) := zpow_pos (by norm_num) _
    have : (0 : Int) ≤ rne (x / (2 : ℚ) ^ (dexp x - 52)) := by
      apply rne_ge
      push_cast
      exact div_nonneg (le_of_lt h) (le_of_lt hu)
    have : (0 : ℚ) ≤ (rne (x / (2 : ℚ) ^ (dexp x - 52)) : ℚ) := by exact_mod_cast this
    exact mul_nonneg this (le_of_lt hu)

theorem dround_nonpos (x : ℚ) (h : x ≤ 0) : dround x ≤ 0 := by
  have := dround_nonneg (-x) (by linarith)
  rw [dround_neg] at this
  linarith

/-- The threshold of the rounding below a double `n * 2^(k-52)` of exponent
`k` with an even mantissa `n`: the reals rounded below it are those below the
midpoint to its predecessor. -/
theorem dround_lt_iff (x : ℚ) (k : Int) (n : Int) (hk1 : -1022 ≤ k) (hk2 : k < 1099)
    (hn : n % 2 = 0) (hn1 : 2 ^ 52 < n) (hn2 : n ≤ 2 ^ 53) :
    dround x < n * (2 : ℚ) ^ (k - 52) ↔ x < (n - 1 / 2) * (2 : ℚ) ^ (k - 52) := by
  have hu : (0 : ℚ) < (2 : ℚ) ^ (k - 52) := zpow_pos (by norm_num) _
  have s0 := two_zpow_split 52 k k (by omega)
  have s1 := two_zpow_split 53 k (k + 1) (by omega)
  have c1 : (2 : ℚ) ^ 52 < (n : ℚ) := by exact_mod_cast hn1
  have c2 : (n : ℚ) ≤ (2 : ℚ) ^ 53 := by exact_mod_cast hn2
  have c3 : (2 : ℚ) ^ 52 + 1 ≤ (n : ℚ) := by
    have : (2 : Int) ^ 52 + 1 ≤ n := by omega
    exact_mod_cast this
  by_cases hx : 0 < x
  · by_cases a1 : x < (2 : ℚ) ^ k
    · have := dround_le_pow x k hx (by omega) a1
      constructor
      · intro _
        calc x < (2 : ℚ) ^ k := a1
          _ = (2 : ℚ) ^ 52 * (2 : ℚ) ^ (k - 52) := s0.symm
          _ ≤ (n - 1 / 2) * (2 : ℚ) ^ (k - 52) :=
            mul_le_mul_of_nonneg_right (by linarith) (le_of_lt hu)
      · intro _
        calc dround x ≤ (2 : ℚ) ^ k := this
          _ = (2 : ℚ) ^ 52 * (2 : ℚ) ^ (k - 52) := s0.symm
          _ < n * (2 : ℚ) ^ (k - 52) := mul_lt_mul_of_pos_right c1 hu
    · push_neg at a1
      by_cases a2 : x < (2 : ℚ) ^ (k + 1)
      · have he := dexp_eq x k a1 a2 hk1 (by omega)
        rw [dround_pos x hx, he, mul_lt_mul_right hu, ← div_lt_iff₀ hu]
        have := rne_lt_iff (x / (2 : ℚ) ^ (k - 52)) n hn
        constructor
        · intro h
          apply this.mp
          exact_mod_cast h
        · intro h
          have := this.mpr h
          exact_mod_cast this
      · push_neg at a2
        have := dround_ge_pow x (k + 1) hx (by omega) a2
        constructor
        · intro h
          exfalso
          have : (2 : ℚ) ^ (k + 1) < n * (2 : ℚ) ^ (k - 52) := lt_of_le_of_lt this h
          rw [← s1] at this
          have := (mul_lt_mul_right hu).mp this
          linarith
        · intro h
          exfalso
          have : (2 : ℚ) ^ (k + 1) < (n - 1 / 2) * (2 : ℚ) ^ (k - 52) := lt_of_le_of_lt a2 h
          rw [← s1] at this
          have := (mul_lt_mul_right hu).mp this
          linarith
  · push_neg at hx
    have := dround_nonpos x hx
    have p1 : (0 : ℚ) < n * (2 : ℚ) ^ (k - 52) := mul_pos (by linarith) hu
    have p2 : (0 : ℚ) < (n - 1 / 2) * (2 : ℚ) ^ (k - 52) := mul_pos (by linarith) hu
    constructor
    · intro _
      linarith
    · intro _
      linarith

theorem to_int_some_iff (x : ℚ) (n : Int) (hn : 0 < n) :
    to_int x = some n ↔ (n : ℚ) ≤ x ∧ x < n + 1 ∧ n < 2 ^ 31 := by
  unfold to_int
  simp only []
  by_cases h : 0 ≤ x
  · rw [if_pos h]
    have e : Rat.floor x = n ↔ (n : ℚ) ≤ x ∧ x < n + 1 := by
      change ⌊x⌋ = n ↔ _
      exact Int.floor_eq_iff
    constructor
    · intro hh
      split_ifs at hh with c
      have e1 : Rat.floor x = n := by simpa using hh
      rw [e1] at c
      exact ⟨(e.mp e1).1, (e.mp e1).2, c.2⟩
    · rintro ⟨a, b, c⟩
      have e1 := e.mpr ⟨a, b⟩
      rw [e1, if_pos ⟨by omega, c⟩]
  · rw [if_neg h]
    push_neg at h
    have hf : 0 ≤ Rat.floor (-x) := Rat.le_floor.mpr (by push_cast; linarith)
    constructor
    · intro hh
      split_ifs at hh with c
      have e1 : -Rat.floor (-x) = n := by simpa using hh
      omega
    · rintro ⟨a, _, _⟩
      exfalso
      have : (0 : ℚ) < (n : ℚ) := by exact_mod_cast hn
      linarith

theorem to_int_none_iff (x : ℚ) :
    to_int x = none ↔ ¬ (x < 2 ^ 31 ∧ -x < 2 ^ 31 + 1) := by
  unfold to_int
  simp only []
  by_cases h : 0 ≤ x
  · rw [if_pos h]
    have hf : 0 ≤ Rat.floor x := Rat.le_floor.mpr (by push_cast; linarith)
    have e : Rat.floor x < 2 ^ 31 ↔ x < 2 ^ 31 := by
      have := @Int.floor_lt ℚ _ _ (2 ^ 31) x
      push_cast at this
      exact this
    constructor
    · intro hh
      split_ifs at hh with c
      rintro ⟨a, _⟩
      exact c ⟨by omega, e.mpr a⟩
    · intro hh
      rw [if_neg]
      rintro ⟨_, c⟩
      exact hh ⟨e.mp c, by linarith⟩
  · rw [if_neg h]
    push_neg at h
    have hf : 0 ≤ Rat.floor (-x) := Rat.le_floor.mpr (by push_cast; linarith)
    have e : Rat.floor (-x) < 2 ^ 31 + 1 ↔ -x < 2 ^ 31 + 1 := by
      have := @Int.floor_lt ℚ _ _ (2 ^ 31 + 1) (-x)
      push_cast at this
      norm_num at this ⊢
      exact this
    constructor
    · intro hh
      split_ifs at hh with c
      rintro ⟨_, a⟩
      exact c ⟨by have := e.mpr a; omega, by omega⟩
    · intro hh
      rw [if_neg]
      rintro ⟨c, _⟩
      exact hh ⟨by linarith, e.mp (by omega)⟩

theorem to_int_nonneg (x : ℚ) (n : Int) (h : 0 ≤ x) (hn : to_int x = some n) : 0 ≤ n := by
  unfold to_int at hn
  simp only [] at hn
  rw [if_pos h] at hn
  have hf : 0 ≤ Rat.floor x := Rat.le_floor.mpr (by push_cast; linarith)
  split_ifs at hn with c
  have e1 : Rat.floor x = n := by simpa using hn
  omega

/-- The sum `v + 1.5` of `addmodifier` converts to 1 exactly for `v` from
`-1/2 - 2^-54` up to, but not including, `1/2 - 2^-53`. -/
theorem const_bin_one_iff (v : ℚ) :
    to_int (dround (v + 3 / 2)) = some 1 ↔
      -1 / 2 - 1 / 2 ^ 54 ≤ v ∧ v < 1 / 2 - 1 / 2 ^ 53 := by
  rw [to_int_some_iff _ 1 (by norm_num)]
  have t1 := dround_lt_iff (v + 3 / 2) (-1) (2 ^ 53) (by norm_num) (by norm_num) (by norm_num)
    (by norm_num) (by norm_num)
  have t2 := dround_lt_iff (v + 3 / 2) 0 (2 ^ 53) (by norm_num) (by norm_num) (by norm_num)
    (by norm_num) (by norm_num)
  norm_num at t1 t2
  constructor
  · rintro ⟨a, b, _⟩
    constructor
    · by_contra hc
      push_neg at hc
      have := t1.mpr (by linarith)
      norm_num at a
      linarith
    · have := t2.mp (by norm_num at b; linarith)
      linarith
  · rintro ⟨a, b⟩
    refine ⟨?_, ?_, by norm_num⟩
    · by_contra hc
      push_neg at hc
      have := t1.mp (by norm_num at hc; linarith)
      linarith
    · have := t2.mpr (by linarith)
      norm_num
      linarith

/-- The conversion of a rounded sum `x` to `int` is undefined exactly from
`2^31 - 2^-23` upwards and from `-(2^31 + 1 - 2^-22)` downwards. -/
theorem to_int_dround_none_iff (x : ℚ) :
    to_int (dround x) = none ↔
      ¬ (x < 2 ^ 31 - 1 / 2 ^ 23 ∧ -(2 ^ 31 + 1 - 1 / 2 ^ 22) < x) := by
  rw [to_int_none_iff]
  have t1 := dround_lt_iff x 30 (2 ^ 53) (by norm_num) (by norm_num) (by norm_num)
    (by norm_num) (by norm_num)
  have t2 := dround_lt_iff (-x) 31 (2 ^ 52 + 2 ^ 21) (by norm_num) (by norm_num) (by norm_num)
    (by norm_num) (by norm_num)
  rw [dround_neg] at t2
  norm_num at t1 t2
  constructor
  · intro h hc
    apply h
    constructor
    · have := t1.mpr (by linarith [hc.1])
      linarith
    · have := t2.mpr (by linarith [hc.2])
      linarith
  · intro h hc
    apply h
    constructor
    · have := t1.mp (by linarith [hc.1])
      linarith
    · have := t2.mp (by linarith [hc.2])
      linarith

/-- The double 0.49999999999999994, which is `1/2 - 2^-54`: its sum with 1.5
is rounded to 2 and its sum with .5 to 1, so the conversions give 2 and 1,
where the exact sums would give 1 and 0. -/
theorem to_int_below_half :
    dround (1 / 2 - 1 / 2 ^ 54 + 3 / 2) = 2 ∧
      to_int (dround (1 / 2 - 1 / 2 ^ 54 + 3 / 2)) = some 2 ∧
      dround (1 / 2 - 1 / 2 ^ 54 + 1 / 2) = 1 ∧
      to_int (dround (1 / 2 - 1 / 2 ^ 54 + 1 / 2)) = some 1 := by
  decide!

/-! ### `addmodifier` -/

theorem nbins_of_pos (binv : Option EPNODE) (bincnt : Int) (h : ¬ bad_bins binv bincnt) :
    0 < nbins_of binv bincnt := by
  unfold bad_bins at h
  unfold nbins_of
  cases heq : eparse binv with
  | NUM v => simp
  | EXPR i =>
    rw [heq] at h
    simp only [not_le] at h ⊢
    exact h

/-- What `addmodifier` returns, by cases on the checks it makes in order. -/
theorem addmodifier_eq (M : Nat) (g : Globals) (modn : String) (outf prms : Option String)
    (binv : Option EPNODE) (bincnt : Int) :
    addmodifier M g modn outf prms binv bincnt =
      if (lu_find g.modconttab modn).isSome then .fatal .USER (.duplicate_modifier modn) g
      else if M ≤ g.modname.length then .fatal .INTERNAL .too_many_modifiers g
      else if modn = VOIDID then .fatal .USER .cannot_track_void g
      else if bad_bins binv bincnt then
        (match eparse binv with
          | .NUM v =>
            (match to_int (dround (v + 3 / 2)) with
              | none => .undefined
              | some _ => .fatal .USER .illegal_constant_bin
                            { g with modname := g.modname ++ [modn] })
          | .EXPR _ => .fatal .USER (.bad_bin_count modn)
                        { g with modname := g.modname ++ [modn] })
      else .ok (registered g modn outf prms binv bincnt) := by
  unfold addmodifier
  cases hl : lu_find g.modconttab modn with
  | some mp => simp
  | none =>
    simp only [Option.isSome_none, Bool.false_eq_true, if_false]
    by_cases h1 : M ≤ g.modname.length
    · simp [h1]
    · simp only [h1, if_false]
      by_cases h2 : modn = VOIDID
      · simp [h2]
      · simp only [h2, if_false]
        by_cases hb : bad_bins binv bincnt
        · rw [if_pos hb]
          unfold bad_bins at hb
          generalize eparse binv = e at hb ⊢
          cases e with
          | NUM v =>
            have hb1 : to_int (dround (v + 3 / 2)) ≠ some 1 := hb
            cases hc : to_int (dround (v + 3 / 2)) with
            | none => simp [hc]
            | some n =>
              have h3 : ¬ n = 1 := fun h => hb1 (by rw [hc, h])
              simp [hc, h3]
          | EXPR i =>
            have h3 : bincnt ≤ 0 := hb
            simp [h3]
        · rw [if_neg hb]
          unfold bad_bins at hb
          unfold registered new_record nbins_of install
          generalize eparse binv = e at hb ⊢
          cases e with
          | NUM v =>
            have h3 : to_int (dround (v + 3 / 2)) = some 1 := not_not.mp hb
            simp [h3]
          | EXPR i =>
            have h3 : ¬ bincnt ≤ 0 := hb
            simp [h3]

theorem addmodifier_ok (M : Nat) (g : Globals) (modn : String) (outf prms : Option String)
    (binv : Option EPNODE) (bincnt : Int) (h1 : lu_find g.modconttab modn = none)
    (h2 : g.modname.length < M) (h3 : modn ≠ VOIDID) (h4 : ¬ bad_bins binv bincnt) :
    addmodifier M g modn outf prms binv bincnt
      = .ok (registered g modn outf prms binv bincnt) := by
  rw [addmodifier_eq]
  have h2' : ¬ M ≤ g.modname.length := by omega
  simp [h1, h2', h3, h4]

theorem addmodifier_ok_inv (M : Nat) (g g' : Globals) (modn : String)
    (outf prms : Option String) (binv : Option EPNODE) (bincnt : Int)
    (h : addmodifier M g modn outf prms binv bincnt = .ok g') :
    g' = registered g modn outf prms binv bincnt ∧ lu_find g.modconttab modn = none ∧
      g.modname.length < M ∧ modn ≠ VOIDID ∧ ¬ bad_bins binv bincnt := by
  rw [addmodifier_eq] at h
  by_cases h1 : (lu_find g.modconttab modn).isSome
  · simp [h1] at h
  · rw [if_neg h1] at h
    by_cases h2 : M ≤ g.modname.length
    · simp [h2] at h
    · rw [if_neg h2] at h
      by_cases h3 : modn = VOIDID
      · simp [h3] at h
      · rw [if_neg h3] at h
        by_cases h4 : bad_bins binv bincnt
        · rw [if_pos h4] at h
          cases he : eparse binv with
          | NUM v =>
            rw [he] at h
            cases hc : to_int (dround (v + 3 / 2)) <;> simp [hc] at h
          | EXPR i =>
            rw [he] at h
            simp at h
        · rw [if_neg h4] at h
          simp only [Res.ok.injEq] at h
          refine ⟨h.symm, ?_, by omega, h3, h4⟩
          simpa using h1

theorem not_mem_keys_of_lu_find_none (tab : List (String × MODCONT)) (k : String)
    (h : lu_find tab k = none) : k ∉ tab.map Prod.fst := by
  intro hk
  obtain ⟨mp, hmp⟩ := lu_find_some_of_mem_keys tab k hk
  rw [h] at hmp
  exact absurd hmp (by simp)

theorem regok_registered (g : Globals) (modn : String) (outf prms : Option String)
    (binv : Option EPNODE) (bincnt : Int) (h : RegOK g)
    (hn : lu_find g.modconttab modn = none) (hb : ¬ bad_bins binv bincnt) :
    RegOK (registered g modn outf prms binv bincnt) := by
  obtain ⟨hk, hnd, he⟩ := h
  have hnot := not_mem_keys_of_lu_find_none _ _ hn
  rw [hk] at hnot
  refine ⟨?_, ?_, ?_⟩
  · simp [registered, hk]
  · simp only [registered]
    rw [List.nodup_append]
    refine ⟨hnd, List.nodup_singleton _, ?_⟩
    intro a ha hb'
    simp only [List.mem_singleton] at hb'
    exact hnot (hb' ▸ ha)
  · intro e hmem
    simp only [registered, List.mem_append, List.mem_singleton] at hmem
    rcases hmem with hmem | hmem
    · exact he e hmem
    · subst hmem
      refine ⟨rfl, nbins_of_pos binv bincnt hb, ?_⟩
      simp [new_record]

/-- The empty registry is in order. -/
theorem regok_start (accumulate : Int) : RegOK (start accumulate) := by
  refine ⟨rfl, List.nodup_nil, ?_⟩
  intro e he
  simp [start] at he

/-- The registry is in order after `rcinit`, which leaves it as it is. -/
theorem regok_rcinit (g : Globals) (h : RegOK g) : RegOK (rcinit g) := h

/-- The registry is in order after any sequence of successful `addmodifier`
calls. -/
theorem regok_register_all (M : Nat) (reqs : List Request) :
    ∀ g g' : Globals, RegOK g → register_all M g reqs = .ok g' → RegOK g' := by
  induction reqs with
  | nil =>
    intro g g' hreg h
    simp only [register_all, Res.ok.injEq] at h
    exact h ▸ hreg
  | cons q qs ih =>
    intro g g' hreg h
    simp only [register_all] at h
    cases h1 : addmodifier M g q.modn q.outf q.prms q.binv q.bincnt with
    | fatal t m g1 => rw [h1] at h; simp at h
    | undefined => rw [h1] at h; simp at h
    | ok g1 =>
      rw [h1, bind_ok] at h
      obtain ⟨hg1, hn, _, _, hb⟩ := addmodifier_ok_inv _ _ _ _ _ _ _ _ h1
      exact ih g1 g' (hg1 ▸ regok_registered g q.modn q.outf q.prms q.binv q.bincnt hreg hn hb) h

/-- The registry of the scenario is the one `addmodifier` builds for "wall". -/
theorem wall_state_built :
    (addmodifier 8 (start 3) "wall" none none none 0).val?.map rcinit = some wall_state := by
  decide!

/-- Claim C6 (duplicate registration). For every registry state and every
modifier name that already has a record, `addmodifier` with that name ends
with the USER error "duplicate modifier", in a state that is the state before
the call: the modifier count, the name list, the total bin count and the
record of the first registration, with its bin count and bin values, are
unchanged. -/
theorem C6_duplicate_registration (M : Nat) (g : Globals) (modn : String)
    (outf prms : Option String) (binv : Option EPNODE) (bincnt : Int) (mp : MODCONT)
    (h : lu_find g.modconttab modn = some mp) :
    addmodifier M g modn outf prms binv bincnt
        = .fatal .USER (.duplicate_modifier modn) g ∧
      ∀ g', addmodifier M g modn outf prms binv bincnt
          = .fatal .USER (.duplicate_modifier modn) g' →
        g'.modname.length = g.modname.length ∧ g'.modname = g.modname ∧
          g'.total_bins = g.total_bins ∧ lu_find g'.modconttab modn = some mp := by
  have heq : addmodifier M g modn outf prms binv bincnt
      = .fatal .USER (.duplicate_modifier modn) g := by
    rw [addmodifier_eq]
    simp [h]
  refine ⟨heq, ?_⟩
  intro g' hg'
  rw [heq] at hg'
  simp only [Res.fatal.injEq, true_and] at hg'
  subst hg'
  exact ⟨rfl, rfl, rfl, h⟩

/-- The duplicate registration of "wall" in the registry of the scenario. -/
theorem C6_duplicate_registration_witness :
    addmodifier 8 wall_state "wall" none none (some (EPNODE.EXPR 0)) 4
        = .fatal .USER (.duplicate_modifier "wall") wall_state ∧
      ∀ g', addmodifier 8 wall_state "wall" none none (some (EPNODE.EXPR 0)) 4
          = .fatal .USER (.duplicate_modifier "wall") g' →
        g'.modname.length = wall_state.modname.length ∧ g'.modname = wall_state.modname ∧
          g'.total_bins = wall_state.total_bins ∧
          lu_find g'.modconttab "wall"
            = some (new_record (start 3) "wall" none none none 0) :=
  C6_duplicate_registration 8 wall_state "wall" none none (some (EPNODE.EXPR 0)) 4
    (new_record (start 3) "wall" none none none 0)
    (by decide!)

/-- Claim C7, the claim as worded fails: the constant bin expression `1` with
the explicit positive bin count 5 is outside both failure cases of the claim,
and `addmodifier` ends with the bin-count error "illegal non-zero constant for
bin". -/
theorem C7_counterexample :
    ¬ spec_bad_bins (some (EPNODE.NUM 1)) 5 ∧
      addmodifier 8 (start 1) "wall" none none (some (EPNODE.NUM 1)) 5
        = .fatal .USER .illegal_constant_bin { start 1 with modname := ["wall"] } := by
  decide!

/-- What `addmodifier` returns for a constant bin expression `v`, once the
name checks have passed, by the value of `v`. -/
theorem addmodifier_const (M : Nat) (g : Globals) (modn : String)
    (outf prms : Option String) (binv : Option EPNODE) (bincnt : Int) (v : ℚ)
    (h1 : lu_find g.modconttab modn = none) (h2 : g.modname.length < M)
    (h3 : modn ≠ VOIDID) (hv : eparse binv = .NUM v) :
    addmodifier M g modn outf prms binv bincnt =
      if ¬ (-(2 ^ 31 + 1 - 1 / 2 ^ 22) < v + 3 / 2 ∧ v + 3 / 2 < 2 ^ 31 - 1 / 2 ^ 23) then
        .undefined
      else if -1 / 2 - 1 / 2 ^ 54 ≤ v ∧ v < 1 / 2 - 1 / 2 ^ 53 then
        .ok (registered g modn outf prms binv bincnt)
      else .fatal .USER .illegal_constant_bin { g with modname := g.modname ++ [modn] } := by
  have h2' : ¬ M ≤ g.modname.length := by omega
  have hbad : bad_bins binv bincnt ↔ to_int (dround (v + 3 / 2)) ≠ some 1 := by
    unfold bad_bins
    rw [hv]
  have hone := const_bin_one_iff v
  have hnone := to_int_dround_none_iff (v + 3 / 2)
  rw [addmodifier_eq]
  simp only [h1, Option.isSome_none, Bool.false_eq_true, if_false, h2', h3, hv]
  by_cases hr : -(2 ^ 31 + 1 - 1 / 2 ^ 22) < v + 3 / 2 ∧ v + 3 / 2 < 2 ^ 31 - 1 / 2 ^ 23
  · rw [if_neg (not_not.mpr hr)]
    have hdef : to_int (dround (v + 3 / 2)) ≠ none := fun h => hnone.mp h ⟨hr.2, hr.1⟩
    by_cases hi : -1 / 2 - 1 / 2 ^ 54 ≤ v ∧ v < 1 / 2 - 1 / 2 ^ 53
    · rw [if_pos hi, if_neg (fun hb => hbad.mp hb (hone.mpr hi))]
    · rw [if_neg hi, if_pos (hbad.mpr fun h => hi (hone.mp h))]
      cases hc : to_int (dround (v + 3 / 2)) with
      | none => exact absurd hc hdef
      | some n => rfl
  · rw [if_pos hr]
    have hc : to_int (dround (v + 3 / 2)) = none := hnone.mpr fun h => hr ⟨h.2, h.1⟩
    rw [if_pos (hbad.mpr (by rw [hc]; simp)), hc]

/-- What `addmodifier` returns for a bin expression that is not constant, once
the name checks have passed. -/
theorem addmodifier_expr (M : Nat) (g : Globals) (modn : String)
    (outf prms : Option String) (binv : Option EPNODE) (bincnt : Int) (i : Nat)
    (h1 : lu_find g.modconttab modn = none) (h2 : g.modname.length < M)
    (h3 : modn ≠ VOIDID) (hv : eparse binv = .EXPR i) :
    addmodifier M g modn outf prms binv bincnt =
      if bincnt ≤ 0 then
        .fatal .USER (.bad_bin_count modn) { g with modname := g.modname ++ [modn] }
      else .ok (registered g modn outf prms binv bincnt) := by
  have h2' : ¬ M ≤ g.modname.length := by omega
  have hbad : bad_bins binv bincnt ↔ bincnt ≤ 0 := by
    unfold bad_bins
    rw [hv]
  rw [addmodifier_eq]
  simp only [h1, Option.isSome_none, Bool.false_eq_true, if_false, h2', h3, hv]
  by_cases hb : bincnt ≤ 0
  · rw [if_pos (hbad.mpr hb), if_pos hb]
  · rw [if_neg (fun h => hb (hbad.mp h)), if_neg hb]

/-- Claim C7 (bad bin count), amended. When the name checks pass, `addmodifier`
ends with a bin-count error exactly when (a) the bin expression is a constant
`v` for which the sum `v + 1.5`, rounded as a double, converts to an `int`
other than 1, whatever bin count was supplied: `v` is outside
`[-1/2 - 2^-54, 1/2 - 2^-53)` and the sum is in the range where the
conversion is defined, above `-(2^31 + 1 - 2^-22)` and below `2^31 - 2^-23`;
or (b) the bin expression is not a constant and the supplied bin count is not
positive. A constant in `[-1/2 - 2^-54, 1/2 - 2^-53)` and an expression with a
positive bin count are registered; for a constant whose sum is outside the
range of the conversion the behaviour is undefined. -/
theorem C7_bad_bin_count (M : Nat) (g : Globals) (modn : String)
    (outf prms : Option String) (binv : Option EPNODE) (bincnt : Int)
    (h1 : lu_find g.modconttab modn = none) (h2 : g.modname.length < M)
    (h3 : modn ≠ VOIDID) :
    (∀ v, eparse binv = .NUM v →
      (is_bin_error (addmodifier M g modn outf prms binv bincnt) ↔
        ¬ (-1 / 2 - 1 / 2 ^ 54 ≤ v ∧ v < 1 / 2 - 1 / 2 ^ 53) ∧
          -(2 ^ 31 + 1 - 1 / 2 ^ 22) < v + 3 / 2 ∧ v + 3 / 2 < 2 ^ 31 - 1 / 2 ^ 23) ∧
      (addmodifier M g modn outf prms binv bincnt
          = .ok (registered g modn outf prms binv bincnt) ↔
        -1 / 2 - 1 / 2 ^ 54 ≤ v ∧ v < 1 / 2 - 1 / 2 ^ 53) ∧
      (addmodifier M g modn outf prms binv bincnt = .undefined ↔
        ¬ (-(2 ^ 31 + 1 - 1 / 2 ^ 22) < v + 3 / 2 ∧ v + 3 / 2 < 2 ^ 31 - 1 / 2 ^ 23))) ∧
    (∀ i, eparse binv = .EXPR i →
      (is_bin_error (addmodifier M g modn outf prms binv bincnt) ↔ bincnt ≤ 0) ∧
      (addmodifier M g modn outf prms binv bincnt
          = .ok (registered g modn outf prms binv bincnt) ↔ 0 < bincnt)) := by
  constructor
  · intro v hv
    rw [addmodifier_const M g modn outf prms binv bincnt v h1 h2 h3 hv]
    by_cases hr : -(2 ^ 31 + 1 - 1 / 2 ^ 22) < v + 3 / 2 ∧ v + 3 / 2 < 2 ^ 31 - 1 / 2 ^ 23
    · rw [if_neg (not_not.mpr hr)]
      by_cases hi : -1 / 2 - 1 / 2 ^ 54 ≤ v ∧ v < 1 / 2 - 1 / 2 ^ 53
      · rw [if_pos hi]
        refine ⟨⟨fun h => False.elim h, fun h => h.1 hi⟩, ⟨fun _ => hi, fun _ => rfl⟩,
          ⟨fun h => ?_, fun h => absurd hr h⟩⟩
        exact absurd h (by simp)
      · rw [if_neg hi]
        refine ⟨⟨fun _ => ⟨hi, hr⟩, fun _ => trivial⟩,
          ⟨fun h => ?_, fun h => absurd h hi⟩, ⟨fun h => ?_, fun h => absurd hr h⟩⟩
        · exact absurd h (by simp)
        · exact absurd h (by simp)
    · rw [if_pos hr]
      refine ⟨⟨fun h => False.elim h, fun h => hr h.2⟩, ⟨fun h => ?_, fun h => ?_⟩,
        ⟨fun _ => hr, fun _ => rfl⟩⟩
      · exact absurd h (by simp)
      · exfalso
        apply hr
        constructor <;> linarith [h.1, h.2]
  · intro i hv
    rw [addmodifier_expr M g modn outf prms binv bincnt i h1 h2 h3 hv]
    by_cases hb : bincnt ≤ 0
    · rw [if_pos hb]
      refine ⟨⟨fun _ => hb, fun _ => trivial⟩, ⟨fun h => ?_, fun h => ?_⟩⟩
      · exact absurd h (by simp)
      · omega
    · rw [if_neg hb]
      exact ⟨⟨fun h => False.elim h, fun h => absurd h hb⟩,
        ⟨fun _ => by omega, fun _ => rfl⟩⟩

/-- Both cases on the modifier "wall". (a) The constant `1/2 - 2^-54`, the
double 0.49999999999999994, is rejected, since the sum with 1.5 is rounded to
2, and the constant 0 is registered. (b) An expression that is not constant is
rejected with the bin count 0 and registered with the bin count 5. -/
theorem C7_bad_bin_count_witness :
    is_bin_error (addmodifier 8 (start 1) "wall" none none
        (some (EPNODE.NUM (1 / 2 - 1 / 2 ^ 54))) 0) ∧
      addmodifier 8 (start 1) "wall" none none (some (EPNODE.NUM 0)) 0
        = .ok (registered (start 1) "wall" none none (some (EPNODE.NUM 0)) 0) ∧
      is_bin_error (addmodifier 8 (start 1) "wall" none none (some (EPNODE.EXPR 0)) 0) ∧
      addmodifier 8 (start 1) "wall" none none (some (EPNODE.EXPR 0)) 5
        = .ok (registered (start 1) "wall" none none (some (EPNODE.EXPR 0)) 5) :=
  ⟨((C7_bad_bin_count 8 (start 1) "wall" none none (some (EPNODE.NUM (1 / 2 - 1 / 2 ^ 54))) 0
      (by decide!) (by decide!) (by decide!)).1 (1 / 2 - 1 / 2 ^ 54) rfl).1.mpr (by decide!),
    ((C7_bad_bin_count 8 (start 1) "wall" none none (some (EPNODE.NUM 0)) 0
      (by decide!) (by decide!) (by decide!)).1 0 rfl).2.1.mpr (by decide!),
    ((C7_bad_bin_count 8 (start 1) "wall" none none (some (EPNODE.EXPR 0)) 0
      (by decide!) (by decide!) (by decide!)).2 0 rfl).1.mpr (by decide!),
    ((C7_bad_bin_count 8 (start 1) "wall" none none (some (EPNODE.EXPR 0)) 5
      (by decide!) (by decide!) (by decide!)).2 0 rfl).2.mpr (by decide!)⟩

/-! ### Bin slots -/

theorem contiguous_snoc (s : Nat) (l : List MODCONT) (mp : MODCONT) :
    Contiguous s (l ++ [mp]) ↔
      Contiguous s l ∧ mp.start_bin = s + bins_sum l ∧ 0 < mp.nbins := by
  induction l generalizing s with
  | nil => simp [Contiguous, bins_sum]
  | cons a l ih =>
    rw [List.cons_append]
    show (a.start_bin = s ∧ 0 < a.nbins ∧ Contiguous (s + a.nbins.toNat) (l ++ [mp])) ↔
      (a.start_bin = s ∧ 0 < a.nbins ∧ Contiguous (s + a.nbins.toNat) l) ∧
        mp.start_bin = s + bins_sum (a :: l) ∧ 0 < mp.nbins
    rw [ih]
    have hsum : bins_sum (a :: l) = a.nbins.toNat + bins_sum l := by simp [bins_sum]
    rw [hsum]
    constructor
    · rintro ⟨h1, h2, h3, h4, h5⟩
      exact ⟨⟨h1, h2, h3⟩, by omega, h5⟩
    · rintro ⟨⟨h1, h2, h3⟩, h4, h5⟩
      exact ⟨h1, h2, h3, by omega, h5⟩

theorem contiguous_lower (s : Nat) (l : List MODCONT) (h : Contiguous s l) :
    ∀ mp ∈ l, s ≤ mp.start_bin := by
  induction l generalizing s with
  | nil => simp
  | cons a l ih =>
    obtain ⟨h1, _, h3⟩ := h
    intro mp hmp
    rcases List.mem_cons.mp hmp with hmp | hmp
    · subst hmp
      omega
    · have := ih _ h3 mp hmp
      omega

theorem contiguous_pairwise (s : Nat) (l : List MODCONT) (h : Contiguous s l) :
    l.Pairwise range_before := by
  induction l generalizing s with
  | nil => exact List.Pairwise.nil
  | cons a l ih =>
    obtain ⟨h1, _, h3⟩ := h
    refine List.Pairwise.cons ?_ (ih _ h3)
    intro b hb
    have := contiguous_lower _ l h3 b hb
    unfold range_before
    omega

theorem records_registered (g : Globals) (modn : String) (outf prms : Option String)
    (binv : Option EPNODE) (bincnt : Int) :
    records (registered g modn outf prms binv bincnt)
      = records g ++ [new_record g modn outf prms binv bincnt] := by
  simp [records, registered]

theorem bins_sum_snoc (l : List MODCONT) (mp : MODCONT) :
    bins_sum (l ++ [mp]) = bins_sum l + mp.nbins.toNat := by
  simp [bins_sum]

theorem register_all_slots (M : Nat) (reqs : List Request) :
    ∀ g g' : Globals, register_all M g reqs = .ok g' →
      Contiguous 0 (records g) → g.total_bins = bins_sum (records g) →
      bins_sum (records g) + ((requested reqs).map Int.toNat).sum < 2 ^ 32 →
      (records g').map MODCONT.nbins = (records g).map MODCONT.nbins ++ requested reqs ∧
        Contiguous 0 (records g') ∧
        g'.total_bins = bins_sum (records g) + ((requested reqs).map Int.toNat).sum := by
  induction reqs with
  | nil =>
    intro g g' h hc ht _
    simp only [register_all, Res.ok.injEq] at h
    subst h
    simp [requested, hc, ht]
  | cons q qs ih =>
    intro g g' h hc ht hs
    simp only [register_all] at h
    cases h1 : addmodifier M g q.modn q.outf q.prms q.binv q.bincnt with
    | fatal t m g1 => rw [h1] at h; simp at h
    | undefined => rw [h1] at h; simp at h
    | ok g1 =>
      rw [h1, bind_ok] at h
      obtain ⟨hg1, _, _, _, hb⟩ := addmodifier_ok_inv _ _ _ _ _ _ _ _ h1
      have hpos := nbins_of_pos _ _ hb
      have hsum : ((requested (q :: qs)).map Int.toNat).sum
          = (nbins_of q.binv q.bincnt).toNat + ((requested qs).map Int.toNat).sum := by
        simp [requested]
      rw [hsum] at hs ⊢
      have hrec : records g1 = records g ++ [new_record g q.modn q.outf q.prms q.binv q.bincnt] := by
        rw [hg1, records_registered]
      have hnb : (new_record g q.modn q.outf q.prms q.binv q.bincnt).nbins
          = nbins_of q.binv q.bincnt := rfl
      have hbs : bins_sum (records g1)
          = bins_sum (records g) + (nbins_of q.binv q.bincnt).toNat := by
        rw [hrec, bins_sum_snoc, hnb]
      have hc1 : Contiguous 0 (records g1) := by
        rw [hrec, contiguous_snoc]
        refine ⟨hc, ?_, by rw [hnb]; exact hpos⟩
        simp [new_record, ht]
      have ht1 : g1.total_bins = bins_sum (records g1) := by
        rw [hbs, hg1]
        simp only [registered]
        rw [ht]
        exact Nat.mod_eq_of_lt (by omega)
      obtain ⟨r1, r2, r3⟩ := ih g1 g' h hc1 ht1 (by rw [hbs]; omega)
      refine ⟨?_, r2, by rw [r3, hbs]; omega⟩
      rw [r1, hrec]
      simp [requested, hnb]

/-- Claim C8, the claim as worded fails: `addmodifier` called for "wall" with
no bin expression and the supplied positive bin count 5 succeeds and advances
the total bin count by 1, not by 5. -/
theorem C8_counterexample :
    ∃ g', addmodifier 8 (start 1) "wall" none none none 5 = .ok g' ∧
      g'.total_bins = (start 1).total_bins + 1 ∧
      g'.total_bins ≠ (start 1).total_bins + 5 :=
  ⟨registered (start 1) "wall" none none none 5, by decide!, by decide!, by decide!⟩

/-- Claim C8 (bin slot reservation), amended. Every successful `addmodifier`
call sets the `start_bin` of the new record to the total bin count before the
call and advances the total, an `unsigned int`, by the bin count of the
record: the supplied count when the bin expression is not a constant, and 1
when it is a constant, whatever count was supplied. After any sequence of
successful registrations from the empty registry whose bin counts sum up to
less than `2^32`, the bin ranges of the records are contiguous from 0 in
registration order, pairwise disjoint, and the total is the sum of those bin
counts. -/
theorem C8_bin_slots (M : Nat) (g : Globals) (reqs : List Request) (g' : Globals)
    (h0 : g.modconttab = []) (ht : g.total_bins = 0)
    (h : register_all M g reqs = .ok g')
    (hs : ((requested reqs).map Int.toNat).sum < 2 ^ 32) :
    ((records g').map MODCONT.nbins = requested reqs ∧
      Contiguous 0 (records g') ∧
      (records g').Pairwise range_before ∧
      g'.total_bins = ((requested reqs).map Int.toNat).sum) ∧
    (∀ (g1 g2 : Globals) (modn : String) (outf prms : Option String)
        (binv : Option EPNODE) (bincnt : Int),
      addmodifier M g1 modn outf prms binv bincnt = .ok g2 →
      ∃ mp, lu_find g2.modconttab modn = some mp ∧ mp.start_bin = g1.total_bins ∧
        mp.nbins = nbins_of binv bincnt ∧
        g2.total_bins = (g1.total_bins + mp.nbins.toNat) % 2 ^ 32) := by
  constructor
  · have hr : records g = [] := by simp [records, h0]
    obtain ⟨r1, r2, r3⟩ := register_all_slots M reqs g g' h
      (by rw [hr]; exact trivial) (by rw [hr, ht]; rfl) (by rw [hr]; simpa [bins_sum] using hs)
    rw [hr] at r1 r3
    refine ⟨by simpa using r1, r2, contiguous_pairwise 0 _ r2, by simpa [bins_sum] using r3⟩
  · intro g1 g2 modn outf prms binv bincnt h12
    obtain ⟨hg2, hn, _, _, _⟩ := addmodifier_ok_inv _ _ _ _ _ _ _ _ h12
    refine ⟨new_record g1 modn outf prms binv bincnt, ?_, rfl, rfl, ?_⟩
    · rw [hg2]
      simp only [registered]
      rw [lu_find_append, hn]
      simp
    · rw [hg2]
      rfl

/-- The registrations of "wall" with no bin expression and the count 5, then
of "floor" with a bin expression that is not constant and the count 4. -/
theorem C8_bin_slots_witness :
    ((records (registered (registered (start 1) "wall" none none none 5)
          "floor" none none (some (EPNODE.EXPR 0)) 4)).map MODCONT.nbins = [1, 4] ∧
      (registered (registered (start 1) "wall" none none none 5)
          "floor" none none (some (EPNODE.EXPR 0)) 4).total_bins = 5) :=
  have h := C8_bin_slots 8 (start 1)
    [⟨"wall", none, none, none, 5⟩, ⟨"floor", none, none, some (EPNODE.EXPR 0), 4⟩]
    (registered (registered (start 1) "wall" none none none 5)
      "floor" none none (some (EPNODE.EXPR 0)) 4)
    rfl rfl (by decide!) (by decide!)
  ⟨h.1.1, h.1.2.2.2⟩

/-! ### `addmodfile` -/

theorem lu_find_registered_ne (g : Globals) (modn : String) (outf prms : Option String)
    (binv : Option EPNODE) (bincnt : Int) (n : String) (hne : n ≠ modn)
    (hn : lu_find g.modconttab n = none) :
    lu_find (registered g modn outf prms binv bincnt).modconttab n = none := by
  simp only [registered]
  rw [lu_find_append, hn]
  simp [hne]

theorem addmodfile_loop_ok (M : Nat) (outf prms : Option String) (binv : Option EPNODE)
    (bincnt : Int) (hb : ¬ bad_bins binv bincnt) (names : List String) :
    ∀ g : Globals, names.Nodup → VOIDID ∉ names →
      (∀ n ∈ names, lu_find g.modconttab n = none) →
      g.modname.length + names.length ≤ M →
      ∃ g', addmodfile_loop M outf prms binv bincnt g names = .ok g' ∧
        g'.modname = g.modname ++ names ∧
        g'.modconttab.map Prod.fst = g.modconttab.map Prod.fst ++ names := by
  induction names with
  | nil =>
    intro g _ _ _ _
    exact ⟨g, rfl, by simp, by simp⟩
  | cons m ms ih =>
    intro g hnd hv hfree hlen
    simp only [List.nodup_cons] at hnd
    simp only [List.mem_cons, not_or] at hv
    simp only [List.length_cons] at hlen
    have hm : lu_find g.modconttab m = none := hfree m (List.mem_cons_self _ _)
    have hok := addmodifier_ok M g m outf prms binv bincnt hm (by omega)
      (fun h => hv.1 h.symm) hb
    have hfree' : ∀ n ∈ ms,
        lu_find (registered g m outf prms binv bincnt).modconttab n = none := by
      intro n hn
      refine lu_find_registered_ne g m outf prms binv bincnt n ?_
        (hfree n (List.mem_cons_of_mem _ hn))
      intro h
      exact hnd.1 (h ▸ hn)
    obtain ⟨g', h1, h2, h3⟩ := ih (registered g m outf prms binv bincnt) hnd.2 hv.2 hfree'
      (by simp only [registered, List.length_append, List.length_singleton]; omega)
    refine ⟨g', ?_, ?_, ?_⟩
    · simp only [addmodfile_loop, hok, bind_ok]
      exact h1
    · rw [h2]
      simp [registered]
    · rw [h3]
      simp [registered]

/-- The guard of `addmodfile` on the number of names, for every capacity. -/
theorem addmodfile_guard (M : Nat) (g : Globals) (names : List String)
    (outf prms : Option String) (binv : Option EPNODE) (bincnt : Int)
    (h : M - 1 ≤ names.length) :
    addmodfile M g (some names) outf prms binv bincnt
      = .fatal .INTERNAL .too_many_in_file g := by
  unfold addmodfile wordfile
  simp only [Option.map_some', List.length_take]
  rw [if_pos (by omega)]

/-- Claim C10, the claim as worded fails, in two ways. With room for 4
modifiers and an empty registry, a file of 3 distinct names, none of them the
void name, fits the remaining capacity (0 + 3 ≤ 4) and has a valid bin
specification, and `addmodfile` ends with the INTERNAL error "too many
modifiers in file" before it registers any name. With room for 10000
modifiers and "wall" registered, the file that holds the one name "wall" also
satisfies the conditions of the claim, and `addmodfile` ends with the USER
error "duplicate modifier". -/
theorem C10_counterexample :
    (["a", "b", "c"].Nodup ∧ VOIDID ∉ ["a", "b", "c"] ∧
      (start 1).modname.length + ["a", "b", "c"].length ≤ 4 ∧
      ¬ bad_bins none 0 ∧
      addmodfile 4 (start 1) (some ["a", "b", "c"]) none none none 0
        = .fatal .INTERNAL .too_many_in_file (start 1)) ∧
    (["wall"].Nodup ∧ VOIDID ∉ ["wall"] ∧
      wall_state.modname.length + ["wall"].length ≤ 10000 ∧
      ¬ bad_bins none 0 ∧
      addmodfile 10000 wall_state (some ["wall"]) none none none 0
        = .fatal .USER (.duplicate_modifier "wall") wall_state) := by
  decide!

/-- Claim C10 (registerFromList), amended. For every list of `k` distinct
names, none of them the void name and none of them registered already, with a
valid bin specification, with `k ≤ MAXMODLIST - 2` (the guard of `addmodfile`
on the length of the file) and with `nmods + k ≤ MAXMODLIST`, `addmodfile`
applies `addmodifier` to each name in list order and returns: afterwards the
names listed are the earlier ones followed by the `k` names in that order,
`nmods` has grown by `k`, and each of the `k` names has a record. -/
theorem C10_addmodfile (M : Nat) (g : Globals) (names : List String)
    (outf prms : Option String) (binv : Option EPNODE) (bincnt : Int)
    (hnd : names.Nodup) (hv : VOIDID ∉ names)
    (hfree : ∀ n ∈ names, lu_find g.modconttab n = none)
    (hk : names.length + 2 ≤ M) (hcap : g.modname.length + names.length ≤ M)
    (hb : ¬ bad_bins binv bincnt) :
    ∃ g', addmodfile M g (some names) outf prms binv bincnt = .ok g' ∧
      addmodfile_loop M outf prms binv bincnt g names = .ok g' ∧
      g'.modname = g.modname ++ names ∧
      g'.modname.length = g.modname.length + names.length ∧
      ∀ n ∈ names, ∃ mp, lu_find g'.modconttab n = some mp := by
  obtain ⟨g', h1, h2, h3⟩ := addmodfile_loop_ok M outf prms binv bincnt hb names g hnd hv
    hfree hcap
  refine ⟨g', ?_, h1, h2, by rw [h2]; simp, ?_⟩
  · unfold addmodfile wordfile
    have htake : names.take (M - 1) = names := List.take_of_length_le (by omega)
    simp only [Option.map_some', htake]
    rw [if_neg (by omega)]
    exact h1
  · intro n hn
    apply lu_find_some_of_mem_keys
    rw [h3]
    exact List.mem_append_right _ hn

/-- A file with the two names "a" and "b" read into the registry that holds
"wall", with room for 8 modifiers. -/
theorem C10_addmodfile_witness :
    ∃ g', addmodfile 8 wall_state (some ["a", "b"]) none none none 0 = .ok g' ∧
      addmodfile_loop 8 none none none 0 wall_state ["a", "b"] = .ok g' ∧
      g'.modname = wall_state.modname ++ ["a", "b"] ∧
      g'.modname.length = wall_state.modname.length + ["a", "b"].length ∧
      ∀ n ∈ ["a", "b"], ∃ mp, lu_find g'.modconttab n = some mp :=
  C10_addmodfile 8 wall_state ["a", "b"] none none none 0
    (by decide!) (by decide!) (by decide!) (by decide!) (by decide!) (by decide!)

/-! ### `trace_contrib` -/

/-- The bin index of a ray whose bin value is above `-1/2` and in the range of
`int` is defined and not negative. -/
theorem bin_of_defined (t : RAY) (mp : MODCONT) (h1 : -1 / 2 < bval_of t mp)
    (h2 : bval_of t mp + 1 / 2 < 2 ^ 31 - 1 / 2 ^ 23) :
    ∃ bn, bin_of t mp = some bn ∧ 0 ≤ bn := by
  have hx : 0 ≤ bval_of t mp + 1 / 2 := by linarith
  cases hc : bin_of t mp with
  | none =>
    exfalso
    have hn := (to_int_dround_none_iff (bval_of t mp + 1 / 2)).mp hc
    apply hn
    refine ⟨h2, lt_of_lt_of_le ?_ hx⟩
    norm_num
  | some bn => exact ⟨bn, rfl, to_int_nonneg _ bn (dround_nonneg _ hx) hc⟩

/-- The bin index of a ray whose bin value is beyond the range of `int` is
not defined. -/
theorem bin_of_undefined (t : RAY) (mp : MODCONT)
    (h2 : ¬ bval_of t mp + 1 / 2 < 2 ^ 31 - 1 / 2 ^ 23) : bin_of t mp = none :=
  (to_int_dround_none_iff (bval_of t mp + 1 / 2)).mpr fun h => h2 h.1

/-- What `trace_contrib` returns for a ray that strikes a registered modifier
and is no shadow ray off its source. -/
theorem trace_contrib_eq (g : Globals) (r : RAY) (ro : OBJREC) (oname : String)
    (mp : MODCONT) (hro : r.ro = some ro) (hmod : ro.omod = some oname)
    (hsrc : ¬ (0 ≤ r.rsrc ∧ g.source.get? r.rsrc.toNat ≠ some ro.id))
    (hmp : lu_find g.modconttab oname = some mp)
    (hlen : mp.cbin.length = mp.nbins.toNat) :
    trace_contrib g r =
      if bval_of r mp ≤ -1 / 2 then .ok g
      else
        match bin_of r mp with
        | none => .undefined
        | some bn =>
          if mp.nbins ≤ bn then .ok (warn g (.bad_bin_number bn))
          else .ok { g with
                     modconttab := lu_set g.modconttab oname
                       { mp with cbin := mp.cbin.set bn.toNat
                                   (addcolor (mp.cbin.getD bn.toNat 0) (contr_of g r)) } } := by
  unfold trace_contrib
  simp only [hro, hmod, hmp, hsrc, if_false, bin_of, bval_of, contr_of]
  by_cases h1 : evalue (r.ctx mp.params) mp.binv ≤ -1 / 2
  · rw [if_pos h1, if_pos h1]
  · rw [if_neg h1, if_neg h1]
    cases hc : to_int (dround (evalue (r.ctx mp.params) mp.binv + 1 / 2)) with
    | none => rfl
    | some bn =>
      simp only []
      by_cases h2 : mp.nbins ≤ bn
      · rw [if_pos h2, if_pos h2]
      · rw [if_neg h2, if_neg h2]
        have h3 : 0 ≤ bn := by
          refine to_int_nonneg _ bn (dround_nonneg _ ?_) hc
          have : -1 / 2 < evalue (r.ctx mp.params) mp.binv := not_le.mp h1
          linarith
        have h4 : ¬ (bn < 0 ∨ mp.cbin.length ≤ bn.toNat) := by
          rw [hlen]
          omega
        rw [if_neg h4]

/-- What `trace_contrib` returns for a ray that strikes a registered modifier,
is no shadow ray off its source, and resolves to the bin index `bn`. -/
theorem trace_contrib_bin (g : Globals) (r : RAY) (ro : OBJREC) (oname : String)
    (mp : MODCONT) (bn : Int) (hro : r.ro = some ro) (hmod : ro.omod = some oname)
    (hsrc : ¬ (0 ≤ r.rsrc ∧ g.source.get? r.rsrc.toNat ≠ some ro.id))
    (hmp : lu_find g.modconttab oname = some mp)
    (hlen : mp.cbin.length = mp.nbins.toNat) (h1 : -1 / 2 < bval_of r mp)
    (hbn : bin_of r mp = some bn) :
    trace_contrib g r =
      if mp.nbins ≤ bn then .ok (warn g (.bad_bin_number bn))
      else .ok { g with
                 modconttab := lu_set g.modconttab oname
                   { mp with cbin := mp.cbin.set bn.toNat
                               (addcolor (mp.cbin.getD bn.toNat 0) (contr_of g r)) } } := by
  rw [trace_contrib_eq g r ro oname mp hro hmod hsrc hmp hlen, if_neg (not_le.mpr h1), hbn]

theorem binval_lu_set (g : Globals) (oname : String) (mp' : MODCONT) (n : String) (b : Nat) :
    binval { g with modconttab := lu_set g.modconttab oname mp' } n b =
      if n = oname then (lu_find g.modconttab n).bind (fun _ => mp'.cbin[b]?)
      else binval g n b := by
  unfold binval
  simp only [lu_find_lu_set]
  by_cases h : n = oname
  · simp only [h, if_true]
    cases lu_find g.modconttab oname <;> rfl
  · simp [h]

/-- Bin index resolution in `trace_contrib`, for a ray that strikes a
registered modifier (record `mp`, with `nbins` bins) and is not a shadow ray
off its source. When `bval ≤ -0.5` the state is unchanged, no warning
included. When `bval > -0.5` and the sum `bval + .5` is in the range of `int`,
the index `bn` is defined and not negative; with `bn ≥ nbins` a warning is
issued and no bin is modified, and with `bn < nbins` the index lies inside the
bin array, bin `bn` of that modifier increases by the contribution, and every
other bin of every modifier is unchanged. When the sum is beyond the range of
`int` the behaviour is undefined. -/
theorem trace_contrib_in_range (g : Globals) (r : RAY) (ro : OBJREC) (oname : String)
    (mp : MODCONT) (hreg : RegOK g) (hro : r.ro = some ro) (hmod : ro.omod = some oname)
    (hsrc : ¬ (0 ≤ r.rsrc ∧ g.source.get? r.rsrc.toNat ≠ some ro.id))
    (hmp : lu_find g.modconttab oname = some mp) :
    (bval_of r mp ≤ -1 / 2 → trace_contrib g r = .ok g) ∧
    (-1 / 2 < bval_of r mp → bval_of r mp + 1 / 2 < 2 ^ 31 - 1 / 2 ^ 23 →
      ∃ bn, bin_of r mp = some bn ∧ 0 ≤ bn ∧
        (mp.nbins ≤ bn →
          trace_contrib g r = .ok (warn g (.bad_bin_number bn)) ∧
            ∀ n b, binval (warn g (.bad_bin_number bn)) n b = binval g n b) ∧
        (bn < mp.nbins →
          bn.toNat < mp.cbin.length ∧
          ∃ g', trace_contrib g r = .ok g' ∧ g'.out = g.out ∧
            (∃ c, binval g oname bn.toNat = some c ∧
              binval g' oname bn.toNat = some (addcolor c (contr_of g r))) ∧
            ∀ n b, (n, b) ≠ (oname, bn.toNat) → binval g' n b = binval g n b)) ∧
    (-1 / 2 < bval_of r mp → ¬ bval_of r mp + 1 / 2 < 2 ^ 31 - 1 / 2 ^ 23 →
      trace_contrib g r = .undefined) := by
  have hlen : mp.cbin.length = mp.nbins.toNat :=
    (hreg.2.2 _ (lu_find_mem _ _ _ hmp)).2.2
  have heq := trace_contrib_eq g r ro oname mp hro hmod hsrc hmp hlen
  refine ⟨?_, ?_, ?_⟩
  · intro h1
    rw [heq, if_pos h1]
  · intro h1 hr
    obtain ⟨bn, hbn, h3⟩ := bin_of_defined r mp h1 hr
    have hbin := trace_contrib_bin g r ro oname mp bn hro hmod hsrc hmp hlen h1 hbn
    refine ⟨bn, hbn, h3, ?_, ?_⟩
    · intro h2
      rw [hbin, if_pos h2]
      exact ⟨rfl, fun _ _ => rfl⟩
    · intro h2
      have h4 : bn.toNat < mp.cbin.length := by
        rw [hlen]
        omega
      refine ⟨h4,
        { g with
          modconttab := lu_set g.modconttab oname
            { mp with cbin := mp.cbin.set bn.toNat
                        (addcolor (mp.cbin.getD bn.toNat 0) (contr_of g r)) } },
        by rw [hbin, if_neg (not_le.mpr h2)], rfl, ?_, ?_⟩
      · refine ⟨mp.cbin[bn.toNat], ?_, ?_⟩
        · simp [binval, hmp, h4]
        · rw [binval_lu_set]
          simp [hmp, h4]
      · intro n b hne
        rw [binval_lu_set]
        by_cases hn : n = oname
        · subst hn
          have hb : bn.toNat ≠ b := by
            intro hb
            exact hne (by rw [hb])
          simp [binval, hmp, List.getElem?_set_ne hb]
        · simp [hn]
  · intro h1 hr
    rw [heq, if_neg (not_le.mpr h1), bin_of_undefined r mp hr]

/-- Claim C9 (bin index resolution in `trace_contrib`), the failing input.
The modifier "wall" is registered with a bin expression that is not constant
and 4 bins; a ray strikes it for which the evaluator gives the bin value
`10^10`. The claim has `bn = trunc(bval + 0.5) = 10^10 ≥ nbins`: a warning and
no write. In the code the sum `bval + .5` is beyond the range of `int`, the
conversion `(int)(bval + .5)` is undefined, and no warning is what
`trace_contrib` returns: its result is undefined. -/
theorem C9_index_beyond_int :
    RegOK bins_state ∧
      lu_find bins_state.modconttab "wall"
        = some (new_record (start 3) "wall" none none (some (EPNODE.EXPR 0)) 4) ∧
      (new_record (start 3) "wall" none none (some (EPNODE.EXPR 0)) 4).nbins = 4 ∧
      bval_of far_ray (new_record (start 3) "wall" none none (some (EPNODE.EXPR 0)) 4)
        = 10000000000 ∧
      bin_of far_ray (new_record (start 3) "wall" none none (some (EPNODE.EXPR 0)) 4) = none ∧
      trace_contrib bins_state far_ray = .undefined ∧
      trace_contrib bins_state far_ray
        ≠ .ok (warn bins_state (.bad_bin_number 10000000000)) := by
  decide!

/-! ### `done_contrib` -/

theorem regok_lu_set (g : Globals) (k : String) (mp' : MODCONT) (h : RegOK g)
    (hname : mp'.modname = k) (hpos : 0 < mp'.nbins)
    (hlen : mp'.cbin.length = mp'.nbins.toNat) :
    RegOK { g with modconttab := lu_set g.modconttab k mp' } := by
  obtain ⟨hk, hnd, he⟩ := h
  refine ⟨?_, hnd, ?_⟩
  · show (lu_set g.modconttab k mp').map Prod.fst = g.modname
    rw [lu_set_keys, hk]
  · intro e hmem
    simp only [lu_set, List.mem_map] at hmem
    obtain ⟨e0, he0, heq⟩ := hmem
    by_cases hkey : e0.1 = k
    · rw [if_pos hkey] at heq
      subst heq
      exact ⟨hname.trans hkey.symm, hpos, hlen⟩
    · rw [if_neg hkey] at heq
      subst heq
      exact he e0 he0

theorem regok_out (g : Globals) (out : List Event) (h : RegOK g) :
    RegOK { g with out := out } := h

theorem regok_lookup (g : Globals) (n : String) (h : RegOK g) (hn : n ∈ g.modname) :
    ∃ mp, lu_find g.modconttab n = some mp ∧ mp.modname = n ∧ 0 < mp.nbins ∧
      mp.cbin.length = mp.nbins.toNat := by
  obtain ⟨hk, _, he⟩ := h
  obtain ⟨mp, hmp⟩ := lu_find_some_of_mem_keys g.modconttab n (by rw [hk]; exact hn)
  exact ⟨mp, hmp, he _ (lu_find_mem _ _ _ hmp)⟩

theorem binsOf_lu_set_ne (g : Globals) (k : String) (mp' : MODCONT) (out : List Event)
    (n : String) (hne : n ≠ k) :
    binsOf { g with out := out, modconttab := lu_set g.modconttab k mp' } n = binsOf g n := by
  unfold binsOf
  simp only [lu_find_lu_set, if_neg hne]

/-- The loop of `done_contrib` over names of the registry, no name twice:
each record is output once, in the order of the names, with the bins it has
before the loop, and then cleared. -/
theorem done_contrib_loop_spec (ms : List String) :
    ∀ g : Globals, RegOK g → ms.Nodup → (∀ m ∈ ms, m ∈ g.modname) →
      ∃ g', done_contrib_loop g ms = .ok g' ∧ RegOK g' ∧
        g'.out = g.out ++ cycle_of ms (binsOf g) ∧
        (∀ n, lu_find g'.modconttab n =
          (lu_find g.modconttab n).map fun mp => if n ∈ ms then memset_cbin mp else mp) ∧
        g' = { g with out := g'.out, modconttab := g'.modconttab } := by
  induction ms with
  | nil =>
    intro g hreg _ _
    refine ⟨g, rfl, hreg, by simp [cycle_of], ?_, rfl⟩
    intro n
    cases lu_find g.modconttab n <;> simp
  | cons m ms ih =>
    intro g hreg hnd hsub
    simp only [List.nodup_cons] at hnd
    obtain ⟨mp, hmp, hname, hpos, hlen⟩ :=
      regok_lookup g m hreg (hsub m (List.mem_cons_self _ _))
    have hreg1 : RegOK { g with
        out := g.out ++ [Event.mod_output mp.modname mp.cbin]
        modconttab := lu_set g.modconttab m (memset_cbin mp) } :=
      regok_lu_set { g with out := g.out ++ [Event.mod_output mp.modname mp.cbin] } m
        (memset_cbin mp) hreg hname hpos (by simp [memset_cbin])
    obtain ⟨g', h1, h2, h3, h4, h5⟩ := ih _ hreg1 hnd.2
      (fun x hx => hsub x (List.mem_cons_of_mem _ hx))
    refine ⟨g', ?_, h2, ?_, ?_, ?_⟩
    · simp only [done_contrib_loop, hmp]
      exact h1
    · rw [h3]
      simp only [cycle_of, List.map_cons, List.append_assoc, List.singleton_append]
      have hb : binsOf g m = mp.cbin := by simp [binsOf, hmp]
      rw [hname, hb]
      congr 2
      apply List.map_congr_left
      intro n hn
      have hne : n ≠ m := fun h => hnd.1 (h ▸ hn)
      rw [binsOf_lu_set_ne g m (memset_cbin mp) _ n hne]
    · intro n
      rw [h4]
      simp only [lu_find_lu_set]
      by_cases hn : n = m
      · subst hn
        simp [hmp, hnd.1, memset_cbin]
      · simp only [hn, if_false, List.mem_cons, false_or]
    · rw [h5]

/-- What `done_contrib` does when the counter is 1. -/
theorem done_contrib_emit (g : Globals) (hreg : RegOK g) (hacc : g.account = 1) :
    ∃ g', done_contrib g = .ok g' ∧ RegOK g' ∧
      g'.out = g.out ++ cycle_of g.modname (binsOf g) ++ [Event.end_record] ∧
      (∀ n, lu_find g'.modconttab n = (lu_find g.modconttab n).map memset_cbin) ∧
      g' = { g with out := g'.out, modconttab := g'.modconttab, account := g.accumulate } := by
  obtain ⟨g1, h1, h2, h3, h4, h5⟩ :=
    done_contrib_loop_spec g.modname { g with account := g.account - 1 } hreg hreg.2.1
      (fun m hm => hm)
  refine ⟨{ g1 with out := g1.out ++ [Event.end_record], account := g1.accumulate },
    ?_, h2, ?_, ?_, ?_⟩
  · unfold done_contrib
    have ha : ¬ g.account ≤ 0 := by omega
    have hb : ¬ g.account - 1 ≠ 0 := by omega
    simp only [ha, hb, if_false]
    rw [h1]
    rfl
  · show g1.out ++ [Event.end_record] = _
    rw [h3]
    rfl
  · intro n
    show lu_find g1.modconttab n = _
    rw [h4 n]
    show Option.map _ (lu_find g.modconttab n) = _
    cases hl : lu_find g.modconttab n with
    | none => rfl
    | some mp =>
      have hmem : n ∈ g.modname := by
        have := lu_find_mem _ _ _ hl
        rw [← hreg.1]
        exact List.mem_map_of_mem Prod.fst this
      simp [hmem]
  · rw [h5]

/-- What `done_contrib` does when the counter is above 1. -/
theorem done_contrib_wait (g : Globals) (hacc : 1 < g.account) :
    done_contrib g = .ok { g with account := g.account - 1 } := by
  unfold done_contrib
  have ha : ¬ g.account ≤ 0 := by omega
  have hb : g.account - 1 ≠ 0 := by omega
  simp only [ha, if_false]
  rw [if_pos hb]

theorem binsOf_of_lu_find_memset (g g' : Globals) (n : String)
    (h : lu_find g'.modconttab n = (lu_find g.modconttab n).map memset_cbin)
    (hlen : ∀ mp, lu_find g.modconttab n = some mp → mp.cbin.length = mp.nbins.toNat) :
    binsOf g' n = List.replicate (binsOf g n).length 0 := by
  unfold binsOf
  rw [h]
  cases hl : lu_find g.modconttab n with
  | none => rfl
  | some mp =>
    simp only [Option.map_some', Option.getD_some, memset_cbin]
    rw [hlen mp hl]

/-- Claim C2 (emission cycle of `done_contrib`). Whenever `done_contrib` is
called with `account = 1`, it outputs every registered modifier exactly once,
in registration order `modname[0], ..., modname[nmods-1]`, each with the bins
it holds at the call, and ends the record; afterwards every bin of every
registered modifier is zero and `account` is the configured accumulate
factor. Whenever it is called with `account > 1`, it only decrements
`account` by one: no bin changes and nothing is output. -/
theorem C2_emission_cycle (g : Globals) (hreg : RegOK g) :
    (g.account = 1 →
      ∃ g', done_contrib g = .ok g' ∧
        g'.out = g.out ++ cycle_of g.modname (binsOf g) ++ [Event.end_record] ∧
        (∀ n ∈ g.modname, binsOf g' n = List.replicate (binsOf g n).length 0) ∧
        g'.account = g.accumulate ∧ g'.modname = g.modname) ∧
    (1 < g.account →
      done_contrib g = .ok { g with account := g.account - 1 }) := by
  refine ⟨?_, done_contrib_wait g⟩
  intro hacc
  obtain ⟨g', h1, _, h3, h4, h5⟩ := done_contrib_emit g hreg hacc
  refine ⟨g', h1, h3, ?_, by rw [h5], by rw [h5]⟩
  intro n _
  apply binsOf_of_lu_find_memset g g' n (h4 n)
  intro mp hmp
  exact (hreg.2.2 _ (lu_find_mem _ _ _ hmp)).2.2

/-- The last call of a window in the scenario, and a call before the last. -/
theorem C2_emission_cycle_witness :
    (∃ g', done_contrib wall_last = .ok g' ∧
        g'.out = wall_last.out ++ cycle_of wall_last.modname (binsOf wall_last)
          ++ [Event.end_record] ∧
        (∀ n ∈ wall_last.modname,
          binsOf g' n = List.replicate (binsOf wall_last n).length 0) ∧
        g'.account = wall_last.accumulate ∧ g'.modname = wall_last.modname) ∧
      done_contrib wall_state = .ok { wall_state with account := wall_state.account - 1 } :=
  ⟨(C2_emission_cycle wall_last (by decide!)).1 (by decide!),
    (C2_emission_cycle wall_state (by decide!)).2 (by decide!)⟩

/-! ### One accumulation window -/

theorem list_set_self {α : Type} (l : List α) (b : Nat) (v : α) (h : l[b]? = some v) :
    l.set b v = l := by
  induction l generalizing b with
  | nil => rfl
  | cons a l ih =>
    cases b with
    | zero =>
      simp only [List.getElem?_cons_zero, Option.some.injEq] at h
      simp [h]
    | succ b =>
      simp only [List.getElem?_cons_succ] at h
      simp [ih b h]

theorem with_bin_with_bin (mp : MODCONT) (b : Nat) (v w : DCOLOR) :
    with_bin (with_bin mp b v) b w = with_bin mp b w := by
  simp [with_bin, List.set_set]

theorem regok_congr (g g' : Globals) (h1 : g.modconttab = g'.modconttab)
    (h2 : g.modname = g'.modname) (h : RegOK g') : RegOK g := by
  unfold RegOK at h ⊢
  rw [h1, h2]
  exact h

theorem trace_contrib_strike (g : Globals) (t : RAY) (m : String) (b : Nat) (mp : MODCONT)
    (ro : OBJREC) (hmp : lu_find g.modconttab m = some mp)
    (hlen : mp.cbin.length = mp.nbins.toNat) (hro : t.ro = some ro)
    (hmod : ro.omod = some m)
    (hsrc : ¬ (0 ≤ t.rsrc ∧ g.source.get? t.rsrc.toNat ≠ some ro.id))
    (h1 : -1 / 2 < bval_of t mp) (h2 : bin_of t mp = some (b : Int))
    (h3 : (b : Int) < mp.nbins) :
    trace_contrib g t =
      .ok { g with
            modconttab := lu_set g.modconttab m
              (with_bin mp b (addcolor (mp.cbin.getD b 0) (contr_of g t))) } := by
  rw [trace_contrib_bin g t ro m mp b hro hmod hsrc hmp hlen h1 h2, if_neg (by omega)]
  rfl

theorem eval_ray_window (g0 : Globals) (m : String) (mp0 : MODCONT) (b : Nat)
    (hmp0 : lu_find g0.modconttab m = some mp0)
    (hlen : mp0.cbin.length = mp0.nbins.toNat) (ts : List RAY)
    (hts : ∀ t ∈ ts, strikes g0 t m b) :
    ∀ (g : Globals) (v : DCOLOR),
      g.modconttab = lu_set g0.modconttab m (with_bin mp0 b v) →
      g.source = g0.source → g.contrib = g0.contrib →
      eval_ray g ts =
        .ok { g with
              modconttab := lu_set g0.modconttab m (with_bin mp0 b (v + contr_sum g0 ts)) } := by
  induction ts with
  | nil =>
    intro g v hg _ _
    simp only [eval_ray, contr_sum, List.map_nil, List.sum_nil, add_zero, ← hg]
  | cons t ts ih =>
    intro g v hg hs hc
    obtain ⟨ro, mp, hro, hmod, hsrc, hmp, h1, h2, h3⟩ := hts t (List.mem_cons_self _ _)
    rw [hmp0] at hmp
    simp only [Option.some.injEq] at hmp
    subst hmp
    have hb : b < mp0.cbin.length := by
      rw [hlen]
      omega
    have hfind : lu_find g.modconttab m = some (with_bin mp0 b v) := by
      rw [hg, lu_find_lu_set, if_pos rfl, hmp0]
      rfl
    have hstep := trace_contrib_strike g t m b (with_bin mp0 b v) ro hfind
      (by simp [with_bin, hlen]) hro hmod (by rw [hs]; exact hsrc) h1 h2 h3
    have hget : (with_bin mp0 b v).cbin.getD b 0 = v := by
      simp [with_bin, hb]
    have hcon : contr_of g t = contr_of g0 t := by
      unfold contr_of
      rw [hc]
    rw [hget, with_bin_with_bin, hg, lu_set_lu_set, hcon, addcolor_eq_add] at hstep
    simp only [eval_ray, hstep, bind_ok]
    rw [ih (fun x hx => hts x (List.mem_cons_of_mem _ hx))
      { g with modconttab := lu_set g0.modconttab m (with_bin mp0 b (v + contr_of g0 t)) }
      (v + contr_of g0 t) rfl hs hc]
    have hsum : v + contr_of g0 t + contr_sum g0 ts = v + contr_sum g0 (t :: ts) := by
      simp only [contr_sum, List.map_cons, List.sum_cons]
      rw [add_assoc]
    rw [hsum]

theorem zerolen_false_cond (g : Globals) (r : RAYIN) (hr : zerolen r.direc = false) :
    ¬ (g.nchild ≠ -1 ∧ zerolen r.direc = true ∧ g.accumulate = 0) := by
  rw [hr]
  simp

/-- The fields the count of the rays sent leaves as they are. -/
theorem next_lastray_frame (g : Globals) :
    (next_lastray g).modconttab = g.modconttab ∧ Agree (next_lastray g) g ∧
      (next_lastray g).account = g.account ∧ (next_lastray g).raysleft = g.raysleft ∧
      (next_lastray g).xres = g.xres ∧ (next_lastray g).yres = g.yres := by
  unfold next_lastray Agree
  split_ifs <;> simp

/-- The fields the end of the loop body leaves as they are, and the flag. -/
theorem count_done_frame (g : Globals) :
    (count_done g).1.modconttab = g.modconttab ∧ Agree (count_done g).1 g ∧
      (count_done g).1.account = g.account ∧ (count_done g).1.raysleft = g.raysleft - 1 ∧
      ((count_done g).2 = true ↔ g.raysleft = 1) := by
  unfold count_done Agree
  by_cases h : g.raysleft = 0
  · simp [h]
  · simp only [ne_eq, h, not_false_eq_true, if_true, decide_eq_true_eq, and_self, true_and]
    omega

theorem agree_trans (g1 g2 g3 : Globals) (h1 : Agree g1 g2) (h2 : Agree g2 g3) :
    Agree g1 g3 := by
  obtain ⟨a1, a2, a3, a4, a5, a6⟩ := h1
  obtain ⟨b1, b2, b3, b4, b5, b6⟩ := h2
  exact ⟨a1.trans b1, a2.trans b2, a3.trans b3, a4.trans b4, a5.trans b5, a6.trans b6⟩

/-- The loop body for a ray of the window that is not its last. -/
theorem window_step (g0 : Globals) (m : String) (mp0 : MODCONT) (b : Nat)
    (hmp0 : lu_find g0.modconttab m = some mp0)
    (hlen : mp0.cbin.length = mp0.nbins.toNat) (g : Globals) (v : DCOLOR) (r : RAYIN)
    (hr : zerolen r.direc = false) (hts : ∀ t ∈ r.traces, strikes g0 t m b)
    (htab : g.modconttab = lu_set g0.modconttab m (with_bin mp0 b v))
    (hag : Agree g g0) (hacc : 1 < g.account) :
    ∃ p : Globals × Bool, rcontrib_ray g r = .ok p ∧ (p.2 = true ↔ g.raysleft = 1) ∧
      p.1.modconttab = lu_set g0.modconttab m (with_bin mp0 b (v + contr_sum g0 r.traces)) ∧
      Agree p.1 g0 ∧ p.1.account = g.account - 1 ∧ p.1.raysleft = g.raysleft - 1 := by
  obtain ⟨n1, n2, n3, n4, _, _⟩ := next_lastray_frame g
  have hag1 := agree_trans _ _ _ n2 hag
  have hev := eval_ray_window g0 m mp0 b hmp0 hlen r.traces hts (next_lastray g) v
    (n1.trans htab) hag1.1 hag1.2.1
  have hrun : rcontrib_ray g r = .ok (count_done
      { next_lastray g with
        modconttab := lu_set g0.modconttab m (with_bin mp0 b (v + contr_sum g0 r.traces))
        account := (next_lastray g).account - 1 }) := by
    unfold rcontrib_ray
    rw [if_neg (zerolen_false_cond g r hr)]
    simp only [hr, Bool.false_eq_true, if_false, hev, bind_ok]
    rw [done_contrib_wait _ (by show 1 < (next_lastray g).account; rw [n3]; exact hacc)]
    rfl
  obtain ⟨c1, c2, c3, c4, c5⟩ := count_done_frame
      { next_lastray g with
        modconttab := lu_set g0.modconttab m (with_bin mp0 b (v + contr_sum g0 r.traces))
        account := (next_lastray g).account - 1 }
  refine ⟨_, hrun, ?_, c1, agree_trans _ _ _ c2 hag1, ?_, ?_⟩
  · rw [c5]
    show (next_lastray g).raysleft = 1 ↔ _
    rw [n4]
  · rw [c3]
    show (next_lastray g).account - 1 = _
    rw [n3]
  · rw [c4]
    show (next_lastray g).raysleft - 1 = _
    rw [n4]

theorem loop_cons_eq (g : Globals) (r : RAYIN) (rs : List RAYIN) (p : Globals × Bool)
    (h : rcontrib_ray g r = .ok p) (hbrk : p.2 = true → rs = []) :
    rcontrib_loop g (r :: rs) = rcontrib_loop p.1 rs := by
  simp only [rcontrib_loop, h, bind_ok]
  by_cases hp : p.2 = true
  · rw [if_pos hp, hbrk hp]
    rfl
  · rw [if_neg hp]

/-- The rays of a window before its last: the bin takes the sum, nothing is
output and the counter goes down by the number of rays. -/
theorem window_loop (g0 : Globals) (m : String) (mp0 : MODCONT) (b : Nat)
    (hmp0 : lu_find g0.modconttab m = some mp0)
    (hlen : mp0.cbin.length = mp0.nbins.toNat) (rays : List RAYIN) :
    ∀ (g : Globals) (v : DCOLOR),
      (∀ r ∈ rays, zerolen r.direc = false ∧ ∀ t ∈ r.traces, strikes g0 t m b) →
      g.modconttab = lu_set g0.modconttab m (with_bin mp0 b v) → Agree g g0 →
      (rays.length : Int) < g.account → (g.raysleft = 0 ∨ rays.length ≤ g.raysleft) →
      ∃ g', rcontrib_loop g rays = .ok g' ∧
        g'.modconttab = lu_set g0.modconttab m (with_bin mp0 b (v + window_sum g0 rays)) ∧
        Agree g' g0 ∧ g'.account = g.account - rays.length ∧
        g'.raysleft = g.raysleft - rays.length := by
  induction rays with
  | nil =>
    intro g v _ htab hag _ _
    refine ⟨g, rfl, ?_, hag, by simp, by simp⟩
    simp only [window_sum, List.map_nil, List.sum_nil, add_zero]
    exact htab
  | cons r rs ih =>
    intro g v hrays htab hag hacc hleft
    simp only [List.length_cons, Nat.cast_add, Nat.cast_one] at hacc hleft
    obtain ⟨hr, hts⟩ := hrays r (List.mem_cons_self _ _)
    obtain ⟨p, h1, h2, h3, h4, h5, h6⟩ :=
      window_step g0 m mp0 b hmp0 hlen g v r hr hts htab hag (by omega)
    have hbrk : p.2 = true → rs = [] := by
      intro hp
      have := h2.mp hp
      apply List.eq_nil_of_length_eq_zero
      omega
    rw [loop_cons_eq g r rs p h1 hbrk]
    obtain ⟨g', k1, k2, k3, k4, k5⟩ := ih p.1 (v + contr_sum g0 r.traces)
      (fun x hx => hrays x (List.mem_cons_of_mem _ hx)) h3 h4 (by omega) (by omega)
    refine ⟨g', k1, ?_, k3, ?_, ?_⟩
    · rw [k2]
      simp only [window_sum, List.map_cons, List.sum_cons]
      rw [add_assoc]
    · rw [k4, h5]
      simp only [List.length_cons, Nat.cast_add, Nat.cast_one]
      omega
    · rw [k5, h6]
      simp only [List.length_cons]
      omega

theorem binsOf_window (g0 g : Globals) (m : String) (mp0 : MODCONT) (b : Nat) (v : DCOLOR)
    (hmp0 : lu_find g0.modconttab m = some mp0)
    (htab : g.modconttab = lu_set g0.modconttab m (with_bin mp0 b v)) :
    binsOf g = bins_with g0 m b v := by
  funext n
  unfold binsOf bins_with
  rw [htab, lu_find_lu_set]
  by_cases hn : n = m
  · subst hn
    simp [hmp0, with_bin, binsOf]
  · simp [hn, binsOf]

theorem regok_window (g0 g : Globals) (m : String) (mp0 : MODCONT) (b : Nat) (v : DCOLOR)
    (hreg : RegOK g0) (hmp0 : lu_find g0.modconttab m = some mp0)
    (htab : g.modconttab = lu_set g0.modconttab m (with_bin mp0 b v))
    (hnames : g.modname = g0.modname) : RegOK g := by
  obtain ⟨h1, h2, h3⟩ := hreg.2.2 _ (lu_find_mem _ _ _ hmp0)
  exact regok_congr g { g0 with modconttab := lu_set g0.modconttab m (with_bin mp0 b v) }
    htab hnames (regok_lu_set g0 m (with_bin mp0 b v) hreg h1 h2 (by simp [with_bin, h3]))

/-- The last ray of a window: the bin takes the contribution, then every
record is output and cleared. -/
theorem window_last (g0 : Globals) (m : String) (mp0 : MODCONT) (b : Nat)
    (hreg : RegOK g0) (hmp0 : lu_find g0.modconttab m = some mp0)
    (g : Globals) (v : DCOLOR) (r : RAYIN)
    (hr : zerolen r.direc = false) (hts : ∀ t ∈ r.traces, strikes g0 t m b)
    (htab : g.modconttab = lu_set g0.modconttab m (with_bin mp0 b v))
    (hag : Agree g g0) (hacc : g.account = 1) :
    ∃ p : Globals × Bool, rcontrib_ray g r = .ok p ∧ RegOK p.1 ∧
      p.1.out = g0.out ++ cycle_of g0.modname (bins_with g0 m b (v + contr_sum g0 r.traces))
        ++ [Event.end_record] ∧
      (∀ n ∈ g0.modname, binsOf p.1 n = List.replicate (binsOf g0 n).length 0) ∧
      p.1.account = g0.accumulate ∧ p.1.accumulate = g0.accumulate ∧
      p.1.modname = g0.modname := by
  have hlen : mp0.cbin.length = mp0.nbins.toNat := (hreg.2.2 _ (lu_find_mem _ _ _ hmp0)).2.2
  obtain ⟨n1, n2, n3, n4, _, _⟩ := next_lastray_frame g
  have hag1 := agree_trans _ _ _ n2 hag
  have hev := eval_ray_window g0 m mp0 b hmp0 hlen r.traces hts (next_lastray g) v
    (n1.trans htab) hag1.1 hag1.2.1
  have hregE : RegOK { next_lastray g with
      modconttab := lu_set g0.modconttab m (with_bin mp0 b (v + contr_sum g0 r.traces)) } :=
    regok_window g0 _ m mp0 b _ hreg hmp0 rfl hag1.2.2.2.1
  obtain ⟨gD, d1, d2, d3, d4, d5⟩ := done_contrib_emit _ hregE
    (by show (next_lastray g).account = 1; rw [n3]; exact hacc)
  have hrun : rcontrib_ray g r = .ok (count_done gD) := by
    unfold rcontrib_ray
    rw [if_neg (zerolen_false_cond g r hr)]
    simp only [hr, Bool.false_eq_true, if_false, hev, bind_ok, d1]
  obtain ⟨c1, c2, c3, c4, c5⟩ := count_done_frame gD
  obtain ⟨_, _, e3, e4, e5, _⟩ := c2
  have hbins := binsOf_window g0 { next_lastray g with
      modconttab := lu_set g0.modconttab m (with_bin mp0 b (v + contr_sum g0 r.traces)) }
    m mp0 b _ hmp0 rfl
  refine ⟨count_done gD, hrun, regok_congr _ _ c1 e4 d2, ?_, ?_, ?_, ?_, ?_⟩
  · rw [e3, d3, hbins]
    show (next_lastray g).out ++ cycle_of (next_lastray g).modname _ ++ _ = _
    rw [hag1.2.2.1, hag1.2.2.2.1]
  · intro n hn
    have hb1 : binsOf (count_done gD).1 n = binsOf gD n := by
      unfold binsOf
      rw [c1]
    rw [hb1, binsOf_of_lu_find_memset _ gD n (d4 n)
      (fun mp hmp => (hregE.2.2 _ (lu_find_mem _ _ _ hmp)).2.2), hbins]
    unfold bins_with
    by_cases hnm : n = m
    · subst hnm
      simp
    · simp [hnm]
  · rw [c3, d5]
    exact hag1.2.2.2.2.1
  · rw [e5, d5]
    exact hag1.2.2.2.2.1
  · rw [e4, d5]
    exact hag1.2.2.2.1

/-- A whole window: as many rays as the counter says. -/
theorem window_full (g0 : Globals) (m : String) (mp0 : MODCONT) (b : Nat)
    (hreg : RegOK g0) (hmp0 : lu_find g0.modconttab m = some mp0) (rays : List RAYIN) :
    ∀ (g : Globals) (v : DCOLOR), rays ≠ [] →
      (∀ r ∈ rays, zerolen r.direc = false ∧ ∀ t ∈ r.traces, strikes g0 t m b) →
      g.modconttab = lu_set g0.modconttab m (with_bin mp0 b v) → Agree g g0 →
      (rays.length : Int) = g.account → (g.raysleft = 0 ∨ rays.length ≤ g.raysleft) →
      ∃ g', rcontrib_loop g rays = .ok g' ∧ RegOK g' ∧
        g'.out = g0.out ++ cycle_of g0.modname (bins_with g0 m b (v + window_sum g0 rays))
          ++ [Event.end_record] ∧
        (∀ n ∈ g0.modname, binsOf g' n = List.replicate (binsOf g0 n).length 0) ∧
        g'.account = g0.accumulate ∧ g'.accumulate = g0.accumulate ∧
        g'.modname = g0.modname := by
  have hlen : mp0.cbin.length = mp0.nbins.toNat := (hreg.2.2 _ (lu_find_mem _ _ _ hmp0)).2.2
  induction rays with
  | nil =>
    intro g v hne
    exact absurd rfl hne
  | cons r rs ih =>
    intro g v _ hrays htab hag hacc hleft
    simp only [List.length_cons, Nat.cast_add, Nat.cast_one] at hacc hleft
    obtain ⟨hr, hts⟩ := hrays r (List.mem_cons_self _ _)
    by_cases hrs : rs = []
    · subst hrs
      obtain ⟨p, h1, h2, h3, h4, h5, h6, h7⟩ :=
        window_last g0 m mp0 b hreg hmp0 g v r hr hts htab hag (by simpa using hacc.symm)
      rw [loop_cons_eq g r [] p h1 (fun _ => rfl)]
      refine ⟨p.1, rfl, h2, ?_, h4, h5, h6, h7⟩
      rw [h3]
      simp [window_sum]
    · have hpos : 0 < rs.length := List.length_pos.mpr hrs
      obtain ⟨p, h1, h2, h3, h4, h5, h6⟩ :=
        window_step g0 m mp0 b hmp0 hlen g v r hr hts htab hag (by omega)
      have hbrk : p.2 = true → rs = [] := by
        intro hp
        have := h2.mp hp
        apply List.eq_nil_of_length_eq_zero
        omega
      rw [loop_cons_eq g r rs p h1 hbrk]
      obtain ⟨g', k1, k2, k3, k4⟩ := ih p.1 (v + contr_sum g0 r.traces) hrs
        (fun x hx => hrays x (List.mem_cons_of_mem _ hx)) h3 h4 (by omega) (by omega)
      refine ⟨g', k1, k2, ?_, k4⟩
      rw [k3]
      simp only [window_sum, List.map_cons, List.sum_cons]
      rw [add_assoc]

theorem agree_refl (g : Globals) : Agree g g := ⟨rfl, rfl, rfl, rfl, rfl, rfl⟩

/-- The registry at the start of a window, as a table with the bin `b` of `m`
written out. -/
theorem window_start (g : Globals) (m : String) (b : Nat) (v : DCOLOR) (hreg : RegOK g)
    (hbin : binval g m b = some v) :
    ∃ mp0, lu_find g.modconttab m = some mp0 ∧
      g.modconttab = lu_set g.modconttab m (with_bin mp0 b v) := by
  unfold binval at hbin
  cases hl : lu_find g.modconttab m with
  | none => rw [hl] at hbin; simp at hbin
  | some mp0 =>
    rw [hl] at hbin
    simp only [Option.some_bind] at hbin
    refine ⟨mp0, rfl, ?_⟩
    have hw : with_bin mp0 b v = mp0 := by
      unfold with_bin
      rw [list_set_self _ _ _ hbin]
    rw [hw, lu_set_self _ _ _ (by rw [hreg.1]; exact hreg.2.1) hl]

/-- Claim C1 (accumulation window sum). In a single process with accumulate
factor `N ≥ 1` and the counter `account` at `N`, for every sequence of `N`
rays, none a flush request, whose trace calls all add their contributions to
the same bin `b` of the same modifier `m`, a bin that holds zero when the
window starts (a declared ray count, if any, not ending the input inside the
window): the loop outputs nothing after the rays `1..N-1`, and after ray `N`
it has made exactly one emission, one `mod_output` call per modifier in
registration order followed by one `end_record`, in which bin `b` of `m`
holds the componentwise sum of the contributions of the `N` rays; after it
every bin is zero. -/
theorem C1_accumulation_window (g : Globals) (N : Nat) (m : String) (b : Nat)
    (rays : List RAYIN) (hreg : RegOK g) (hN : 1 ≤ N) (hacc : g.accumulate = N)
    (hcnt : g.account = N) (hlen : rays.length = N) (hzero : binval g m b = some 0)
    (hrays : ∀ r ∈ rays, zerolen r.direc = false ∧ ∀ t ∈ r.traces, strikes g t m b)
    (hleft : g.raysleft = 0 ∨ N ≤ g.raysleft) :
    (∀ k < N, ∃ gk, rcontrib_loop g (rays.take k) = .ok gk ∧ gk.out = g.out) ∧
    ∃ g', rcontrib_loop g rays = .ok g' ∧
      g'.out = g.out ++ cycle_of g.modname (bins_with g m b (window_sum g rays))
        ++ [Event.end_record] ∧
      (bins_with g m b (window_sum g rays) m)[b]? = some (window_sum g rays) ∧
      ncycles g'.out = ncycles g.out + 1 ∧
      (∀ n ∈ g.modname, binsOf g' n = List.replicate (binsOf g n).length 0) := by
  obtain ⟨mp0, hmp0, htab⟩ := window_start g m b 0 hreg hzero
  have hlen0 : mp0.cbin.length = mp0.nbins.toNat := (hreg.2.2 _ (lu_find_mem _ _ _ hmp0)).2.2
  constructor
  · intro k hk
    obtain ⟨gk, k1, _, k3, _, _⟩ := window_loop g m mp0 b hmp0 hlen0 (rays.take k) g 0
      (fun r hr => hrays r (List.mem_of_mem_take hr)) htab (agree_refl g)
      (by rw [hcnt, List.length_take]; omega) (by rw [List.length_take]; omega)
    exact ⟨gk, k1, k3.2.2.1⟩
  · have hne : rays ≠ [] := by
      intro h
      rw [h] at hlen
      simp at hlen
      omega
    obtain ⟨g', k1, _, k3, k4, _⟩ := window_full g m mp0 b hreg hmp0 rays g 0 hne hrays htab
      (agree_refl g) (by rw [hcnt, hlen]) (by rw [hlen]; exact hleft)
    rw [zero_add] at k3
    refine ⟨g', k1, k3, ?_, ?_, k4⟩
    · unfold binval at hzero
      rw [hmp0] at hzero
      simp only [Option.some_bind] at hzero
      have hb : b < mp0.cbin.length := by
        rcases List.getElem?_eq_some.mp hzero with ⟨h, _⟩
        exact h
      simp [bins_with, binsOf, hmp0, hb]
    · rw [k3]
      simp [ncycles, cycle_of, List.filter_append, List.filter_map, Function.comp_def]

theorem wall_in_strikes :
    zerolen wall_in.direc = false ∧ ∀ t ∈ wall_in.traces, strikes wall_state t "wall" 0 := by
  refine ⟨by decide!, ?_⟩
  intro t ht
  simp only [wall_in, List.mem_singleton] at ht
  subst ht
  exact ⟨{ id := 1, omod := some "wall" }, new_record (start 3) "wall" none none none 0,
    rfl, rfl, by decide!, by decide!, by decide!, by decide!, by decide!⟩

/-- The accumulation scenario: accumulate factor 3, the modifier "wall" with 1
bin, three rays that each contribute `(1,0,0)`: nothing is output after the
first two rays, and the one record output after the third is `(3,0,0)`. -/
theorem C1_accumulation_window_witness :
    (∀ k < 3, ∃ gk, rcontrib_loop wall_state ([wall_in, wall_in, wall_in].take k) = .ok gk ∧
        gk.out = []) ∧
      ∃ g', rcontrib_loop wall_state [wall_in, wall_in, wall_in] = .ok g' ∧
        g'.out = [Event.mod_output "wall" [(3, 0, 0)], Event.end_record] := by
  have h := C1_accumulation_window wall_state 3 "wall" 0 [wall_in, wall_in, wall_in]
    (by decide!) (by decide!) (by decide!) (by decide!) rfl (by decide!)
    (by
      intro r hr
      simp only [List.mem_cons, List.mem_singleton, List.not_mem_nil, or_false, or_self] at hr
      subst hr
      exact wall_in_strikes)
    (Or.inl (by decide!))
  refine ⟨h.1, ?_⟩
  obtain ⟨g', h1, h2, _, _, _⟩ := h.2
  exact ⟨g', h1, h2.trans (by decide!)⟩

/-! ### The end of the input -/

theorem final_record_complete (g : Globals) (hacc : 0 < g.accumulate)
    (hcnt : g.account = g.accumulate) : final_record g = .ok g := by
  unfold final_record
  rw [if_neg]
  intro h
  omega

theorem final_record_partial (g : Globals) (hreg : RegOK g) (hchild : g.nchild ≠ -1)
    (hcnt : g.account < g.accumulate) :
    ∃ g', final_record g = .ok g' ∧ RegOK g' ∧
      g'.out = g.out ++ [Event.warning .partial_accumulation]
        ++ cycle_of g.modname (binsOf g) ++ [Event.end_record] ∧
      g'.accumulate = g.accumulate - g.account ∧ g'.account = g'.accumulate ∧
      g'.raysleft = g.raysleft := by
  obtain ⟨g', d1, d2, d3, _, d5⟩ := done_contrib_emit
    { warn g .partial_accumulation with
      accumulate := g.accumulate - g.account, account := 1 } hreg rfl
  refine ⟨g', ?_, d2, ?_, by rw [d5], by rw [d5], by rw [d5]; rfl⟩
  · unfold final_record
    rw [if_pos ⟨hchild, Or.inr hcnt⟩, if_pos hcnt]
    exact d1
  · rw [d3]
    rfl

/-- Claim C5, the claim as worded fails: in the scenario with accumulate factor
3, when the input ends after 1 ray (`account = 2`, `s = 1`), the accumulate
factor after the forced emission is 1: it has been reduced by `account = 2`,
not by `s = 1`, which would leave 2. -/
theorem C5_counterexample :
    ((rcontrib_loop wall_state [wall_in]).val?.map Globals.account) = some 2 ∧
      (((rcontrib_loop wall_state [wall_in]).bind final_record).val?.map Globals.accumulate)
        = some 1 ∧
      wall_state.accumulate - (([wall_in].length : Nat) : Int) = 2 := by
  decide!

/-- Claim C5 (partial final accumulation), amended. In a single process with
accumulate factor `N ≥ 2`, let the input end when `s < N` rays of the last
window have been seen, so that `account = N - s`. If `0 < s` (`0 < account <
N`), a warning is reported, the accumulate factor is reduced by `account`,
the number of rays still missing, and so becomes `s`, the number of rays seen,
and exactly one further emission is forced, whose bin values are the sums of
the contributions of those `s` rays. If the last window is complete
(`account = N`), nothing further is output. -/
theorem C5_partial_final (g : Globals) (N : Nat) (m : String) (b : Nat)
    (rays : List RAYIN) (hreg : RegOK g) (hN : 2 ≤ N) (hacc : g.accumulate = N)
    (hcnt : g.account = N) (hchild : g.nchild ≠ -1) (hs : rays.length < N)
    (hzero : binval g m b = some 0)
    (hrays : ∀ r ∈ rays, zerolen r.direc = false ∧ ∀ t ∈ r.traces, strikes g t m b)
    (hleft : g.raysleft = 0 ∨ rays.length ≤ g.raysleft) :
    ∃ g1, rcontrib_loop g rays = .ok g1 ∧ g1.account = N - rays.length ∧
      g1.accumulate = N ∧ g1.out = g.out ∧
      binsOf g1 = bins_with g m b (window_sum g rays) ∧
      (rays.length = 0 → final_record g1 = .ok g1) ∧
      (0 < rays.length →
        ∃ g', final_record g1 = .ok g' ∧
          g'.out = g.out ++ [Event.warning .partial_accumulation]
            ++ cycle_of g.modname (bins_with g m b (window_sum g rays))
            ++ [Event.end_record] ∧
          g'.accumulate = N - g1.account ∧ g'.accumulate = rays.length) := by
  obtain ⟨mp0, hmp0, htab⟩ := window_start g m b 0 hreg hzero
  have hlen0 : mp0.cbin.length = mp0.nbins.toNat := (hreg.2.2 _ (lu_find_mem _ _ _ hmp0)).2.2
  obtain ⟨g1, k1, k2, k3, k4, _⟩ := window_loop g m mp0 b hmp0 hlen0 rays g 0 hrays htab
    (agree_refl g) (by rw [hcnt]; omega) hleft
  rw [zero_add] at k2
  obtain ⟨_, _, a3, a4, a5, a6⟩ := k3
  have hreg1 : RegOK g1 := regok_window g g1 m mp0 b _ hreg hmp0 k2 a4
  have hbins := binsOf_window g g1 m mp0 b _ hmp0 k2
  refine ⟨g1, k1, by rw [k4, hcnt], by rw [a5, hacc], a3, hbins, ?_, ?_⟩
  · intro h0
    apply final_record_complete
    · rw [a5, hacc]
      omega
    · rw [k4, a5, hcnt, hacc, h0]
      simp
  · intro hpos
    obtain ⟨g', f1, _, f3, f4, _⟩ := final_record_partial g1 hreg1 (by rw [a6]; exact hchild)
      (by rw [k4, a5, hcnt, hacc]; omega)
    refine ⟨g', f1, ?_, by rw [f4, a5, hacc], ?_⟩
    · rw [f3, a3, a4, hbins]
    · rw [f4, k4, a5, hcnt, hacc]
      omega

/-- The scenario with the input ending after one ray and after no ray. -/
theorem C5_partial_final_witness :
    (∃ g1, rcontrib_loop wall_state [wall_in] = .ok g1 ∧ g1.account = 2 ∧
        ∃ g', final_record g1 = .ok g' ∧
          g'.out = [Event.warning .partial_accumulation,
            Event.mod_output "wall" [(1, 0, 0)], Event.end_record] ∧
          g'.accumulate = 1) ∧
      final_record wall_state = .ok wall_state := by
  have h1 := C5_partial_final wall_state 3 "wall" 0 [wall_in]
    (by decide!) (by decide!) (by decide!) (by decide!) (by decide!) (by decide!) (by decide!)
    (by
      intro r hr
      simp only [List.mem_singleton] at hr
      subst hr
      exact wall_in_strikes)
    (Or.inl (by decide!))
  have h0 := C5_partial_final wall_state 3 "wall" 0 []
    (by decide!) (by decide!) (by decide!) (by decide!) (by decide!) (by decide!) (by decide!)
    (by simp) (Or.inl (by decide!))
  constructor
  · obtain ⟨g1, k1, k2, _, _, _, _, k7⟩ := h1
    obtain ⟨g', f1, f2, _, f4⟩ := k7 (by decide)
    exact ⟨g1, k1, by rw [k2]; decide, g', f1, f2.trans (by decide!), by rw [f4]; rfl⟩
  · obtain ⟨g1, k1, _, _, _, _, k6, _⟩ := h0
    simp only [rcontrib_loop, Res.ok.injEq] at k1
    subst k1
    exact k6 rfl

/-! ### The number of emission cycles -/

theorem keeps_refl (g : Globals) : Keeps g g := ⟨rfl, rfl, rfl, rfl, rfl, rfl, fun _ => rfl⟩

theorem keeps_trans (g1 g2 g3 : Globals) (h1 : Keeps g1 g2) (h2 : Keeps g2 g3) :
    Keeps g1 g3 := by
  obtain ⟨a1, a2, a3, a4, a5, a6, a7⟩ := h1
  obtain ⟨b1, b2, b3, b4, b5, b6, b7⟩ := h2
  exact ⟨a1.trans b1, a2.trans b2, a3.trans b3, a4.trans b4, a5.trans b5, a6.trans b6,
    fun n => (a7 n).trans (b7 n)⟩

theorem ncycles_append (o1 o2 : List Event) : ncycles (o1 ++ o2) = ncycles o1 + ncycles o2 := by
  simp [ncycles, List.filter_append]

theorem ncycles_cycle_of (names : List String) (bins : String → List DCOLOR) :
    ncycles (cycle_of names bins) = 0 := by
  simp [ncycles, cycle_of, List.filter_map, Function.comp_def]

/-- The bound the range test gives for the record the ray strikes. -/
theorem bin_in_range_at (g : Globals) (t : RAY) (ro : OBJREC) (m : String) (mp : MODCONT)
    (hro : t.ro = some ro) (hmod : ro.omod = some m)
    (hmp : lu_find g.modconttab m = some mp) (hr : bin_in_range g t) :
    bval_of t mp + 1 / 2 < 2 ^ 31 - 1 / 2 ^ 23 := by
  unfold bin_in_range at hr
  simp only [hro, hmod, hmp] at hr
  exact hr

/-- The range test depends on the state only through what its records hold
besides their bins. -/
theorem bin_in_range_congr (g1 g : Globals) (t : RAY)
    (h : ∀ n, (lu_find g1.modconttab n).map rec_meta = (lu_find g.modconttab n).map rec_meta)
    (hr : bin_in_range g t) : bin_in_range g1 t := by
  unfold bin_in_range at hr ⊢
  cases hro : t.ro with
  | none => trivial
  | some ro =>
    cases hmod : ro.omod with
    | none => simp only [hmod]
    | some oname =>
      simp only [hro, hmod] at hr ⊢
      have hm := h oname
      cases h1 : lu_find g1.modconttab oname with
      | none => trivial
      | some mp1 =>
        cases h0 : lu_find g.modconttab oname with
        | none => rw [h1, h0] at hm; cases hm
        | some mp =>
          rw [h1, h0] at hm
          rw [h0] at hr
          simp only [Option.map_some', Option.some.injEq, rec_meta, Prod.mk.injEq] at hm
          obtain ⟨m1, m2, _⟩ := hm
          simp only [bval_of, m1, m2] at hr ⊢
          exact hr

/-- A store into the bins of a record leaves what the records hold besides
their bins. -/
theorem rec_meta_lu_set (g : Globals) (k : String) (mp mp' : MODCONT)
    (hmp : lu_find g.modconttab k = some mp) (hm : rec_meta mp' = rec_meta mp) (n : String) :
    (lu_find (lu_set g.modconttab k mp') n).map rec_meta
      = (lu_find g.modconttab n).map rec_meta := by
  rw [lu_find_lu_set]
  by_cases hn : n = k
  · rw [if_pos hn, hn, hmp]
    simp only [Option.map_some', hm]
  · rw [if_neg hn]

/-- For every ray whose bin value is in the range of `int`, `trace_contrib`
returns, in a state with the registry in order: it writes inside the bin
arrays only. -/
theorem trace_contrib_safe (g : Globals) (r : RAY) (hreg : RegOK g)
    (hr : bin_in_range g r) :
    ∃ g', trace_contrib g r = .ok g' ∧ RegOK g' ∧ Keeps g' g := by
  cases hro : r.ro with
  | none => exact ⟨g, by simp [trace_contrib, hro], hreg, keeps_refl g⟩
  | some ro =>
    cases hmod : ro.omod with
    | none => exact ⟨g, by simp [trace_contrib, hro, hmod], hreg, keeps_refl g⟩
    | some oname =>
      by_cases hsrc : 0 ≤ r.rsrc ∧ g.source.get? r.rsrc.toNat ≠ some ro.id
      · refine ⟨g, ?_, hreg, keeps_refl g⟩
        unfold trace_contrib
        simp only [hro, hmod]
        rw [if_pos hsrc]
      · cases hmp : lu_find g.modconttab oname with
        | none =>
          refine ⟨g, ?_, hreg, keeps_refl g⟩
          unfold trace_contrib
          simp only [hro, hmod, hmp]
          rw [if_neg hsrc]
        | some mp =>
          obtain ⟨h1, h2, h3⟩ := hreg.2.2 _ (lu_find_mem _ _ _ hmp)
          have hb := bin_in_range_at g r ro oname mp hro hmod hmp hr
          by_cases hv : bval_of r mp ≤ -1 / 2
          · rw [trace_contrib_eq g r ro oname mp hro hmod hsrc hmp h3, if_pos hv]
            exact ⟨g, rfl, hreg, keeps_refl g⟩
          · obtain ⟨bn, hbn, _⟩ := bin_of_defined r mp (not_le.mp hv) hb
            rw [trace_contrib_bin g r ro oname mp bn hro hmod hsrc hmp h3 (not_le.mp hv) hbn]
            split_ifs
            · refine ⟨_, rfl, hreg, rfl, rfl, rfl, rfl, rfl, ?_, fun _ => rfl⟩
              simp [warn, ncycles_append, ncycles]
            · exact ⟨_, rfl, regok_lu_set g oname _ hreg h1 h2 (by simp [h3]),
                rfl, rfl, rfl, rfl, rfl, rfl, rec_meta_lu_set g oname mp _ hmp rfl⟩

theorem eval_ray_safe (ts : List RAY) :
    ∀ g : Globals, RegOK g → (∀ t ∈ ts, bin_in_range g t) →
      ∃ g', eval_ray g ts = .ok g' ∧ RegOK g' ∧ Keeps g' g := by
  induction ts with
  | nil => exact fun g hreg _ => ⟨g, rfl, hreg, keeps_refl g⟩
  | cons t ts ih =>
    intro g hreg hr
    obtain ⟨g1, h1, h2, h3⟩ := trace_contrib_safe g t hreg (hr t (List.mem_cons_self _ _))
    obtain ⟨g2, k1, k2, k3⟩ := ih g1 h2 (fun x hx =>
      bin_in_range_congr g1 g x h3.2.2.2.2.2.2 (hr x (List.mem_cons_of_mem _ hx)))
    exact ⟨g2, by simp only [eval_ray, h1, bind_ok, k1], k2, keeps_trans _ _ _ k3 h3⟩

theorem next_lastray_keeps (g : Globals) (hreg : RegOK g) :
    RegOK (next_lastray g) ∧ Keeps (next_lastray g) g := by
  obtain ⟨n1, n2, n3, n4, _, _⟩ := next_lastray_frame g
  obtain ⟨_, _, a3, a4, a5, a6⟩ := n2
  exact ⟨regok_congr _ _ n1 a4 hreg, a5, a6, n3, n4, a4, by rw [a3], fun n => by rw [n1]⟩

theorem flush_request_keeps (g : Globals) (hreg : RegOK g) (hchild : g.nchild ≠ -1) :
    RegOK (flush_request g) ∧ Keeps (flush_request g) g := by
  unfold flush_request
  by_cases h : g.yres ≤ 0 ∨ g.xres ≤ 1
  · simp only [h, if_true, hchild, if_false]
    exact ⟨hreg, keeps_refl g⟩
  · simp only [h, if_false, hchild]
    exact ⟨hreg, keeps_refl g⟩

/-- The state after the evaluation part of the loop body. -/
theorem evaluated_safe (g : Globals) (r : RAYIN) (hreg : RegOK g) (hchild : g.nchild ≠ -1)
    (hr : ∀ t ∈ r.traces, bin_in_range g t) :
    ∃ g', (if zerolen r.direc = true then Res.ok (flush_request (next_lastray g))
            else eval_ray (next_lastray g) r.traces) = .ok g' ∧
      RegOK g' ∧ Keeps g' g := by
  obtain ⟨n1, n2⟩ := next_lastray_keeps g hreg
  by_cases hz : zerolen r.direc = true
  · rw [if_pos hz]
    obtain ⟨f1, f2⟩ := flush_request_keeps (next_lastray g) n1 (by rw [n2.2.1]; exact hchild)
    exact ⟨_, rfl, f1, keeps_trans _ _ _ f2 n2⟩
  · rw [if_neg hz]
    obtain ⟨g', e1, e2, e3⟩ := eval_ray_safe r.traces (next_lastray g) n1
      (fun t ht => bin_in_range_congr _ g t n2.2.2.2.2.2.2 (hr t ht))
    exact ⟨g', e1, e2, keeps_trans _ _ _ e3 n2⟩

theorem count_done_zero (g : Globals) (h : g.raysleft = 0) :
    count_done g = ({ g with lastdone := (g.lastdone + 1) % 2 ^ 64 }, false) := by
  unfold count_done
  simp [h]

/-- The loop body in accumulation mode, with no declared ray count: the
counter goes down by one, or an emission cycle is made and it starts over. -/
theorem ray_count_step (g : Globals) (N : Nat) (r : RAYIN) (hreg : RegOK g)
    (hN : 1 ≤ N) (hchild : g.nchild ≠ -1) (hacc : g.accumulate = N) (h1 : 1 ≤ g.account)
    (hleft : g.raysleft = 0) (hr : ∀ t ∈ r.traces, bin_in_range g t) :
    ∃ g', rcontrib_ray g r = .ok (g', false) ∧ RegOK g' ∧ g'.nchild = g.nchild ∧
      g'.accumulate = g.accumulate ∧ g'.raysleft = 0 ∧
      (∀ n, (lu_find g'.modconttab n).map rec_meta = (lu_find g.modconttab n).map rec_meta) ∧
      ((g.account = 1 ∧ g'.account = N ∧ ncycles g'.out = ncycles g.out + 1) ∨
        (1 < g.account ∧ g'.account = g.account - 1 ∧ ncycles g'.out = ncycles g.out)) := by
  obtain ⟨gE, e1, e2, e3⟩ := evaluated_safe g r hreg hchild hr
  obtain ⟨k1, k2, k3, k4, k5, k6, k7⟩ := e3
  have hzero : ¬ (g.nchild ≠ -1 ∧ zerolen r.direc = true ∧ g.accumulate = 0) := by
    rintro ⟨_, _, h0⟩
    rw [hacc] at h0
    omega
  have hrun : rcontrib_ray g r = (done_contrib gE).bind fun g4 => .ok (count_done g4) := by
    unfold rcontrib_ray
    rw [if_neg hzero]
    simp only [e1, bind_ok]
  by_cases hone : g.account = 1
  · obtain ⟨gD, d1, d2, d3, d4, d5⟩ := done_contrib_emit gE e2 (by rw [k3]; exact hone)
    have hD0 : gD.raysleft = 0 := by rw [d5]; show gE.raysleft = 0; rw [k4]; exact hleft
    refine ⟨{ gD with lastdone := (gD.lastdone + 1) % 2 ^ 64 }, ?_, d2, ?_, ?_, hD0, ?_, Or.inl
      ⟨hone, ?_, ?_⟩⟩
    · rw [hrun, d1, bind_ok, count_done_zero gD hD0]
    · show gD.nchild = g.nchild
      rw [d5]
      exact k2
    · show gD.accumulate = g.accumulate
      rw [d5]
      exact k1
    · intro n
      show (lu_find gD.modconttab n).map rec_meta = _
      rw [d4, ← k7 n, Option.map_map]
      rfl
    · show gD.account = N
      rw [d5]
      show gE.accumulate = N
      rw [k1, hacc]
    · show ncycles gD.out = ncycles g.out + 1
      rw [d3, ncycles_append, ncycles_append, ncycles_cycle_of, k6]
      rfl
  · have hgt : 1 < gE.account := by rw [k3]; omega
    have hE0 : gE.raysleft = 0 := by rw [k4]; exact hleft
    refine ⟨{ gE with account := gE.account - 1, lastdone := (gE.lastdone + 1) % 2 ^ 64 },
      ?_, e2, k2, k1, hE0, k7, Or.inr ⟨by omega, ?_, k6⟩⟩
    · rw [hrun, done_contrib_wait gE hgt, bind_ok,
        count_done_zero { gE with account := gE.account - 1 } hE0]
    · show gE.account - 1 = g.account - 1
      rw [k3]

theorem ceil_div (n N : Nat) (hN : 0 < N) :
    (n + N - 1) / N = n / N + (if n % N = 0 then 0 else 1) := by
  have hr : n % N < N := Nat.mod_lt n hN
  have h := Nat.div_add_mod n N
  by_cases h0 : n % N = 0
  · rw [if_pos h0]
    have e : n + N - 1 = (N - 1) + N * (n / N) := by omega
    have hlt : N - 1 < N := by omega
    rw [e, Nat.add_mul_div_left _ _ hN, Nat.div_eq_of_lt hlt]
    omega
  · rw [if_neg h0]
    have e : n + N - 1 = (n % N - 1) + N * (n / N + 1) := by
      rw [Nat.mul_add, Nat.mul_one]
      omega
    have hlt : n % N - 1 < N := by omega
    rw [e, Nat.add_mul_div_left _ _ hN, Nat.div_eq_of_lt hlt]
    omega

/-- The sequential loop in accumulation mode, with no declared ray count,
started when `a` rays of the current window have been seen. -/
theorem ray_count_loop (N : Nat) (hN : 1 ≤ N) (input : List RAYIN) :
    ∀ (g : Globals) (a : Nat), RegOK g → g.nchild ≠ -1 → g.accumulate = N → a < N →
      g.account = N - a → g.raysleft = 0 →
      (∀ r ∈ input, ∀ t ∈ r.traces, bin_in_range g t) →
      ∃ g', rcontrib_loop g input = .ok g' ∧ RegOK g' ∧ g'.nchild = g.nchild ∧
        g'.accumulate = N ∧ g'.raysleft = 0 ∧
        g'.account = N - ((a + input.length) % N : Nat) ∧
        ncycles g'.out = ncycles g.out + (a + input.length) / N := by
  induction input with
  | nil =>
    intro g a hreg _ hacc ha hcnt hleft _
    refine ⟨g, rfl, hreg, rfl, hacc, hleft, ?_, ?_⟩
    · simp only [List.length_nil, add_zero, Nat.mod_eq_of_lt ha]
      exact hcnt
    · simp [Nat.div_eq_of_lt ha]
  | cons r rs ih =>
    intro g a hreg hchild hacc ha hcnt hleft hr
    obtain ⟨g1, s1, s2, s3, s4, s5, s7, s6⟩ :=
      ray_count_step g N r hreg hN hchild hacc (by omega) hleft
        (hr r (List.mem_cons_self _ _))
    have hr1 : ∀ x ∈ rs, ∀ t ∈ x.traces, bin_in_range g1 t := fun x hx t ht =>
      bin_in_range_congr g1 g t s7 (hr x (List.mem_cons_of_mem _ hx) t ht)
    have hloop : rcontrib_loop g (r :: rs) = rcontrib_loop g1 rs := by
      simp only [rcontrib_loop, s1, bind_ok]
      rfl
    rw [hloop]
    rcases s6 with ⟨t1, t2, t3⟩ | ⟨t1, t2, t3⟩
    · have haN : a + 1 = N := by omega
      obtain ⟨g', k1, k2, k3, k4, k5, k6, k7⟩ := ih g1 0 s2 (by rw [s3]; exact hchild)
        (by rw [s4, hacc]) (by omega) (by rw [t2]; simp) s5 hr1
      have e : a + (rs.length + 1) = N + rs.length := by omega
      refine ⟨g', k1, k2, by rw [k3, s3], k4, k5, ?_, ?_⟩
      · rw [k6]
        simp only [List.length_cons, e, zero_add, Nat.add_mod_left]
      · rw [k7, t3]
        simp only [List.length_cons, e, zero_add, Nat.add_div_left _ (by omega : 0 < N)]
        omega
    · have haN : a + 1 < N := by omega
      obtain ⟨g', k1, k2, k3, k4, k5, k6, k7⟩ := ih g1 (a + 1) s2 (by rw [s3]; exact hchild)
        (by rw [s4, hacc]) haN (by rw [t2, hcnt]; push_cast; omega) s5 hr1
      have e : a + (rs.length + 1) = a + 1 + rs.length := by omega
      refine ⟨g', k1, k2, by rw [k3, s3], k4, k5, ?_, ?_⟩
      · rw [k6]
        simp only [List.length_cons, e]
      · rw [k7, t3]
        simp only [List.length_cons, e]

theorem rcinit_frame (g : Globals) (hres : g.yres ≤ 0) :
    (rcinit g).modconttab = g.modconttab ∧ (rcinit g).modname = g.modname ∧
      (rcinit g).account = g.accumulate ∧ (rcinit g).accumulate = g.accumulate ∧
      (rcinit g).raysleft = 0 ∧ (rcinit g).nchild = g.nchild ∧ (rcinit g).out = g.out ∧
      (rcinit g).use_optix = g.use_optix := by
  have h : ¬ 0 < g.yres := by omega
  unfold rcinit
  simp [h]

/-- Claim C3, the claim as worded fails, in two ways. With accumulate factor 1
and one modifier, an input that holds one flush request and no other ray
makes one emission cycle, while the number of rays that are no flush request
is 0, and `ceil(0 / 1) = 0`. And not every ray stream has a number of
emission cycles: with accumulate factor 3 and the modifier "wall" with 4
bins, for the one ray whose bin value is `10^10` the conversion to `int` in
`trace_contrib` is undefined, and so is the run. -/
theorem C3_counterexample :
    ((rcontrib (fun _ g => g) (registered (start 1) "wall" none none none 0)
        [flush_in]).val?.map fun g => ncycles g.out) = some 1 ∧
      (nonflush [flush_in] + 1 - 1) / 1 = 0 ∧
      nonflush [far_in] = 1 ∧
      rcontrib (fun _ g => g) bins_state [far_in] = .undefined := by
  decide!

/-- Claim C3 (record count in accumulation mode), amended. In a single process
(no device, no declared resolution) with accumulate factor `N ≥ 1`, for every
ray stream whose bin values are in the range of `int` the number of emission
cycles the main loop and the handling of the end of the input make together
is `ceil(n / N)`, where `n` is the number of rays of the stream, flush
requests included: a flush request is counted in its window like a ray that
contributes nothing. -/
theorem C3_record_count (dev : OptixCall → Globals → Globals) (g : Globals) (N : Nat)
    (input : List RAYIN) (hreg : RegOK g) (hN : 1 ≤ N) (hacc : g.accumulate = N)
    (hchild : g.nchild ≠ -1) (hdev : g.use_optix = false) (hres : g.yres ≤ 0)
    (hrange : ∀ r ∈ input, ∀ t ∈ r.traces, bin_in_range g t) :
    ∃ g', rcontrib dev g input = .ok g' ∧
      ncycles g'.out = ncycles g.out + (input.length + N - 1) / N := by
  obtain ⟨i1, i2, i3, i4, i5, i6, i7, i8⟩ := rcinit_frame g hres
  obtain ⟨g1, k1, k2, k3, k4, k5, k6, k7⟩ := ray_count_loop N hN input (rcinit g) 0
    (regok_congr _ _ i1 i2 hreg) (by rw [i6]; exact hchild) (by rw [i4, hacc]) (by omega)
    (by rw [i3, hacc]; simp) i5
    (fun r hr t ht => bin_in_range_congr _ g t (fun n => by rw [i1]) (hrange r hr t ht))
  rw [zero_add] at k6 k7
  have hrun : rcontrib dev g input = rcontrib_eoi g1 := by
    unfold rcontrib
    simp only [i8, hdev, Bool.false_eq_true, if_false, k1, bind_ok]
  rw [hrun, ceil_div _ _ (by omega : 0 < N), i7] at *
  by_cases h0 : input.length % N = 0
  · rw [if_pos h0]
    have hf := final_record_complete g1 (by rw [k4]; omega) (by rw [k6, k4, h0]; simp)
    refine ⟨g1, ?_, by rw [k7]; rfl⟩
    unfold rcontrib_eoi
    rw [hf, bind_ok, if_neg (by rw [k5]; simp)]
  · rw [if_neg h0]
    have hlt : input.length % N < N := Nat.mod_lt _ (by omega)
    obtain ⟨g', f1, _, f3, _, _, f6⟩ := final_record_partial g1 k2 (by rw [k3, i6]; exact hchild)
      (by rw [k6, k4]; omega)
    refine ⟨g', ?_, ?_⟩
    · unfold rcontrib_eoi
      rw [f1, bind_ok, if_neg (by rw [f6, k5]; simp)]
    · rw [f3, ncycles_append, ncycles_append, ncycles_append, ncycles_cycle_of, k7]
      simp only [ncycles, List.filter_cons, List.filter_nil, List.length_nil, List.length_cons]
      simp only [decide_eq_true_eq, if_true, Event.warning.injEq, reduceCtorEq, decide_False,
        Bool.false_eq_true, if_false, List.length_nil, List.length_cons]
      omega

/-- Accumulate factor 3 on the registry of the scenario: four rays and one
flush request make two emission cycles. -/
theorem C3_record_count_witness :
    ∃ g', rcontrib (fun _ g => g) wall_state [wall_in, wall_in, flush_in, wall_in, wall_in]
        = .ok g' ∧
      ncycles g'.out = 2 := by
  obtain ⟨g', h1, h2⟩ := C3_record_count (fun _ g => g) wall_state 3
    [wall_in, wall_in, flush_in, wall_in, wall_in]
    (by decide!) (by decide!) (by decide!) (by decide!) (by decide!) (by decide!)
    (by decide!)
  exact ⟨g', h1, h2.trans (by decide!)⟩


/-! ### The device path of `rcontrib` -/

/-- A cache that can hold what is stored keeps its capacity. -/
theorem cap_after_fits : ∀ (n cap len : Nat), len + n ≤ cap → cap_after cap len n = cap := by
  intro n
  induction n with
  | zero => intro cap len _; rfl
  | succ n ih =>
    intro cap len h
    unfold cap_after
    rw [if_neg (by omega)]
    exact ih cap (len + 1) (by omega)

/-- The capacity never falls and, from a positive capacity that held the
entries before, holds the entries after. -/
theorem cap_after_holds : ∀ (n cap len : Nat), 0 < cap → len ≤ cap →
    cap ≤ cap_after cap len n ∧ len + n ≤ cap_after cap len n := by
  intro n
  induction n with
  | zero => intro cap len _ h; exact ⟨Nat.le_refl _, h⟩
  | succ n ih =>
    intro cap len hc h
    unfold cap_after
    by_cases hf : len = cap
    · rw [if_pos hf]
      obtain ⟨a, b⟩ := ih (cap * 2) (len + 1) (by omega) (by omega)
      exact ⟨by omega, by omega⟩
    · rw [if_neg hf]
      obtain ⟨a, b⟩ := ih cap (len + 1) hc (by omega)
      exact ⟨a, by omega⟩

/-- The loop filling the ray cache stores every record of the input, in
order, whatever the capacity it starts with, as long as that is positive and
holds the entries already there: it never stops before the input ends. -/
theorem cache_loop_all : ∀ (input : List RAYIN) (c : Cache), 0 < c.total_rays →
    c.rays.length ≤ c.total_rays →
    cache_loop c input = .ok
      { total_rays := cap_after c.total_rays c.rays.length input.length
        rays := c.rays ++ input.map entry_of } := by
  intro input
  induction input with
  | nil =>
    intro c _ _
    simp [cache_loop, cap_after]
  | cons r rs ih =>
    intro c hc hl
    unfold cache_loop
    by_cases hf : c.rays.length = c.total_rays
    · simp only [hf, if_true]
      rw [if_neg (by rw [← hf]; omega)]
      have h := ih { total_rays := c.total_rays * 2, rays := c.rays ++ [(r.orig, r.direc)] }
        (by show 0 < c.total_rays * 2; omega)
        (by simp only [List.length_append, List.length_singleton]; omega)
      rw [h]
      simp only [List.length_append, List.length_singleton, List.length_cons, List.map_cons,
        List.append_assoc, List.singleton_append, entry_of]
      rw [hf]
      conv_rhs => unfold cap_after
      rw [if_pos rfl]
      rfl
    · simp only [hf, if_false]
      rw [if_neg (by omega)]
      have h := ih { total_rays := c.total_rays, rays := c.rays ++ [(r.orig, r.direc)] } hc
        (by simp only [List.length_append, List.length_singleton]; omega)
      rw [h]
      simp only [List.length_append, List.length_singleton, List.length_cons, List.map_cons,
        List.append_assoc, List.singleton_append, entry_of]
      conv_rhs => unfold cap_after
      rw [if_neg hf]
      rfl


/-- The device path of `rcontrib` reads the whole input, stores one entry for
every record and calls the device once with all of them; the declared ray
count is reduced by their number, modulo 2^64. -/
theorem rcontrib_optix_run (dev : OptixCall → Globals → Globals) (g : Globals)
    (input : List RAYIN) :
    ∃ call gD, rcontrib_optix dev g input = .ok (dev call gD) ∧
      gD.out = g.out ++ [Event.contribOptix call] ∧
      call.rays = input.map entry_of ∧
      gD.raysleft = (if g.raysleft ≠ 0
                     then (g.raysleft + 2 ^ 64 - input.length % 2 ^ 64) % 2 ^ 64 else 0) ∧
      gD.nchild = g.nchild ∧ gD.accumulate = g.accumulate ∧ gD.account = g.account ∧
      (g.yres ≤ 0 → call.width = 1 ∧ call.height = input.length) := by
  have hc : 0 < (if g.raysleft ≠ 0 then g.raysleft else EXPECTED_RAY_COUNT) := by
    by_cases h : g.raysleft = 0
    · rw [if_neg (not_not.mpr h)]
      decide
    · rw [if_pos h]
      omega
  have hloop := cache_loop_all input
    { total_rays := if g.raysleft ≠ 0 then g.raysleft else EXPECTED_RAY_COUNT, rays := [] }
    hc (Nat.zero_le _)
  unfold rcontrib_optix cache_start
  simp only []
  rw [hloop, bind_ok]
  refine ⟨_, _, rfl, ?_, ?_, ?_, ?_, ?_, ?_, ?_⟩
  · by_cases h : g.raysleft = 0 <;> simp [h]
  · simp
  · by_cases h : g.raysleft = 0 <;> simp [h]
  · by_cases h : g.raysleft = 0 <;> simp [h]
  · by_cases h : g.raysleft = 0 <;> simp [h]
  · by_cases h : g.raysleft = 0 <;> simp [h]
  · intro hy
    have hy' : ¬ 0 < g.yres := by omega
    by_cases h : g.raysleft = 0 <;> simp [h, hy']


/-- Claim C14, the code at the failing input: with the resolution 2 by 1
declared (2 rays) and 3 rays on the input, the device path reads all 3, calls
the device with 3 rays for the shape 2 by 1, is left with the declared count
`2 - 3` modulo 2^64 and ends with "unexpected EOF on input"; the loop of a
single process without the device stops after the 2 declared rays and ends
without an error. -/
theorem C14_rows_overrun :
    (rcinit optix_rows).raysleft = 2 ∧
      ((rcontrib no_device optix_rows [wall_in, wall_in, wall_in]).failure?.map fun f =>
          (f.1, f.2.1)) = some (ErrType.USER, Msg.unexpected_EOF) ∧
      ((rcontrib no_device optix_rows [wall_in, wall_in, wall_in]).failure?.map fun f =>
          (f.2.2.raysleft,
            (device_calls f.2.2.out).map fun c => (c.width, c.height, c.rays.length))) =
        some (2 ^ 64 - 1, [(2, 1, 3)]) ∧
      ((rcontrib no_device seq_rows [wall_in, wall_in, wall_in]).val?.map fun g' => (g'.raysleft, ncycles g'.out)) =
        some (0, 2) := by
  decide!


/-! ### A run that totals all rays -/

theorem frame_refl (g : Globals) : Frame g g :=
  ⟨rfl, rfl, rfl, rfl, rfl, rfl, rfl, fun _ => rfl⟩

theorem frame_trans (g2 g1 g : Globals) (h2 : Frame g2 g1) (h1 : Frame g1 g) : Frame g2 g := by
  obtain ⟨a1, a2, a3, a4, a5, a6, a7, a8⟩ := h2
  obtain ⟨b1, b2, b3, b4, b5, b6, b7, b8⟩ := h1
  exact ⟨a1.trans b1, a2.trans b2, a3.trans b3, a4.trans b4, a5.trans b5, a6.trans b6,
    a7.trans b7, fun n => (a8 n).trans (b8 n)⟩

/-- The contribution a ray adds to a bin depends on the state only through
what `Frame` keeps. -/
theorem share_congr (g1 g : Globals) (h : Frame g1 g) (n : String) (b : Nat) (t : RAY) :
    share g1 n b t = share g n b t := by
  obtain ⟨a1, a2, _, _, _, _, _, a8⟩ := h
  unfold share
  cases hro : t.ro with
  | none => rfl
  | some ro =>
    cases hmod : ro.omod with
    | none => simp only [hmod]
    | some oname =>
      simp only [hmod, a1]
      by_cases hsrc : 0 ≤ t.rsrc ∧ g.source.get? t.rsrc.toNat ≠ some ro.id
      · rw [if_pos hsrc, if_pos hsrc]
      · rw [if_neg hsrc, if_neg hsrc]
        have hm := a8 oname
        cases h1 : lu_find g1.modconttab oname with
        | none =>
          cases h0 : lu_find g.modconttab oname with
          | none => rfl
          | some mp => rw [h1, h0] at hm; cases hm
        | some mp1 =>
          cases h0 : lu_find g.modconttab oname with
          | none => rw [h1, h0] at hm; cases hm
          | some mp =>
            rw [h1, h0] at hm
            simp only [Option.map_some', Option.some.injEq, rec_meta, Prod.mk.injEq] at hm
            obtain ⟨m1, m2, m3⟩ := hm
            simp only [bval_of, bin_of, contr_of, m1, m2, m3, a2]

theorem map_add_zero (o : Option DCOLOR) : (o.map fun v => v + (0 : DCOLOR)) = o := by
  cases o <;> simp

theorem adds_refl (g : Globals) (h : RegOK g) : Adds g g (fun _ _ => 0) :=
  ⟨h, frame_refl g, ⟨[], (List.append_nil _).symm, fun _ he => absurd he (List.not_mem_nil _)⟩,
    fun _ _ => (map_add_zero _).symm⟩

theorem adds_congr (g1 g : Globals) (S S' : String → Nat → DCOLOR)
    (hS : ∀ n b, S n b = S' n b) (h : Adds g1 g S) : Adds g1 g S' := by
  obtain ⟨a1, a2, a3, a4⟩ := h
  refine ⟨a1, a2, a3, fun n b => ?_⟩
  rw [a4, hS]

theorem adds_trans (g2 g1 g : Globals) (S2 S1 : String → Nat → DCOLOR)
    (h2 : Adds g2 g1 S2) (h1 : Adds g1 g S1) :
    Adds g2 g (fun n b => S1 n b + S2 n b) := by
  obtain ⟨a1, a2, ⟨w2, a3, a4⟩, a5⟩ := h2
  obtain ⟨_, b2, ⟨w1, b3, b4⟩, b5⟩ := h1
  refine ⟨a1, frame_trans _ _ _ a2 b2, ⟨w1 ++ w2, ?_, ?_⟩, fun n b => ?_⟩
  · rw [a3, b3, List.append_assoc]
  · intro e he
    rcases List.mem_append.mp he with h | h
    · exact b4 e h
    · exact a4 e h
  · rw [a5, b5, Option.map_map]
    cases binval g n b with
    | none => rfl
    | some v => simp [add_assoc]

/-- A state that differs from `g` only in fields `Frame` does not name, and
in warnings added to the output, adds nothing to any bin. -/
theorem adds_same (g1 g : Globals) (ws : List Event) (hreg : RegOK g)
    (htab : g1.modconttab = g.modconttab) (h1 : g1.source = g.source)
    (h2 : g1.contrib = g.contrib) (h3 : g1.accumulate = g.accumulate)
    (h4 : g1.nchild = g.nchild) (h5 : g1.account = g.account) (h6 : g1.raysleft = g.raysleft)
    (h7 : g1.modname = g.modname) (hout : g1.out = g.out ++ ws) (hws : OnlyWarnings ws) :
    Adds g1 g (fun _ _ => 0) := by
  refine ⟨regok_congr g1 g htab h7 hreg, ⟨h1, h2, h3, h4, h5, h6, h7, fun n => by rw [htab]⟩,
    ⟨ws, hout, hws⟩, fun n b => ?_⟩
  rw [map_add_zero]
  unfold binval
  rw [htab]


/-- For every ray whose bin value is in the range of `int`, `trace_contrib`
returns, outputs nothing but a warning, and adds to each bin what `share`
says: the contribution of the ray to the one bin it strikes, nothing to the
others. -/
theorem trace_contrib_adds (g : Globals) (t : RAY) (hreg : RegOK g)
    (hr : bin_in_range g t) :
    ∃ g', trace_contrib g t = .ok g' ∧ Adds g' g (fun n b => share g n b t) := by
  have hzero : (∀ n b, share g n b t = 0) → Adds g g (fun n b => share g n b t) := fun h =>
    adds_congr g g _ _ (fun n b => (h n b).symm) (adds_refl g hreg)
  cases hro : t.ro with
  | none =>
    refine ⟨g, by simp [trace_contrib, hro], hzero fun n b => ?_⟩
    unfold share
    rw [hro]
  | some ro =>
    cases hmod : ro.omod with
    | none =>
      refine ⟨g, by simp [trace_contrib, hro, hmod], hzero fun n b => ?_⟩
      unfold share
      simp only [hro, hmod]
    | some oname =>
      by_cases hsrc : 0 ≤ t.rsrc ∧ g.source.get? t.rsrc.toNat ≠ some ro.id
      · refine ⟨g, ?_, hzero fun n b => ?_⟩
        · unfold trace_contrib
          simp only [hro, hmod]
          rw [if_pos hsrc]
        · unfold share
          simp only [hro, hmod]
          rw [if_pos hsrc]
      · cases hmp : lu_find g.modconttab oname with
        | none =>
          refine ⟨g, ?_, hzero fun n b => ?_⟩
          · unfold trace_contrib
            simp only [hro, hmod, hmp]
            rw [if_neg hsrc]
          · unfold share
            simp only [hro, hmod, hmp]
            rw [if_neg hsrc]
        | some mp =>
          obtain ⟨h1, h2, h3⟩ : mp.modname = oname ∧ 0 < mp.nbins ∧
              mp.cbin.length = mp.nbins.toNat := hreg.2.2 _ (lu_find_mem _ _ _ hmp)
          have hshare : ∀ n b, share g n b t =
              if oname = n ∧ -1 / 2 < bval_of t mp ∧ bin_of t mp = some (b : Int) ∧
                (b : Int) < mp.nbins then contr_of g t else 0 := by
            intro n b
            unfold share
            simp only [hro, hmod, hmp]
            rw [if_neg hsrc]
          have hrb := bin_in_range_at g t ro oname mp hro hmod hmp hr
          by_cases hb1 : bval_of t mp ≤ -1 / 2
          · rw [trace_contrib_eq g t ro oname mp hro hmod hsrc hmp h3, if_pos hb1]
            refine ⟨g, rfl, hzero fun n b => ?_⟩
            rw [hshare, if_neg]
            intro hh
            exact absurd hb1 (not_le.mpr hh.2.1)
          · obtain ⟨bn, hbn, hnn⟩ := bin_of_defined t mp (not_le.mp hb1) hrb
            rw [trace_contrib_bin g t ro oname mp bn hro hmod hsrc hmp h3 (not_le.mp hb1) hbn]
            by_cases hb2 : mp.nbins ≤ bn
            · rw [if_pos hb2]
              refine ⟨_, rfl, ?_⟩
              have hz : ∀ n b, share g n b t = 0 := by
                intro n b
                rw [hshare, if_neg]
                intro hh
                have e1 := hh.2.2.1
                have e2 := hh.2.2.2
                rw [hbn] at e1
                have e3 : bn = (b : Int) := Option.some.inj e1
                omega
              refine adds_congr _ g _ _ (fun n b => (hz n b).symm)
                (adds_same _ g [Event.warning (.bad_bin_number bn)] hreg
                  rfl rfl rfl rfl rfl rfl rfl rfl rfl ?_)
              intro e he
              exact ⟨_, List.mem_singleton.mp he⟩
            · rw [if_neg hb2]
              have hk : bn.toNat < mp.cbin.length := by
                rw [h3]
                omega
              refine ⟨_, rfl, regok_lu_set g oname _ hreg h1 h2 (by simp [h3]), ?_, ?_, ?_⟩
              · exact ⟨rfl, rfl, rfl, rfl, rfl, rfl, rfl,
                  rec_meta_lu_set g oname mp _ hmp rfl⟩
              · exact ⟨[], (List.append_nil _).symm,
                  fun _ he => absurd he (List.not_mem_nil _)⟩
              · intro n b
                beta_reduce
                rw [binval_lu_set, hshare]
                by_cases hn : n = oname
                · rw [if_pos hn, hn]
                  unfold binval
                  rw [hmp]
                  simp only [Option.some_bind, true_and]
                  by_cases hbk : bn.toNat = b
                  · have hb : bin_of t mp = some (b : Int) := by
                      rw [hbn]
                      congr 1
                      omega
                    have hlt : (b : Int) < mp.nbins := by omega
                    rw [if_pos ⟨not_le.mp hb1, hb, hlt⟩]
                    rw [hbk] at hk ⊢
                    rw [List.getElem?_set_self hk, List.getElem?_eq_getElem hk,
                      List.getD_eq_getElem _ _ hk, addcolor_eq_add]
                    rfl
                  · have hb : ¬ bin_of t mp = some (b : Int) := by
                      rw [hbn]
                      intro e1
                      have e3 : bn = (b : Int) := Option.some.inj e1
                      omega
                    rw [if_neg (fun hh => hb hh.2.1), List.getElem?_set_ne hbk, map_add_zero]
                · rw [if_neg hn, if_neg (fun hh => hn hh.1.symm), map_add_zero]


/-- The evaluation of a ray adds to each bin the sum of what its trace calls
add. -/
theorem eval_ray_adds (ts : List RAY) : ∀ g : Globals, RegOK g →
    (∀ t ∈ ts, bin_in_range g t) →
    ∃ g', eval_ray g ts = .ok g' ∧ Adds g' g (fun n b => (ts.map (share g n b)).sum) := by
  induction ts with
  | nil =>
    intro g hreg _
    exact ⟨g, rfl, adds_congr g g _ _ (fun _ _ => rfl) (adds_refl g hreg)⟩
  | cons t ts ih =>
    intro g hreg hr
    obtain ⟨g1, h1, a1⟩ := trace_contrib_adds g t hreg (hr t (List.mem_cons_self _ _))
    obtain ⟨g2, h2, a2⟩ := ih g1 a1.1 (fun x hx =>
      bin_in_range_congr g1 g x a1.2.1.2.2.2.2.2.2.2 (hr x (List.mem_cons_of_mem _ hx)))
    refine ⟨g2, by simp only [eval_ray, h1, bind_ok, h2], ?_⟩
    refine adds_congr g2 g _ _ (fun n b => ?_) (adds_trans g2 g1 g _ _ a2 a1)
    beta_reduce
    have e : List.map (share g1 n b) ts = List.map (share g n b) ts :=
      List.map_congr_left (fun x _ => share_congr g1 g a1.2.1 n b x)
    rw [List.map_cons, List.sum_cons, e]

/-- The bins of a run that totals all rays, after one record: with the
counter not positive `done_contrib` does nothing, so the record adds what its
trace calls add, or nothing when its direction is zero. -/
theorem rcontrib_ray_total (g : Globals) (r : RAYIN) (hreg : RegOK g)
    (hcnt : g.account ≤ 0) (hchild : g.nchild ≠ -1) (hleft : g.raysleft = 0)
    (hr : ∀ t ∈ r.traces, bin_in_range g t) :
    ∃ g', rcontrib_ray g r = .ok (g', false) ∧
      Adds g' g (fun n b =>
        if zerolen r.direc = true then 0 else (r.traces.map (share g n b)).sum) := by
  obtain ⟨n1, n2, n3, n4, _, _⟩ := next_lastray_frame g
  obtain ⟨m1, m2, m3, m4, m5, m6⟩ := n2
  have hnext : Adds (next_lastray g) g (fun _ _ => 0) :=
    adds_same _ g [] hreg n1 m1 m2 m5 m6 n3 n4 m4 (by rw [m3, List.append_nil])
      (fun _ he => absurd he (List.not_mem_nil _))
  have hdone : ∀ g3 : Globals, Frame g3 g → done_contrib g3 = .ok g3 := by
    intro g3 hf
    unfold done_contrib
    rw [if_pos (by rw [hf.2.2.2.2.1]; exact hcnt)]
  have hcount : ∀ g3 : Globals, RegOK g3 → Frame g3 g →
      count_done g3 = ({ g3 with lastdone := (g3.lastdone + 1) % 2 ^ 64 }, false) ∧
        Adds { g3 with lastdone := (g3.lastdone + 1) % 2 ^ 64 } g3 (fun _ _ => 0) := by
    intro g3 hr hf
    exact ⟨count_done_zero g3 (by rw [hf.2.2.2.2.2.1]; exact hleft),
      adds_same _ g3 [] hr rfl rfl rfl rfl rfl rfl rfl rfl (List.append_nil _).symm
        (fun _ he => absurd he (List.not_mem_nil _))⟩
  unfold rcontrib_ray
  by_cases hz : zerolen r.direc = true
  · by_cases h0 : g.accumulate = 0
    · rw [if_pos ⟨hchild, hz, h0⟩]
      simp only []
      by_cases hw : g.ignore_warning_given = 0
      · simp only [hw, if_true]
        refine ⟨_, rfl, adds_congr _ g _ _ (fun n b => ?_)
          (adds_same _ g [Event.warning .dummy_rays_ignored] hreg
            rfl rfl rfl rfl rfl rfl rfl rfl rfl
            (fun e he => ⟨_, List.mem_singleton.mp he⟩))⟩
        rw [if_pos hz]
      · simp only [hw, if_false]
        refine ⟨_, rfl, adds_congr _ g _ _ (fun n b => ?_)
          (adds_same _ g [] hreg rfl rfl rfl rfl rfl rfl rfl rfl
            (List.append_nil _).symm (fun _ he => absurd he (List.not_mem_nil _)))⟩
        rw [if_pos hz]
    · rw [if_neg (fun h => h0 h.2.2)]
      simp only []
      rw [if_pos hz]
      have hfl : Adds (flush_request (next_lastray g)) (next_lastray g) (fun _ _ => 0) := by
        have hc : (next_lastray g).nchild ≠ -1 := by rw [m6]; exact hchild
        unfold flush_request
        by_cases h : (next_lastray g).yres ≤ 0 ∨ (next_lastray g).xres ≤ 1
        · simp only [h, if_true, hc, if_false]
          exact adds_same _ _ [] hnext.1 rfl rfl rfl rfl rfl rfl rfl rfl
            (List.append_nil _).symm (fun _ he => absurd he (List.not_mem_nil _))
        · simp only [h, if_false, hc]
          exact adds_refl _ hnext.1
      have a3 := adds_trans _ _ g _ _ hfl hnext
      rw [bind_ok, hdone _ a3.2.1, bind_ok]
      obtain ⟨c1, c2⟩ := hcount _ a3.1 a3.2.1
      rw [c1]
      refine ⟨_, rfl, adds_congr _ g _ _ (fun n b => ?_) (adds_trans _ _ g _ _ c2 a3)⟩
      beta_reduce
      rw [if_pos hz, add_zero, add_zero]
  · rw [if_neg (fun h => hz h.2.1)]
    simp only []
    rw [if_neg hz]
    obtain ⟨g2, e1, e2⟩ := eval_ray_adds r.traces (next_lastray g) hnext.1
      (fun t ht => bin_in_range_congr _ g t hnext.2.1.2.2.2.2.2.2.2 (hr t ht))
    have a3 := adds_trans _ _ g _ _ e2 hnext
    rw [e1, bind_ok, hdone _ a3.2.1, bind_ok]
    obtain ⟨c1, c2⟩ := hcount _ a3.1 a3.2.1
    rw [c1]
    refine ⟨_, rfl, adds_congr _ g _ _ (fun n b => ?_) (adds_trans _ _ g _ _ c2 a3)⟩
    beta_reduce
    have e : List.map (share (next_lastray g) n b) r.traces = List.map (share g n b) r.traces :=
      List.map_congr_left (fun x _ => share_congr _ g hnext.2.1 n b x)
    rw [if_neg hz, zero_add, add_zero, e]

/-- The loop of a run that totals all rays reads the whole input, makes no
emission and clears no bin: each bin grows by the sum of the contributions
of all trace calls. -/
theorem rcontrib_loop_total : ∀ (input : List RAYIN) (g : Globals), RegOK g →
    g.account ≤ 0 → g.nchild ≠ -1 → g.raysleft = 0 →
    (∀ r ∈ input, ∀ t ∈ r.traces, bin_in_range g t) →
    ∃ g', rcontrib_loop g input = .ok g' ∧ Adds g' g (fun n b => run_sum g n b input) := by
  intro input
  induction input with
  | nil =>
    intro g hreg _ _ _ _
    exact ⟨g, rfl, adds_congr g g _ _ (fun _ _ => rfl) (adds_refl g hreg)⟩
  | cons r rs ih =>
    intro g hreg hcnt hchild hleft hr
    obtain ⟨g1, s1, a1⟩ := rcontrib_ray_total g r hreg hcnt hchild hleft
      (hr r (List.mem_cons_self _ _))
    obtain ⟨_, _, _, f4, f5, f6, _, f8⟩ := a1.2.1
    obtain ⟨g2, s2, a2⟩ := ih g1 a1.1 (by rw [f5]; exact hcnt)
      (by rw [f4]; exact hchild) (by rw [f6]; exact hleft)
      (fun x hx t ht => bin_in_range_congr g1 g t f8 (hr x (List.mem_cons_of_mem _ hx) t ht))
    refine ⟨g2, ?_, ?_⟩
    · unfold rcontrib_loop
      rw [s1, bind_ok]
      simp only [Bool.false_eq_true, if_false]
      exact s2
    · refine adds_congr g2 g _ _ (fun n b => ?_) (adds_trans g2 g1 g _ _ a2 a1)
      beta_reduce
      unfold run_sum
      have e : (rs.map fun x => if zerolen x.direc = true then (0 : DCOLOR)
            else (x.traces.map (share g1 n b)).sum) =
          rs.map fun x => if zerolen x.direc = true then (0 : DCOLOR)
            else (x.traces.map (share g n b)).sum := by
        apply List.map_congr_left
        intro x _
        by_cases hx : zerolen x.direc = true
        · rw [if_pos hx, if_pos hx]
        · rw [if_neg hx, if_neg hx]
          have e2 : List.map (share g1 n b) x.traces = List.map (share g n b) x.traces :=
            List.map_congr_left (fun y _ => share_congr g1 g a1.2.1 n b y)
          rw [e2]
      rw [List.map_cons, List.sum_cons, e]


/-- The contribution a ray adds to a bin is the same in two states with the
same sources, setting and records. -/
theorem share_of_tab (g1 g : Globals) (h1 : g1.source = g.source) (h2 : g1.contrib = g.contrib)
    (h3 : g1.modconttab = g.modconttab) : share g1 = share g := by
  funext n b t
  unfold share contr_of
  rw [h1, h2, h3]

/-- Warnings are no emission cycles. -/
theorem ncycles_warnings (ws : List Event) (h : OnlyWarnings ws) : ncycles ws = 0 := by
  induction ws with
  | nil => rfl
  | cons e ws ih =>
    obtain ⟨m, hm⟩ := h e (List.mem_cons_self _ _)
    have ih' := ih (fun x hx => h x (List.mem_cons_of_mem _ hx))
    have hc : ncycles (e :: ws) = ncycles [e] + ncycles ws := ncycles_append [e] ws
    rw [hc, ih', hm]
    rfl

/-- The bin array of a modifier holds its bin values. -/
theorem binsOf_get (g : Globals) (n : String) (b : Nat) : (binsOf g n)[b]? = binval g n b := by
  unfold binsOf binval
  cases lu_find g.modconttab n <;> simp

/-- Claim C20, the claim as worded fails: not every ray stream ends with an
emission. In a run that totals all rays, with no device and no declared
resolution, the modifier "wall" has 4 bins and the one ray of the input has
the bin value `10^10`: the conversion to `int` in `trace_contrib` is
undefined, and so is the run. -/
theorem C20_counterexample :
    RegOK far_total ∧ far_total.accumulate ≤ 0 ∧ far_total.nchild ≠ -1 ∧
      far_total.use_optix = false ∧ far_total.yres ≤ 0 ∧
      rcontrib no_device far_total [far_in] = .undefined := by
  decide!

/-- Claim C20 (an accumulate factor that is not positive totals the whole
run), amended. In a single process of `rcontrib` with `accumulate ≤ 0`, no device and
no declared resolution, for every ray stream whose bin values are in the
range of `int`, the empty one included: after
every number `k` of records read nothing has been output but warnings,
`done_contrib` returns without doing anything, and no bin has been cleared,
each holds what it held at the start plus the sum of the contributions of all
trace calls so far; the run ends without an error and the end of the input
makes exactly one emission, one record for each modifier in the order of
their registration and one `end_record`, whose bin values are what the bins
held at the start, zero after the registration, plus the sums of all the
contributions of the whole run. -/
theorem C20_total_run (dev : OptixCall → Globals → Globals) (g : Globals)
    (input : List RAYIN) (hreg : RegOK g) (hacc : g.accumulate ≤ 0) (hchild : g.nchild ≠ -1)
    (hdev : g.use_optix = false) (hres : g.yres ≤ 0)
    (hrange : ∀ r ∈ input, ∀ t ∈ r.traces, bin_in_range g t) :
    (∀ k, ∃ gk ws, rcontrib_loop (rcinit g) (input.take k) = .ok gk ∧
        gk.out = g.out ++ ws ∧ OnlyWarnings ws ∧ done_contrib gk = .ok gk ∧
        ∀ n b, binval gk n b =
          (binval g n b).map fun v => v + run_sum g n b (input.take k)) ∧
      ∃ gL ws g', rcontrib_loop (rcinit g) input = .ok gL ∧
        gL.out = g.out ++ ws ∧ OnlyWarnings ws ∧
        rcontrib dev g input = .ok g' ∧
        g'.out = gL.out ++ cycle_of g.modname (binsOf gL) ++ [Event.end_record] ∧
        ncycles g'.out = ncycles g.out + 1 ∧
        ∀ n b, (binsOf gL n)[b]? =
          (binval g n b).map fun v => v + run_sum g n b input := by
  obtain ⟨i1, i2, i3, i4, i5, i6, i7, i8⟩ := rcinit_frame g hres
  have hreg0 : RegOK (rcinit g) := regok_rcinit g hreg
  have hsh : share (rcinit g) = share g := share_of_tab _ g rfl rfl i1
  have hrs : ∀ n b inp, run_sum (rcinit g) n b inp = run_sum g n b inp := by
    intro n b inp
    unfold run_sum
    rw [hsh]
  have hbv : ∀ n b, binval (rcinit g) n b = binval g n b := by
    intro n b
    unfold binval
    rw [i1]
  have hloop : ∀ inp : List RAYIN, (∀ r ∈ inp, r ∈ input) →
      ∃ gk ws, rcontrib_loop (rcinit g) inp = .ok gk ∧
      gk.out = g.out ++ ws ∧ OnlyWarnings ws ∧ RegOK gk ∧ Frame gk (rcinit g) ∧
      ∀ n b, binval gk n b = (binval g n b).map fun v => v + run_sum g n b inp := by
    intro inp hsub
    obtain ⟨gk, l1, l2, l3, ⟨ws, l4, l5⟩, l6⟩ := rcontrib_loop_total inp (rcinit g) hreg0
      (by rw [i3]; exact hacc) (by rw [i6]; exact hchild) i5
      (fun r hr t ht =>
        bin_in_range_congr _ g t (fun n => by rw [i1]) (hrange r (hsub r hr) t ht))
    refine ⟨gk, ws, l1, by rw [l4, i7], l5, l2, l3, fun n b => ?_⟩
    rw [l6, hbv]
    beta_reduce
    rw [hrs]
  constructor
  · intro k
    obtain ⟨gk, ws, l1, l2, l3, _, l5, l6⟩ :=
      hloop (input.take k) (fun r hr => List.mem_of_mem_take hr)
    refine ⟨gk, ws, l1, l2, l3, ?_, l6⟩
    unfold done_contrib
    rw [if_pos (by rw [l5.2.2.2.2.1, i3]; exact hacc)]
  · obtain ⟨gL, ws, l1, l2, l3, l4, l5, l6⟩ := hloop input (fun _ hr => hr)
    obtain ⟨_, _, f3, f4, f5, f6, f7, _⟩ := l5
    obtain ⟨g', d1, _, d3, _, d5⟩ := done_contrib_emit { gL with account := 1 } l4 rfl
    have hfin : final_record gL = .ok g' := by
      unfold final_record
      rw [if_pos ⟨by rw [f4, i6]; exact hchild, Or.inl (by rw [f3, i4]; exact hacc)⟩,
        if_neg (by rw [f5, f3, i3, i4]; exact lt_irrefl _)]
      exact d1
    have hleft : g'.raysleft = 0 := by
      rw [d5]
      show gL.raysleft = 0
      rw [f6, i5]
    have hout : g'.out = gL.out ++ cycle_of g.modname (binsOf gL) ++ [Event.end_record] := by
      rw [d3]
      show gL.out ++ cycle_of gL.modname (binsOf gL) ++ [Event.end_record] = _
      rw [f7, i2]
    refine ⟨gL, ws, g', l1, l2, l3, ?_, hout, ?_, fun n b => ?_⟩
    · unfold rcontrib
      simp only []
      have hd : ¬ (rcinit g).use_optix = true := by rw [i8, hdev]; simp
      rw [if_neg hd, l1, bind_ok]
      unfold rcontrib_eoi
      rw [hfin, bind_ok, if_neg (not_not.mpr hleft)]
    · rw [hout, l2, ncycles_append, ncycles_append, ncycles_append, ncycles_warnings ws l3,
        ncycles_cycle_of]
      rfl
    · rw [binsOf_get, l6]

/-- A run that totals all rays, with the modifier "wall" and the input of a
ray that contributes `(1,0,0)`, a flush request and another such ray: the
flush request is ignored with a warning and the one record output at the end
holds `(2,0,0)`. -/
theorem C20_total_run_witness :
    ∃ g', rcontrib no_device total_state [wall_in, flush_in, wall_in] = .ok g' ∧
      g'.out = [Event.warning .dummy_rays_ignored, Event.mod_output "wall" [(2, 0, 0)],
        Event.end_record] := by
  obtain ⟨_, _, _, g', _, _, _, hrun, _⟩ := C20_total_run no_device total_state
    [wall_in, flush_in, wall_in] (by decide!) (by decide!) (by decide!) (by decide!)
    (by decide!) (by decide!)
  have hv : ((rcontrib no_device total_state [wall_in, flush_in, wall_in]).val?.map
      fun x => x.out) = some [Event.warning .dummy_rays_ignored,
        Event.mod_output "wall" [(2, 0, 0)], Event.end_record] := by
    decide!
  rw [hrun] at hv
  exact ⟨g', hrun, Option.some.inj hv⟩


/-! ### The growth of the ray cache -/

end Rcontrib

/-! ## Theorems about `rtrace` -/

namespace Rtrace

@[simp] theorem rt_bind_ok {α β : Type} (a : α) (f : α → Res β) :
    (Res.ok a).bind f = f a := rfl

theorem nrecords_append (o1 o2 : List Event) :
    nrecords (o1 ++ o2) = nrecords o1 + nrecords o2 := by
  simp [nrecords, List.filter_append]

theorem nrecords_record (fs : List OField) (r : RAY) (nl : Bool) :
    nrecords [Event.record fs r nl] = 1 := rfl

theorem nrecords_fflush : nrecords [Event.fflush] = 0 := rfl

/-- With a field to write, `printvals` writes one record and changes nothing
else. -/
theorem printvals_record (g : Globals) (r : RAY) (hout : g.ray_out ≠ []) :
    nrecords (printvals g r).1.out = nrecords g.out + 1 ∧
      (printvals g r).1.use_optix = g.use_optix ∧
      (printvals g r).1.ray_pnprocs = g.ray_pnprocs ∧
      (printvals g r).1.ray_out = g.ray_out ∧ (printvals g r).1.vcount = g.vcount ∧
      (printvals g r).2 = 1 := by
  unfold printvals
  cases h : g.ray_out with
  | nil => exact absurd h hout
  | cons f fs =>
    simp only [nrecords_append, nrecords_record, h, and_self]

/-- In a sequential run `bogusray` writes one record. -/
theorem bogusray_record (g : Globals) (hdev : g.use_optix = false) (hout : g.ray_out ≠ []) :
    nrecords (bogusray g).out = nrecords g.out + 1 ∧ (bogusray g).use_optix = g.use_optix ∧
      (bogusray g).ray_pnprocs = g.ray_pnprocs ∧ (bogusray g).ray_out = g.ray_out ∧
      (bogusray g).vcount = g.vcount := by
  have hb : bogusray g
      = (printvals { g with thisray := rayorigin g.thisray } (rayorigin g.thisray)).1 := by
    unfold bogusray
    rw [if_neg (by rw [hdev]; simp)]
  rw [hb]
  obtain ⟨h1, h2, h3, h4, h5, _⟩ :=
    printvals_record { g with thisray := rayorigin g.thisray } (rayorigin g.thisray) hout
  exact ⟨h1, h2, h3, h4, h5⟩

/-- In a sequential run `rtcompute` writes one record. -/
theorem rtcompute_record (g : Globals) (org dir : FVECT) (dmax : ℚ)
    (hdev : g.use_optix = false) (hproc : g.ray_pnprocs ≤ 1) (hout : g.ray_out ≠ []) :
    nrecords (rtcompute g org dir dmax).out = nrecords g.out + 1 ∧
      (rtcompute g org dir dmax).use_optix = g.use_optix ∧
      (rtcompute g org dir dmax).ray_pnprocs = g.ray_pnprocs ∧
      (rtcompute g org dir dmax).ray_out = g.ray_out ∧
      (rtcompute g org dir dmax).vcount = g.vcount := by
  have hp : ¬ 1 < g.ray_pnprocs := by omega
  have hd : ¬ g.use_optix = true := by rw [hdev]; simp
  have hb : rtcompute g org dir dmax
      = (printvals { g with samplendx := g.samplendx + 1
                            thisray := rayvalue (primary_ray g org dir dmax) }
          (rayvalue (primary_ray g org dir dmax))).1 := by
    unfold rtcompute
    simp only []
    rw [if_neg hd, if_neg hp]
  rw [hb]
  obtain ⟨h1, h2, h3, h4, h5, _⟩ :=
    printvals_record { g with samplendx := g.samplendx + 1
                              thisray := rayvalue (primary_ray g org dir dmax) }
      (rayvalue (primary_ray g org dir dmax)) hout
  exact ⟨h1, h2, h3, h4, h5⟩

theorem fifo_flush_if_seq (g : Globals) (hproc : g.ray_pnprocs ≤ 1) : fifo_flush_if g = g := by
  unfold fifo_flush_if
  rw [if_neg (by omega)]

/-- In a sequential run the first part of the loop body writes one record,
for a flush request as for any other ray. -/
theorem rtrace_eval_record (g : Globals) (r : RAYIN) (hdev : g.use_optix = false)
    (hproc : g.ray_pnprocs ≤ 1) (hout : g.ray_out ≠ []) :
    nrecords (rtrace_eval g r).out = nrecords g.out + 1 ∧
      (rtrace_eval g r).use_optix = g.use_optix ∧
      (rtrace_eval g r).ray_pnprocs = g.ray_pnprocs ∧
      (rtrace_eval g r).ray_out = g.ray_out ∧ (rtrace_eval g r).vcount = g.vcount := by
  have hd : ¬ g.use_optix = true := by rw [hdev]; simp
  obtain ⟨b1, b2, b3, b4, b5⟩ := bogusray_record g hdev hout
  unfold rtrace_eval
  generalize (if g.lim_dist = true then r.d else 0) = dmax
  obtain ⟨c1, c2, c3, c4, c5⟩ := rtcompute_record g r.orig r.ndir dmax hdev hproc hout
  by_cases hz : zerolen r.direc = true
  · rw [if_pos hz, if_neg hd]
    by_cases hs : g.something2flush = true
    · rw [if_pos hs, fifo_flush_if_seq g hproc]
      refine ⟨?_, b2, b3, b4, b5⟩
      show nrecords ((bogusray g).out ++ [Event.fflush]) = _
      rw [nrecords_append, nrecords_fflush, b1]
    · rw [if_neg hs]
      exact ⟨b1, b2, b3, b4, b5⟩
  · rw [if_neg hz]
    simp only []
    rw [if_neg (by rw [c2]; exact hd)]
    by_cases hn : (rtcompute g r.orig r.ndir dmax).nextflush - 1 = 0
    · rw [if_pos hn, fifo_flush_if_seq _
        (by show (rtcompute g r.orig r.ndir dmax).ray_pnprocs ≤ 1; rw [c3]; exact hproc)]
      refine ⟨?_, c2, c3, c4, c5⟩
      show nrecords ((rtcompute g r.orig r.ndir dmax).out ++ [Event.fflush]) = _
      rw [nrecords_append, nrecords_fflush, c1]
    · rw [if_neg hn]
      exact ⟨c1, c2, c3, c4, c5⟩

/-- The loop body in a sequential run with no declared row count. -/
theorem rtrace_ray_record (g : Globals) (r : RAYIN) (hdev : g.use_optix = false)
    (hproc : g.ray_pnprocs ≤ 1) (hout : g.ray_out ≠ []) (hv : g.vcount = 0) :
    ∃ g', rtrace_ray g r = .ok (g', false) ∧ nrecords g'.out = nrecords g.out + 1 ∧
      g'.use_optix = false ∧ g'.ray_pnprocs ≤ 1 ∧ g'.ray_out ≠ [] ∧ g'.vcount = 0 := by
  obtain ⟨e1, e2, e3, e4, e5⟩ := rtrace_eval_record g r hdev hproc hout
  refine ⟨rtrace_eval g r, ?_, e1, by rw [e2, hdev], by rw [e3]; exact hproc,
    by rw [e4]; exact hout, by rw [e5, hv]⟩
  unfold rtrace_ray store_ray count_row
  rw [if_neg (by rw [e2, hdev]; simp), rt_bind_ok, if_neg (by rw [e5, hv]; simp)]

theorem rtrace_loop_record (input : List RAYIN) :
    ∀ g : Globals, g.use_optix = false → g.ray_pnprocs ≤ 1 → g.ray_out ≠ [] → g.vcount = 0 →
      ∃ g', rtrace_loop g input = .ok g' ∧ nrecords g'.out = nrecords g.out + input.length ∧
        g'.use_optix = false ∧ g'.ray_pnprocs ≤ 1 ∧ g'.vcount = 0 := by
  induction input with
  | nil => exact fun g hdev hproc _ hv => ⟨g, rfl, rfl, hdev, hproc, hv⟩
  | cons r rs ih =>
    intro g hdev hproc hout hv
    obtain ⟨g1, s1, s2, s3, s4, s5, s6⟩ := rtrace_ray_record g r hdev hproc hout hv
    obtain ⟨g', k1, k2, k3, k4, k5⟩ := ih g1 s3 s4 s5 s6
    refine ⟨g', ?_, ?_, k3, k4, k5⟩
    · simp only [rtrace_loop, s1, rt_bind_ok]
      exact k1
    · rw [k2, s2, List.length_cons]
      omega

theorem length_split (input : List RAYIN) :
    input.length = nonflush input + nflush input := by
  induction input with
  | nil => rfl
  | cons r rs ih =>
    unfold nonflush nflush at ih ⊢
    by_cases h : zerolen r.direc = true
    · simp only [List.filter_cons, h, Bool.not_true, Bool.false_eq_true, if_false, if_true,
        List.length_cons]
      omega
    · have h' : zerolen r.direc = false := by simpa using h
      simp only [List.filter_cons, h', Bool.not_false, if_true, Bool.false_eq_true, if_false,
        List.length_cons]
      omega

/-- Claim C4, the claim as worded fails: in a sequential run with a field list
that is not empty and no declared resolution, an input that holds one flush
request and nothing else, so that nothing is pending when it arrives, makes
`printvals` write one record, while the number of rays that are no flush
request is 0. -/
theorem C4_counterexample :
    ((rtrace (fun _ r => r) seq_state [flush_in]).val?.map fun g => nrecords g.out) = some 1 ∧
      nonflush [flush_in] = 0 := by
  decide!

/-- Claim C4 (record count and flush in `rtrace`), amended. In a sequential run
(one process, no device, no declared resolution, a field list that is not
empty), for every ray stream `rtrace` ends without an error and the number of
records `printvals` writes is the number of rays of the stream, flush
requests included, that is the number of rays that are no flush request plus
the number of flush requests: every flush request, with or without something
pending, writes one empty record through `bogusray`. -/
theorem C4_record_count (dev : Nat → RAY → RAY) (g : Globals) (input : List RAYIN)
    (hdev : g.use_optix = false) (hproc : g.ray_pnprocs ≤ 1) (hh : g.hresolu = 0)
    (hv : g.vresolu = 0) (hout : g.ray_out ≠ []) :
    ∃ g', rtrace dev g input = .ok g' ∧
      nrecords g'.out = nrecords g.out + input.length ∧
      nrecords g'.out = nrecords g.out + nonflush input + nflush input := by
  have hinit : (rtrace_init g).use_optix = false ∧ (rtrace_init g).ray_pnprocs ≤ 1 ∧
      (rtrace_init g).ray_out ≠ [] ∧ (rtrace_init g).vcount = 0 ∧
      (rtrace_init g).out = g.out := by
    unfold rtrace_init
    simp [hdev, hproc, hh, hv, hout]
  obtain ⟨i1, i2, i3, i4, i5⟩ := hinit
  obtain ⟨g1, k1, k2, k3, k4, k5⟩ := rtrace_loop_record input (rtrace_init g) i1 i2 i3 i4
  have hle : input.length = nonflush input + nflush input := length_split input
  refine ⟨{ g1 with out := g1.out ++ [Event.fflush] }, ?_, ?_, ?_⟩
  · unfold rtrace
    rw [k1, rt_bind_ok]
    have hd : ¬ g1.use_optix = true := by rw [k3]; simp
    have hp : ¬ 1 < g1.ray_pnprocs := by omega
    have hc : ¬ ({ g1 with out := g1.out ++ [Event.fflush] } : Globals).vcount ≠ 0 := by
      simp [k5]
    unfold rtrace_end
    simp only []
    rw [if_neg hd, if_neg hp, if_neg hc]
  · show nrecords (g1.out ++ [Event.fflush]) = _
    rw [nrecords_append, nrecords_fflush, k2, i5]
    rfl
  · show nrecords (g1.out ++ [Event.fflush]) = _
    rw [nrecords_append, nrecords_fflush, k2, i5]
    omega

/-- A ray, a flush request and another ray in a sequential run: three records. -/
theorem C4_record_count_witness :
    ∃ g', rtrace (fun _ r => r) seq_state [ray_in, flush_in, ray_in] = .ok g' ∧
      nrecords g'.out = 3 := by
  obtain ⟨g', h1, h2, _⟩ := C4_record_count (fun _ r => r) seq_state [ray_in, flush_in, ray_in]
    (by decide!) (by decide!) (by decide!) (by decide!) (by decide!)
  exact ⟨g', h1, h2.trans (by decide!)⟩


/-! ### The device path of `rtrace` -/

/-- The ray `rtcompute` sets up does not depend on what `thisray` held. -/
theorem primary_ray_congr (g g' : Globals) (org dir : FVECT) (dmax : ℚ)
    (h1 : g'.imm_irrad = g.imm_irrad) (h2 : g'.castonly = g.castonly) :
    primary_ray g' org dir dmax = primary_ray g org dir dmax := by
  unfold primary_ray rayorigin
  rw [h1, h2]

/-- The entries stored depend on the state only through the flags the ray set
up depends on. -/
theorem cache_entries_congr (g g' : Globals) (h1 : g'.imm_irrad = g.imm_irrad)
    (h2 : g'.castonly = g.castonly) (h3 : g'.lim_dist = g.lim_dist) :
    ∀ (input : List RAYIN) (tr : RAY), cache_entries g' tr input = cache_entries g tr input := by
  intro input
  induction input with
  | nil => intro tr; rfl
  | cons r rs ih =>
    intro tr
    unfold cache_entries
    simp only []
    rw [primary_ray_congr g g' _ _ _ h1 h2, h3, ih]

/-- On the device `rtcompute` sets up the ray and returns. -/
theorem rtcompute_optix (g : Globals) (org dir : FVECT) (dmax : ℚ)
    (h : g.use_optix = true) :
    rtcompute g org dir dmax = { g with thisray := primary_ray g org dir dmax } := by
  unfold rtcompute
  simp only []
  rw [if_pos h]

/-- On the device the first part of the loop body changes `thisray` only, and
a flush request not even that. -/
theorem rtrace_eval_optix (g : Globals) (r : RAYIN) (h : g.use_optix = true) :
    rtrace_eval g r = { g with thisray := optix_stored g r } := by
  unfold rtrace_eval optix_stored
  by_cases hz : zerolen r.direc = true
  · rw [if_pos hz, if_pos h, if_pos hz]
    unfold bogusray
    rw [if_pos h]
  · rw [if_neg hz, if_neg hz]
    simp only []
    rw [rtcompute_optix g _ _ _ h]
    rw [if_pos h]

/-- On the device the store doubles a full cache and appends `thisray`. -/
theorem store_ray_optix (g : Globals) (h : g.use_optix = true) (hc : 0 < g.total_rays)
    (hl : g.ray_cache.length ≤ g.total_rays) :
    store_ray g = .ok { g with
      total_rays := if g.ray_cache.length = g.total_rays then g.total_rays * 2
                    else g.total_rays
      ray_cache := g.ray_cache ++ [g.thisray] } := by
  unfold store_ray
  rw [if_pos h]
  by_cases hf : g.ray_cache.length = g.total_rays
  · simp only [hf, if_true]
    rw [if_neg (by rw [← hf]; omega)]
  · simp only [hf, if_false]
    rw [if_neg (by omega)]


/-- Nothing is read from an empty input. -/
theorem rows_read_nil (v : Nat) : rows_read v [] = [] := by
  unfold rows_read
  by_cases h : v = 0
  · rw [if_pos h]
  · rw [if_neg h]; simp

/-- With no declared rows the loop goes on. -/
theorem count_row_zero (g : Globals) (h : g.vcount = 0) : count_row g = (g, false) := by
  unfold count_row
  rw [if_neg (by rw [h]; simp)]

/-- The last declared row ends the loop. -/
theorem count_row_last (g : Globals) (h : g.vcount = 1) :
    count_row g = ({ g with vcount := 0 }, true) := by
  unfold count_row
  rw [if_pos (by rw [h]; simp)]
  simp [h]

/-- Before the last declared row the loop goes on. -/
theorem count_row_more (g : Globals) (h : 2 ≤ g.vcount) :
    count_row g = ({ g with vcount := g.vcount - 1 }, false) := by
  unfold count_row
  rw [if_pos (by omega)]
  have : ¬ g.vcount - 1 = 0 := by omega
  simp [this]

/-- On the device the loop body stores one entry for the record read. -/
theorem rtrace_ray_optix (g : Globals) (r : RAYIN) (h : g.use_optix = true)
    (hc : 0 < g.total_rays) (hl : g.ray_cache.length ≤ g.total_rays) :
    rtrace_ray g r = .ok (count_row (optix_step g r)) := by
  unfold rtrace_ray
  rw [rtrace_eval_optix g r h]
  have hs := store_ray_optix { g with thisray := optix_stored g r } h hc hl
  rw [hs]
  rfl

/-- The state after a record is stored still holds its entries. -/
theorem optix_step_inv (g : Globals) (r : RAYIN) (h : g.use_optix = true)
    (hc : 0 < g.total_rays) (hl : g.ray_cache.length ≤ g.total_rays) :
    (optix_step g r).use_optix = true ∧ 0 < (optix_step g r).total_rays ∧
      (optix_step g r).ray_cache.length ≤ (optix_step g r).total_rays := by
  refine ⟨h, ?_, ?_⟩
  · show 0 < (if g.ray_cache.length = g.total_rays then g.total_rays * 2 else g.total_rays)
    split <;> omega
  · show (g.ray_cache ++ [optix_stored g r]).length ≤
      (if g.ray_cache.length = g.total_rays then g.total_rays * 2 else g.total_rays)
    rw [List.length_append, List.length_singleton]
    split <;> omega

/-- On the device the loop of `rtrace` stores one entry for every record it
reads, a flush request included, and writes nothing: the state it ends in. -/
theorem rtrace_loop_optix : ∀ (input : List RAYIN) (g : Globals), g.use_optix = true →
    0 < g.total_rays → g.ray_cache.length ≤ g.total_rays →
    rtrace_loop g input = .ok { g with
      thisray := (cache_entries g g.thisray (rows_read g.vcount input)).getLastD g.thisray
      vcount := g.vcount - input.length
      total_rays := Rcontrib.cap_after g.total_rays g.ray_cache.length
        (rows_read g.vcount input).length
      ray_cache := g.ray_cache ++ cache_entries g g.thisray (rows_read g.vcount input) } := by
  intro input
  induction input with
  | nil =>
    intro g _ _ _
    unfold rtrace_loop
    rw [rows_read_nil]
    simp [cache_entries, Rcontrib.cap_after]
  | cons r rs ih =>
    intro g h hc hl
    unfold rtrace_loop
    rw [rtrace_ray_optix g r h hc hl, rt_bind_ok]
    obtain ⟨h3, hc3, hl3⟩ := optix_step_inv g r h hc hl
    by_cases hv : g.vcount = 0
    · have hv3 : (optix_step g r).vcount = 0 := hv
      rw [count_row_zero (optix_step g r) hv3]
      simp only [Bool.false_eq_true, if_false]
      rw [ih (optix_step g r) h3 hc3 hl3]
      have e1 : rows_read g.vcount (r :: rs) = r :: rs := by
        unfold rows_read; rw [if_pos hv]
      have e2 : rows_read (optix_step g r).vcount rs = rs := by
        unfold rows_read; rw [if_pos hv3]
      have e3 := cache_entries_congr g (optix_step g r) rfl rfl rfl
      have e4 : cache_entries g g.thisray (r :: rs) =
          optix_stored g r :: cache_entries g (optix_stored g r) rs := rfl
      rw [e1, e2, e3, e4]
      simp only [optix_step, List.getLastD_cons, List.length_cons, List.append_assoc,
        List.singleton_append, List.length_append, List.length_singleton, Rcontrib.cap_after,
        hv, Nat.zero_sub]
      rfl
    · by_cases hv1 : g.vcount = 1
      · have hv3 : (optix_step g r).vcount = 1 := hv1
        rw [count_row_last (optix_step g r) hv3]
        simp only [if_true]
        have e1 : rows_read g.vcount (r :: rs) = [r] := by
          unfold rows_read; rw [if_neg hv, hv1]; rfl
        have e4 : cache_entries g g.thisray [r] = [optix_stored g r] := rfl
        rw [e1, e4]
        simp only [optix_step, List.getLastD_cons, List.length_cons, List.length_nil,
          Rcontrib.cap_after, hv1, List.getLastD_nil]
        have : 1 - (rs.length + 1) = 0 := by omega
        rw [this]
      · have hv2 : 2 ≤ (optix_step g r).vcount := by
          show 2 ≤ g.vcount
          omega
        rw [count_row_more (optix_step g r) hv2]
        simp only [Bool.false_eq_true, if_false]
        have hv4 : ({ optix_step g r with vcount := (optix_step g r).vcount - 1 } : Globals).vcount
            = g.vcount - 1 := rfl
        rw [ih { optix_step g r with vcount := (optix_step g r).vcount - 1 } h3 hc3 hl3]
        have e1 : rows_read g.vcount (r :: rs) = r :: rows_read (g.vcount - 1) rs := by
          unfold rows_read
          rw [if_neg hv, if_neg (by omega)]
          obtain ⟨k, hk⟩ : ∃ k, g.vcount = k + 1 := ⟨g.vcount - 1, by omega⟩
          rw [hk]
          rfl
        have e3 := cache_entries_congr g
          { optix_step g r with vcount := (optix_step g r).vcount - 1 } rfl rfl rfl
        have e4 : ∀ l, cache_entries g g.thisray (r :: l) =
            optix_stored g r :: cache_entries g (optix_stored g r) l := fun _ => rfl
        rw [hv4, e1, e3, e4]
        simp only [optix_step, List.getLastD_cons, List.length_cons, List.append_assoc,
          List.singleton_append, List.length_append, List.length_singleton, Rcontrib.cap_after]
        have : g.vcount - 1 - rs.length = g.vcount - (rs.length + 1) := by omega
        rw [this]
        rfl


/-- The loop writing the device results writes one record for each entry, in
the order of the array. -/
theorem print_cache_eq : ∀ (rs : List RAY) (g : Globals),
    print_cache g rs = { g with out := g.out ++ records_for g rs } := by
  intro rs
  induction rs with
  | nil =>
    intro g
    unfold print_cache
    have e : records_for g [] = [] := by
      unfold records_for
      cases g.ray_out <;> rfl
    rw [e, List.append_nil]
  | cons r rs ih =>
    intro g
    unfold print_cache
    rw [ih]
    unfold printvals records_for
    cases hro : g.ray_out with
    | nil => simp [hro]
    | cons f fs => simp [hro]

/-- The first part of the loop body leaves the row count and the ray cache as
they are, in every mode. -/
theorem rtrace_eval_frame (g : Globals) (r : RAYIN) :
    (rtrace_eval g r).use_optix = g.use_optix ∧ (rtrace_eval g r).vcount = g.vcount ∧
      (rtrace_eval g r).total_rays = g.total_rays ∧
      (rtrace_eval g r).ray_cache = g.ray_cache := by
  unfold rtrace_eval bogusray rtcompute fifo_flush_if printvals
  cases hro : g.ray_out <;> simp only [] <;> split_ifs <;> simp [hro] <;> split_ifs <;> simp

/-- The loop body returns in every mode, and keeps the invariant of the ray
cache. -/
theorem rtrace_ray_safe (g : Globals) (r : RAYIN) (hinv : CacheOK g) :
    ∃ g3, rtrace_ray g r = .ok (count_row g3) ∧ g3.vcount = g.vcount ∧ CacheOK g3 := by
  by_cases h : g.use_optix = true
  · obtain ⟨hc, hl⟩ := hinv h
    refine ⟨optix_step g r, rtrace_ray_optix g r h hc hl, rfl, ?_⟩
    intro _
    exact (optix_step_inv g r h hc hl).2
  · obtain ⟨f1, f2, f3, f4⟩ := rtrace_eval_frame g r
    have h' : ¬ (rtrace_eval g r).use_optix = true := by rw [f1]; exact h
    refine ⟨rtrace_eval g r, ?_, f2, ?_⟩
    · unfold rtrace_ray store_ray
      rw [if_neg h']
      rfl
    · intro hh
      exact absurd hh h'


/-! ### The declared row count -/

/-- The loop of `rtrace` ends in every mode; it counts a declared row for
every record it reads and leaves unread what follows the last declared
row. -/
theorem rtrace_loop_rows : ∀ (input : List RAYIN) (g : Globals), CacheOK g →
    ∃ g', rtrace_loop g input = .ok g' ∧ g'.vcount = g.vcount - input.length ∧
      rtrace_rest g input = .ok (if g.vcount = 0 then [] else input.drop g.vcount) := by
  intro input
  induction input with
  | nil =>
    intro g _
    refine ⟨g, rfl, rfl, ?_⟩
    unfold rtrace_rest
    split <;> simp
  | cons r rs ih =>
    intro g hinv
    obtain ⟨g3, e, hv3, inv3⟩ := rtrace_ray_safe g r hinv
    unfold rtrace_loop rtrace_rest
    rw [e, rt_bind_ok, rt_bind_ok]
    by_cases hv : g.vcount = 0
    · rw [count_row_zero g3 (hv3.trans hv)]
      simp only [Bool.false_eq_true, if_false]
      obtain ⟨g', l1, l2, l3⟩ := ih g3 inv3
      refine ⟨g', l1, ?_, ?_⟩
      · rw [l2, hv3, hv]; simp
      · rw [l3, if_pos (hv3.trans hv), if_pos hv]
    · by_cases hv1 : g.vcount = 1
      · rw [count_row_last g3 (hv3.trans hv1)]
        simp only [if_true]
        refine ⟨{ g3 with vcount := 0 }, rfl, ?_, ?_⟩
        · show 0 = g.vcount - (rs.length + 1)
          omega
        · rw [if_neg hv, hv1]
          rfl
      · have hv2 : 2 ≤ g3.vcount := by omega
        rw [count_row_more g3 hv2]
        simp only [Bool.false_eq_true, if_false]
        have inv4 : CacheOK { g3 with vcount := g3.vcount - 1 } := fun hh => inv3 hh
        obtain ⟨g', l1, l2, l3⟩ := ih { g3 with vcount := g3.vcount - 1 } inv4
        refine ⟨g', l1, ?_, ?_⟩
        · rw [l2]
          show g3.vcount - 1 - rs.length = g.vcount - (rs.length + 1)
          omega
        · rw [l3, if_neg hv]
          have e1 : ({ g3 with vcount := g3.vcount - 1 } : Globals).vcount = g.vcount - 1 := by
            show g3.vcount - 1 = g.vcount - 1
            rw [hv3]
          rw [e1, if_neg (by omega)]
          obtain ⟨k, hk⟩ : ∃ k, g.vcount = k + 1 := ⟨g.vcount - 1, by omega⟩
          rw [hk]
          rfl

/-- The counters set before the loop satisfy the invariant of the ray
cache. -/
theorem cacheok_init (g : Globals) : CacheOK (rtrace_init g) := by
  intro h
  have h' : g.use_optix = true := h
  have key : ∀ v : Nat, 0 < (if v ≠ 0 then v else EXPECTED_RAY_COUNT) := by
    intro v
    by_cases hv : v = 0
    · rw [if_neg (not_not.mpr hv)]
      decide
    · rw [if_pos hv]
      omega
  unfold rtrace_init
  simp only [h', if_true]
  exact ⟨key _, Nat.zero_le _⟩

/-- The end of `rtrace` raises "unexpected EOF on input" when declared rows
are left, and nothing else. -/
theorem rtrace_end_eof (dev : Nat → RAY → RAY) (g : Globals) :
    (g.vcount ≠ 0 → ∃ g', rtrace_end dev g = .fatal .unexpected_EOF g') ∧
      (g.vcount = 0 → ∃ g', rtrace_end dev g = .ok g') := by
  unfold rtrace_end
  simp only []
  by_cases h : g.use_optix = true
  · simp only [h, if_true]
    rw [print_cache_eq]
    constructor
    · intro hv
      exact ⟨_, if_pos hv⟩
    · intro hv
      exact ⟨_, if_neg (not_not.mpr hv)⟩
  · simp only [h, if_false]
    by_cases hp : 1 < g.ray_pnprocs
    · simp only [hp, if_true]
      constructor
      · intro hv
        refine ⟨_, if_pos ?_⟩
        unfold fifo_flush_if
        rw [if_pos hp]
        exact hv
      · intro hv
        refine ⟨_, if_neg ?_⟩
        unfold fifo_flush_if
        rw [if_pos hp]
        exact not_not.mpr hv
    · simp only [hp, if_false]
      constructor
      · intro hv
        exact ⟨_, if_pos hv⟩
      · intro hv
        exact ⟨_, if_neg (not_not.mpr hv)⟩


/-- The records read are what two calls of `getvec` after each other yield,
as long as both return 0. -/
theorem read_rays_getvec (fmt : Char) (hfmt : fmt = 'a' ∨ fmt = 'f' ∨ fmt = 'd')
    (fp : List Item) :
    read_rays fp =
      match getvec fmt fp with
      | .vec orig fp1 =>
        match getvec fmt fp1 with
        | .vec direc fp2 => (orig, direc) :: read_rays fp2
        | _ => []
      | _ => [] := by
  unfold getvec
  simp only [hfmt, if_true]
  rcases fp with _ | ⟨a, _ | ⟨b, _ | ⟨c, fp1⟩⟩⟩
  · simp [read_rays]
  · cases a <;> simp [read_rays]
  · cases a <;> cases b <;> simp [read_rays]
  · cases a <;> cases b <;> cases c <;> try simp [read_rays]
    rcases fp1 with _ | ⟨d, _ | ⟨e, _ | ⟨f, fp2⟩⟩⟩
    · simp [read_rays]
    · cases d <;> simp [read_rays]
    · cases d <;> cases e <;> simp [read_rays]
    · cases d <;> cases e <;> cases f <;> simp [read_rays]

/-- Complete records are read as they are. -/
theorem read_rays_items (ps : List (FVECT × FVECT)) : read_rays (items_of ps) = ps := by
  induction ps with
  | nil => rfl
  | cons p ps ih =>
    unfold items_of read_rays
    rw [ih]

/-- A record cut short after 2 of the 3 numbers of its direction yields no
record: what is read is the complete records before it. -/
theorem read_rays_cut (ps : List (FVECT × FVECT)) (x1 x2 x3 y1 y2 : ℚ) :
    read_rays (items_of ps ++ [.num x1, .num x2, .num x3, .num y1, .num y2]) = ps := by
  induction ps with
  | nil => rfl
  | cons p ps ih =>
    unfold items_of
    simp only [List.cons_append]
    unfold read_rays
    rw [ih]

/-- Claim C13 (unexpected end of input in `rtrace`). With `vcount` the declared
row count, `hresolu*vresolu` as an `unsigned long` when `hresolu > 1` and
`vresolu` else, in every mode and for every input stream in one of the three
formats: `rtrace` ends with the fatal error "unexpected EOF on input" if and
only if `vcount > 0` and the stream yields fewer than `vcount` complete
records; when it yields at least `vcount`, the run ends without an error and
exactly the first `vcount` records are read, the others are left; when
`vcount` is 0 the run ends without an error. A record cut short, an ascii
stream ending after 2 of the 3 numbers of a direction, makes `getvec` return
-1 like the end of the input, and the run is the run on the complete records
before it: no record is output for it. -/
theorem C13_unexpected_eof (dev : Nat → RAY → RAY) (norm : FVECT → ℚ × FVECT) (fmt : Char)
    (g : Globals) (fp : List Item) (hfmt : fmt = 'a' ∨ fmt = 'f' ∨ fmt = 'd') :
    (rtrace_init g).vcount =
        (if 1 < g.hresolu then (g.hresolu * g.vresolu % 2 ^ 64).toNat
         else (g.vresolu % 2 ^ 64).toNat) ∧
      ((∃ g', rtrace_stream dev norm fmt g fp = .fatal .unexpected_EOF g') ↔
        (0 < (rtrace_init g).vcount ∧ (read_rays fp).length < (rtrace_init g).vcount)) ∧
      (0 < (rtrace_init g).vcount → (rtrace_init g).vcount ≤ (read_rays fp).length →
        (∃ g', rtrace_stream dev norm fmt g fp = .ok g') ∧
          rtrace_rest (rtrace_init g) (rays_of norm (read_rays fp)) =
            .ok ((rays_of norm (read_rays fp)).drop (rtrace_init g).vcount)) ∧
      ((rtrace_init g).vcount = 0 → ∃ g', rtrace_stream dev norm fmt g fp = .ok g') ∧
      (∀ (ps : List (FVECT × FVECT)) (x1 x2 x3 y1 y2 : ℚ),
        getvec 'a' [.num y1, .num y2] = .fail ∧
          rtrace_stream dev norm 'a' g
              (items_of ps ++ [.num x1, .num x2, .num x3, .num y1, .num y2]) =
            rtrace_stream dev norm 'a' g (items_of ps)) := by
  have hlen : (rays_of norm (read_rays fp)).length = (read_rays fp).length := by
    unfold rays_of
    rw [List.length_map]
  obtain ⟨g1, l1, l2, l3⟩ :=
    rtrace_loop_rows (rays_of norm (read_rays fp)) (rtrace_init g) (cacheok_init g)
  rw [hlen] at l2
  obtain ⟨e1, e2⟩ := rtrace_end_eof dev g1
  have hrun : rtrace_stream dev norm fmt g fp = rtrace_end dev g1 := by
    unfold rtrace_stream rtrace
    rw [if_pos hfmt, l1, rt_bind_ok]
  refine ⟨rfl, ?_, ?_, ?_, ?_⟩
  · rw [hrun]
    constructor
    · rintro ⟨g', hg'⟩
      by_cases hv : g1.vcount = 0
      · obtain ⟨g'', hg''⟩ := e2 hv
        rw [hg''] at hg'
        cases hg'
      · omega
    · rintro ⟨_, h2⟩
      exact e1 (by omega)
  · intro h1 h2
    constructor
    · rw [hrun]
      exact e2 (by omega)
    · rw [l3, if_neg (by omega)]
  · intro h1
    rw [hrun]
    exact e2 (by omega)
  · intro ps x1 x2 x3 y1 y2
    refine ⟨by simp [getvec], ?_⟩
    unfold rtrace_stream
    rw [read_rays_cut, read_rays_items]

/-- Two rows are declared and the ascii stream holds one record and a second
cut short after 5 numbers: the run ends with "unexpected EOF on input"; with
two complete records and the start of a third it ends without an error. -/
theorem C13_unexpected_eof_witness :
    (∃ g', rtrace_stream (fun _ r => r) norm_z 'a' rows_state
        [.num 0, .num 0, .num 0, .num 0, .num 0, .num 1,
         .num 0, .num 0, .num 0, .num 0, .num 0] = .fatal .unexpected_EOF g') ∧
      (∃ g', rtrace_stream (fun _ r => r) norm_z 'a' rows_state
        (items_of [((0, 0, 0), (0, 0, 1)), ((0, 0, 0), (0, 0, 1))] ++ [.num 0, .num 0]) =
          .ok g') := by
  constructor
  · exact (C13_unexpected_eof (fun _ r => r) norm_z 'a' rows_state
      [.num 0, .num 0, .num 0, .num 0, .num 0, .num 1,
       .num 0, .num 0, .num 0, .num 0, .num 0] (Or.inl rfl)).2.1.mpr (by decide!)
  · exact ((C13_unexpected_eof (fun _ r => r) norm_z 'a' rows_state
      (items_of [((0, 0, 0), (0, 0, 1)), ((0, 0, 0), (0, 0, 1))] ++ [.num 0, .num 0])
      (Or.inl rfl)).2.2.1 (by decide!) (by decide!)).1


/-- The records written depend on the state only through the field list and
the output format. -/
theorem records_for_congr (g g' : Globals) (rs : List RAY) (h1 : g'.ray_out = g.ray_out)
    (h2 : g'.outform = g.outform) : records_for g' rs = records_for g rs := by
  unfold records_for
  rw [h1, h2]

/-- The end of `rtrace` on the device: one call of the device with the array
stored, then one record for every entry in the order of the array, then the
check of the declared rows. -/
theorem rtrace_end_optix (dev : Nat → RAY → RAY) (g : Globals) (h : g.use_optix = true) :
    ∃ gE, gE.out = g.out ++
          [Event.computeOptix (if g.hresolu ≠ 0 then g.hresolu.toNat else 1)
            (if g.vresolu ≠ 0 then g.vresolu.toNat else g.ray_cache.length)
            g.imm_irrad g.ray_cache] ++
          records_for g (device_results dev g.ray_cache) ++ [Event.fflush] ∧
      rtrace_end dev g =
        (if g.vcount ≠ 0 then .fatal .unexpected_EOF gE else .ok gE) := by
  unfold rtrace_end
  simp only []
  rw [if_pos h, print_cache_eq]
  exact ⟨_, rfl, rfl⟩

/-- On the device the loop of `rtrace` ends in a state that differs from the
one it starts in only in `thisray`, the declared rows left and the ray
cache. -/
theorem rtrace_loop_optix_facts (input : List RAYIN) (g : Globals) (h : g.use_optix = true)
    (hc : 0 < g.total_rays) (hl : g.ray_cache.length ≤ g.total_rays) :
    ∃ gL, rtrace_loop g input = .ok gL ∧ gL.use_optix = true ∧ gL.out = g.out ∧
      gL.ray_cache = g.ray_cache ++ cache_entries g g.thisray (rows_read g.vcount input) ∧
      gL.vcount = g.vcount - input.length ∧
      gL.total_rays = Rcontrib.cap_after g.total_rays g.ray_cache.length
        (rows_read g.vcount input).length ∧
      gL.hresolu = g.hresolu ∧ gL.vresolu = g.vresolu ∧ gL.imm_irrad = g.imm_irrad ∧
      gL.ray_out = g.ray_out ∧ gL.outform = g.outform :=
  ⟨_, rtrace_loop_optix input g h hc hl, h, rfl, rfl, rfl, rfl, rfl, rfl, rfl, rfl, rfl⟩

/-- A run of `rtrace` on the device: the loop writes nothing, the device is
called once, with one entry for every record read, then one record is written
for every entry of the array, in the order of the array; the run ends with
"unexpected EOF on input" when declared rows are left. -/
theorem rtrace_optix_run (dev : Nat → RAY → RAY) (g : Globals) (input : List RAYIN)
    (h : g.use_optix = true) :
    ∃ gE, gE.out = g.out ++
          [Event.computeOptix (if g.hresolu ≠ 0 then g.hresolu.toNat else 1)
            (if g.vresolu ≠ 0 then g.vresolu.toNat
             else (cache_entries g g.thisray (rows_read (rtrace_init g).vcount input)).length)
            g.imm_irrad (cache_entries g g.thisray (rows_read (rtrace_init g).vcount input))] ++
          records_for g (device_results dev
            (cache_entries g g.thisray (rows_read (rtrace_init g).vcount input))) ++
          [Event.fflush] ∧
      rtrace dev g input =
        (if (rtrace_init g).vcount - input.length ≠ 0 then .fatal .unexpected_EOF gE
         else .ok gE) := by
  obtain ⟨hc, hl⟩ := cacheok_init g h
  have e3 := cache_entries_congr g (rtrace_init g) rfl rfl rfl
  obtain ⟨gL, k1, k2, k3, k4, k5, _, k7, k8, k9, k10, k11⟩ :=
    rtrace_loop_optix_facts input (rtrace_init g) h hc hl
  rw [e3] at k4
  have k4' : gL.ray_cache = cache_entries g g.thisray (rows_read (rtrace_init g).vcount input) :=
    k4
  obtain ⟨gE, o1, o2⟩ := rtrace_end_optix dev gL k2
  refine ⟨gE, ?_, ?_⟩
  · rw [o1, records_for_congr (rtrace_init g) gL _ k10 k11, k3, k4', k7, k8, k9]
    rfl
  · unfold rtrace
    rw [k1, rt_bind_ok, o2, k5]


/-! ### The claims about the device path -/

/-- With no flush request among the records every entry stored is the ray
`rtcompute` sets up for its record. -/
theorem cache_entries_noflush (g : Globals) : ∀ (input : List RAYIN) (tr : RAY),
    (∀ r ∈ input, zerolen r.direc = false) →
    cache_entries g tr input =
      input.map fun r => primary_ray g r.orig r.ndir (if g.lim_dist = true then r.d else 0) := by
  intro input
  induction input with
  | nil => intro _ _; rfl
  | cons r rs ih =>
    intro tr hnf
    unfold cache_entries
    simp only []
    rw [if_neg (by rw [hnf r (List.mem_cons_self _ _)]; simp)]
    rw [ih _ (fun x hx => hnf x (List.mem_cons_of_mem _ hx))]
    rfl

/-- One entry is stored for every record, flush requests included. -/
theorem cache_entries_length (g : Globals) : ∀ (input : List RAYIN) (tr : RAY),
    (cache_entries g tr input).length = input.length := by
  intro input
  induction input with
  | nil => intro _; rfl
  | cons r rs ih =>
    intro tr
    unfold cache_entries
    simp only [List.length_cons]
    rw [ih]

/-- With no declared resolution no rows are declared. -/
theorem rtrace_init_unknown (g : Globals) (hh : g.hresolu = 0) (hv : g.vresolu = 0) :
    (rtrace_init g).vcount = 0 := by
  unfold rtrace_init
  simp [hh, hv]

/-- Claim C11, the claim as worded fails: in the device path with no declared
resolution the capacity of the ray cache is 32 before the first of 10 rays and
after each of them, in `rtrace` and in `rcontrib`: it is never doubled before
the device is called. -/
theorem C11_counterexample :
    (∀ k ∈ List.range 11,
        ((rtrace_loop (rtrace_init optix_state) (List.replicate k ray_in)).val?.map
          fun g => (g.ray_cache.length, g.total_rays)) = some (k, 32)) ∧
      (∀ k ∈ List.range 11,
        ((Rcontrib.cache_loop
            { total_rays := if (Rcontrib.rcinit Rcontrib.optix_wall).raysleft ≠ 0
                            then (Rcontrib.rcinit Rcontrib.optix_wall).raysleft
                            else Rcontrib.EXPECTED_RAY_COUNT
              rays := [] }
            (List.replicate k Rcontrib.wall_in)).val?.map
          fun c => (c.rays.length, c.total_rays)) = some (k, 32)) := by
  decide!


/-- Claim C11 (sizing of the ray cache), amended. In the device path with no
declared resolution the capacity of the ray cache starts at the fixed default
32, in `rtrace` and in `rcontrib`. After every number `k` of records read the
cache holds `k` entries; as long as these are at most 32, as with an input of
10 rays, the capacity is still 32, never doubled, up to the call of the
device; it has been doubled at least once exactly when more than 32 entries
have been stored. -/
theorem C11_cache_capacity (g : Globals) (input : List RAYIN) (gc : Rcontrib.Globals)
    (cinput : List Rcontrib.RAYIN) (hdev : g.use_optix = true) (hh : g.hresolu = 0)
    (hv : g.vresolu = 0) (hcy : gc.yres ≤ 0) :
    ((rtrace_init g).total_rays = 32 ∧
        ∀ k, ∃ gk, rtrace_loop (rtrace_init g) (input.take k) = .ok gk ∧
          gk.ray_cache.length = (input.take k).length ∧
          ((input.take k).length ≤ 32 → gk.total_rays = 32) ∧
          (32 < gk.total_rays ↔ 32 < (input.take k).length)) ∧
      ((if (Rcontrib.rcinit gc).raysleft ≠ 0 then (Rcontrib.rcinit gc).raysleft
          else Rcontrib.EXPECTED_RAY_COUNT) = 32 ∧
        ∀ k, ∃ ck, Rcontrib.cache_loop { total_rays := 32, rays := [] } (cinput.take k) = .ok ck ∧
          ck.rays.length = (cinput.take k).length ∧
          ((cinput.take k).length ≤ 32 → ck.total_rays = 32) ∧
          (32 < ck.total_rays ↔ 32 < (cinput.take k).length)) := by
  have hv0 : (rtrace_init g).vcount = 0 := rtrace_init_unknown g hh hv
  have ht : (rtrace_init g).total_rays = 32 := by
    unfold rtrace_init
    simp [hdev, hh, hv, EXPECTED_RAY_COUNT]
  have hcap : ∀ n : Nat, (n ≤ 32 → Rcontrib.cap_after 32 0 n = 32) ∧
      (32 < Rcontrib.cap_after 32 0 n ↔ 32 < n) := by
    intro n
    have h1 : n ≤ 32 → Rcontrib.cap_after 32 0 n = 32 := fun hn =>
      Rcontrib.cap_after_fits n 32 0 (by omega)
    refine ⟨h1, ?_, ?_⟩
    · intro hlt
      by_contra hn
      rw [h1 (by omega)] at hlt
      omega
    · intro hn
      have := (Rcontrib.cap_after_holds n 32 0 (by omega) (by omega)).2
      omega
  refine ⟨⟨ht, ?_⟩, ?_, ?_⟩
  · intro k
    obtain ⟨hc, hl⟩ := cacheok_init g hdev
    obtain ⟨gk, k1, _, _, k4, _, k6, _⟩ :=
      rtrace_loop_optix_facts (input.take k) (rtrace_init g) hdev hc hl
    have hr : rows_read (rtrace_init g).vcount (input.take k) = input.take k := by
      unfold rows_read
      rw [if_pos hv0]
    have hc0 : (rtrace_init g).ray_cache = [] := rfl
    rw [hr, hc0, ht] at k6
    rw [hr, hc0, List.nil_append] at k4
    refine ⟨gk, k1, ?_, ?_, ?_⟩
    · rw [k4, cache_entries_length]
    · rw [k6]
      exact (hcap _).1
    · rw [k6]
      exact (hcap _).2
  · have hy : ¬ 0 < gc.yres := by omega
    unfold Rcontrib.rcinit
    simp [hy, Rcontrib.EXPECTED_RAY_COUNT]
  · intro k
    have hl := Rcontrib.cache_loop_all (cinput.take k) { total_rays := 32, rays := [] }
      (by decide) (Nat.zero_le _)
    refine ⟨_, hl, ?_, ?_, ?_⟩
    · simp [Rcontrib.entry_of]
    · exact (hcap _).1
    · exact (hcap _).2

/-- The scenario of 10 rays with no declared resolution: the capacity is 32
when the device is called, in `rtrace` and in `rcontrib`. -/
theorem C11_cache_capacity_witness :
    (∃ gk, rtrace_loop (rtrace_init optix_state) (List.replicate 10 ray_in) = .ok gk ∧
        gk.ray_cache.length = 10 ∧ gk.total_rays = 32) ∧
      (∃ ck, Rcontrib.cache_loop { total_rays := 32, rays := [] }
          (List.replicate 10 Rcontrib.wall_in) = .ok ck ∧
        ck.rays.length = 10 ∧ ck.total_rays = 32) := by
  have h := C11_cache_capacity optix_state (List.replicate 10 ray_in) Rcontrib.optix_wall
    (List.replicate 10 Rcontrib.wall_in) rfl rfl rfl (by decide)
  obtain ⟨gk, a1, a2, a3, _⟩ := h.1.2 10
  obtain ⟨ck, b1, b2, b3, _⟩ := h.2.2 10
  exact ⟨⟨gk, a1, a2, a3 (by decide)⟩, ⟨ck, b1, b2, b3 (by decide)⟩⟩


/-- Entry `i` of the array the device leaves is `dev i` of the entry stored
there. -/
theorem device_results_get (dev : Nat → RAY → RAY) (rays : List RAY) (i : Nat) :
    (device_results dev rays)[i]? = (rays[i]?).map (dev i) := by
  unfold device_results
  rw [List.getElem?_map, List.getElem?_enum]
  cases rays[i]? <;> rfl

/-- Claim C12, the claim as worded fails: in `rtrace` on the device with
immediate irradiance (`-I`) and the one input ray with origin `(0,0,0)` and
direction `(0,0,2)`, of unit vector `(0,0,1)`, the entry handed to the device
has the origin `(0,0,11/100000)` and the direction `(0,0,-1)`: the origin
moved along the direction and the direction reversed, not the origin and
direction of the ray read. -/
theorem C12_counterexample :
    ((rtrace (fun _ r => r) optix_irrad [ray_in]).val?.map fun g => device_calls g.out) =
        some [(1, 1, [{ rorg := (0, 0, 11 / 100000), rdir := (0, 0, -1), rmax := 0
                        revf := Revf.rayirrad, traced := false }])] ∧
      ray_in.orig ≠ (0, 0, 11 / 100000) ∧ ray_in.direc ≠ (0, 0, -1) ∧
      ray_in.ndir ≠ (0, 0, -1) := by
  decide!

/-- Claim C12 (the device is called once, the order is kept), amended. In the
device path with no declared resolution, for every stream of `n` rays that are
no flush request, `rtrace` ends without an error and writes nothing before it
calls `computeOptix`, which it does exactly once, after all the input is read,
with the shape 1 by `n` and an array of exactly `n` entries whose `i`-th entry
is the ray `rtcompute` sets up for the `i`-th ray read: it carries the origin
and the unit vector of the direction of that ray, or, with immediate
irradiance, the origin moved by 1.1e-4 along the direction and the direction
reversed. After the call `printvals` is applied to the entries `0..n-1` as the
device left them, in that order, once each. In `rcontrib`, for every stream,
`contribOptix` is called exactly once, after all the input is read, with the
shape 1 by `n` and an array of exactly `n` entries whose `i`-th entry carries
the origin and direction of the `i`-th record read. -/
theorem C12_single_dispatch (dev : Nat → RAY → RAY) (g : Globals) (input : List RAYIN)
    (cdev : Rcontrib.OptixCall → Rcontrib.Globals → Rcontrib.Globals) (gc : Rcontrib.Globals)
    (cinput : List Rcontrib.RAYIN) (hdev : g.use_optix = true) (hh : g.hresolu = 0)
    (hv : g.vresolu = 0) (hnf : ∀ r ∈ input, zerolen r.direc = false)
    (hcdev : gc.use_optix = true) (hcy : gc.yres ≤ 0) :
    (∃ g' rays, rtrace dev g input = .ok g' ∧
        g'.out = g.out ++ [Event.computeOptix 1 input.length g.imm_irrad rays] ++
          records_for g (device_results dev rays) ++ [Event.fflush] ∧
        rays = input.map (fun r =>
          primary_ray g r.orig r.ndir (if g.lim_dist = true then r.d else 0)) ∧
        rays.length = input.length ∧
        (∀ (r : RAYIN) (dmax : ℚ),
          (primary_ray g r.orig r.ndir dmax).rorg =
              (if g.imm_irrad = true then VSUM r.orig r.ndir (11 / 100000) else r.orig) ∧
            (primary_ray g r.orig r.ndir dmax).rdir =
              (if g.imm_irrad = true then (-r.ndir.1, -r.ndir.2.1, -r.ndir.2.2)
               else r.ndir)) ∧
        (g.ray_out ≠ [] → records_for g (device_results dev rays) =
          (device_results dev rays).map fun r =>
            Event.record g.ray_out r (decide (g.outform = 'a'))) ∧
        (device_results dev rays).length = input.length ∧
        ∀ i, (device_results dev rays)[i]? = (rays[i]?).map (dev i)) ∧
      (∃ call gD, Rcontrib.rcontrib cdev gc cinput =
          (Rcontrib.Res.ok (cdev call gD)).bind Rcontrib.rcontrib_eoi ∧
        gD.out = gc.out ++ [Rcontrib.Event.contribOptix call] ∧
        call.rays = cinput.map (fun r => (r.orig, r.direc)) ∧
        call.rays.length = cinput.length ∧ call.width = 1 ∧
        call.height = cinput.length) := by
  constructor
  · have hv0 : (rtrace_init g).vcount = 0 := rtrace_init_unknown g hh hv
    obtain ⟨gE, o1, o2⟩ := rtrace_optix_run dev g input hdev
    have hr : rows_read (rtrace_init g).vcount input = input := by
      unfold rows_read
      rw [if_pos hv0]
    rw [hr, cache_entries_noflush g input g.thisray hnf] at o1
    have hno : ¬ (rtrace_init g).vcount - input.length ≠ 0 := by
      rw [hv0]; simp
    rw [if_neg hno] at o2
    have hh' : ¬ g.hresolu ≠ 0 := not_not.mpr hh
    have hv' : ¬ g.vresolu ≠ 0 := not_not.mpr hv
    rw [if_neg hh', if_neg hv', List.length_map] at o1
    refine ⟨gE, _, o2, o1, rfl, by rw [List.length_map], ?_, ?_, ?_, ?_⟩
    · intro r dmax
      unfold primary_ray rayorigin
      by_cases hi : g.imm_irrad = true
      · rw [if_pos hi, if_pos hi, if_pos hi]
        exact ⟨rfl, rfl⟩
      · rw [if_neg hi, if_neg hi, if_neg hi]
        exact ⟨rfl, rfl⟩
    · intro hne
      unfold records_for
      cases hro : g.ray_out with
      | nil => exact absurd hro hne
      | cons f fs => rfl
    · unfold device_results
      rw [List.length_map, List.enum_length, List.length_map]
    · intro i
      exact device_results_get dev _ i
  · have hy : ¬ 0 < gc.yres := by omega
    have hrl : (Rcontrib.rcinit gc).raysleft = 0 := by
      unfold Rcontrib.rcinit
      simp [hy]
    obtain ⟨call, gD, r1, r2, r3, _, _, _, _, r8⟩ :=
      Rcontrib.rcontrib_optix_run cdev (Rcontrib.rcinit gc) cinput
    obtain ⟨r9, r10⟩ := r8 (by show gc.yres ≤ 0; exact hcy)
    refine ⟨call, gD, ?_, r2, r3, by rw [r3, List.length_map], r9, r10⟩
    unfold Rcontrib.rcontrib
    simp only []
    have hd : (Rcontrib.rcinit gc).use_optix = true := hcdev
    rw [if_pos hd, r1]

/-- The scenario of 10 rays with no declared resolution: `rtrace` calls the
device once with the 10 rays set up and then writes their 10 records, and
`rcontrib` calls the device once with the 10 records read. -/
theorem C12_single_dispatch_witness :
    (∃ g', rtrace (fun _ r => r) optix_state (List.replicate 10 ray_in) = .ok g' ∧
        device_calls g'.out =
          [(1, 10, List.replicate 10 { rorg := (0, 0, 0), rdir := (0, 0, 1), rmax := 0
                                       revf := Revf.raytrace, traced := false })] ∧
        nrecords g'.out = 10) ∧
      (∃ call gD, Rcontrib.rcontrib Rcontrib.no_device Rcontrib.optix_wall
          (List.replicate 10 Rcontrib.wall_in) =
            (Rcontrib.Res.ok (Rcontrib.no_device call gD)).bind Rcontrib.rcontrib_eoi ∧
        call.rays = List.replicate 10 ((0, 0, 0), (0, 0, 1)) ∧ call.width = 1 ∧
        call.height = 10) := by
  have h := C12_single_dispatch (fun _ r => r) optix_state (List.replicate 10 ray_in)
    Rcontrib.no_device Rcontrib.optix_wall (List.replicate 10 Rcontrib.wall_in)
    rfl rfl rfl
    (by
      intro r hr
      rw [List.eq_of_mem_replicate hr]
      decide!)
    rfl (by decide)
  obtain ⟨⟨g', rays, a1, a2, a3, _⟩, ⟨call, gD, b1, _, b3, _, b5, b6⟩⟩ := h
  refine ⟨⟨g', a1, ?_, ?_⟩, ⟨call, gD, b1, ?_, b5, b6⟩⟩
  · rw [a2, a3]
    decide!
  · rw [a2, a3]
    decide!
  · rw [b3]
    decide!

/-- Claim C17, the code at the failing input: in `rtrace` on the device, for
the input of one ray with origin `(0,0,0)` and direction `(0,0,2)` followed by
one flush request, the array handed to the device has 2 entries, and the entry
stored for the flush request is the entry of the ray before it over again,
with its origin and its direction; after the call a record is written for
each of the two. -/
theorem C17_flush_entry :
    ((rtrace (fun _ r => r) optix_state [ray_in, flush_in]).val?.map
        fun g => device_calls g.out) =
      some [(1, 2, [{ rorg := (0, 0, 0), rdir := (0, 0, 1), rmax := 0
                      revf := Revf.raytrace, traced := false },
                    { rorg := (0, 0, 0), rdir := (0, 0, 1), rmax := 0
                      revf := Revf.raytrace, traced := false }])] ∧
      ((rtrace (fun _ r => r) optix_state [ray_in, flush_in]).val?.map
        fun g => nrecords g.out) = some 2 ∧
      ray_in.orig = (0, 0, 0) ∧ ray_in.ndir = (0, 0, 1) ∧ zerolen flush_in.direc = true := by
  decide!


/-! ### The output tables and the trace callback -/

/-- A field character written into `ray_out` when there is room. -/
theorem put_field_ray (conf : OutConf) (t : Tables) (f : OField) (h : t.on_every = false)
    (hl : t.ray_out.length < 32) :
    ∃ t', put_field conf t f = .ok t' ∧ t'.ray_out = t.ray_out ++ [f] ∧
      t'.every_out = t.every_out ∧ t'.on_every = false ∧ t'.tracing = t.tracing ∧
      t'.sources_followed = t.sources_followed := by
  have hp : table_pos t = t.ray_out.length := by
    unfold table_pos
    rw [h]
    rfl
  unfold put_field
  rw [if_neg (by rw [hp]; omega)]
  simp only [h]
  exact ⟨_, rfl, rfl, rfl, rfl, rfl, rfl⟩

/-- The loop of `setoutput` on a string with no `t` and no `T` that fits the
table: each character that selects a field writer adds it to `ray_out`, the
others add nothing. -/
theorem setoutput_loop_plain (conf : OutConf) : ∀ (vs : List Char) (t : Tables),
    t.on_every = false → t.ray_out.length + vs.length ≤ 31 → 't' ∉ vs → 'T' ∉ vs →
    ∃ t', setoutput_loop conf t vs = .ok t' ∧
      t'.ray_out = t.ray_out ++ vs.filterMap writer_of ∧
      t'.every_out = t.every_out ∧ t'.on_every = false ∧ t'.tracing = t.tracing ∧
      t'.sources_followed = t.sources_followed := by
  intro vs
  induction vs with
  | nil =>
    intro t h _ _ _
    exact ⟨t, rfl, by simp, rfl, h, rfl, rfl⟩
  | cons c vs ih =>
    intro t h hl ht hT
    have hc1 : c ≠ 't' := fun e => ht (by rw [e]; exact List.mem_cons_self _ _)
    have hc2 : c ≠ 'T' := fun e => hT (by rw [e]; exact List.mem_cons_self _ _)
    have ht' : 't' ∉ vs := fun e => ht (List.mem_cons_of_mem _ e)
    have hT' : 'T' ∉ vs := fun e => hT (List.mem_cons_of_mem _ e)
    rw [List.length_cons] at hl
    unfold setoutput_loop setoutput_char
    cases hw : writer_of c with
    | none =>
      simp only [hc1, hc2, if_false, rt_bind_ok]
      obtain ⟨t', k1, k2, k3, k4, k5, k6⟩ := ih t h (by omega) ht' hT'
      refine ⟨t', k1, ?_, k3, k4, k5, k6⟩
      rw [k2, List.filterMap_cons, hw]
    | some f =>
      obtain ⟨t1, p1, p2, p3, p4, p5, p6⟩ := put_field_ray conf t f h (by omega)
      simp only [p1, rt_bind_ok]
      obtain ⟨t', k1, k2, k3, k4, k5, k6⟩ := ih t1 p4
        (by rw [p2, List.length_append, List.length_singleton]; omega) ht' hT'
      refine ⟨t', k1, ?_, by rw [k3, p3], k4, by rw [k5, p5], by rw [k6, p6]⟩
      rw [k2, p2, List.filterMap_cons, hw, List.append_assoc]
      rfl

/-- Claim C16 (field list order and record termination). For every field
string of at most 31 characters that holds neither `t` nor `T`, `setoutput`
returns with `ray_out` the field writers of the characters of the string that
select one, in the order of the string, one entry for each occurrence, the
other characters skipped; the trace table stays empty. With this table
`printvals` calls exactly these writers in this order for the ray, ends the
record with one newline exactly when the output format is ascii, and returns
1; when the table is empty it writes nothing and returns 0. -/
theorem C16_field_order (conf : OutConf) (vs : List Char) (hlen : vs.length ≤ 31)
    (ht : 't' ∉ vs) (hT : 'T' ∉ vs) :
    ∃ t, setoutput conf vs = .ok t ∧ t.ray_out = vs.filterMap writer_of ∧
      t.every_out = [] ∧ t.tracing = false ∧
      ∀ (g : Globals) (r : RAY), g.ray_out = t.ray_out →
        (t.ray_out ≠ [] → printvals g r =
          ({ g with out := g.out ++
              [Event.record (vs.filterMap writer_of) r (decide (g.outform = 'a'))] }, 1)) ∧
        (t.ray_out = [] → printvals g r = (g, 0)) := by
  obtain ⟨t1, k1, k2, k3, k4, k5, _⟩ := setoutput_loop_plain conf vs
    { ray_out := [], every_out := [], on_every := false, castonly := true
      tracing := false, sources_followed := false, warnings := [] }
    rfl (by simpa using hlen) ht hT
  have hfl : (vs.filterMap writer_of).length ≤ vs.length := List.length_filterMap_le _ _
  have hpos : table_pos t1 = t1.ray_out.length := by
    unfold table_pos
    rw [k4]
    rfl
  have hend : end_table t1 = .ok t1 := by
    unfold end_table
    rw [if_neg]
    rw [hpos, k2, List.nil_append]
    omega
  refine ⟨{ t1 with warnings := t1.warnings ++ (t1.ray_out.map (compat_warnings conf)).flatten },
    ?_, ?_, k3, k5, ?_⟩
  · unfold setoutput
    simp only []
    rw [k1, rt_bind_ok, hend, rt_bind_ok]
  · show t1.ray_out = _
    rw [k2, List.nil_append]
  · intro g r hg
    have hg' : g.ray_out = vs.filterMap writer_of := by
      rw [hg]
      show t1.ray_out = _
      rw [k2, List.nil_append]
    constructor
    · intro hne
      have hne' : vs.filterMap writer_of ≠ [] := by
        intro e
        apply hne
        show t1.ray_out = []
        rw [k2, List.nil_append, e]
      unfold printvals
      cases hro : g.ray_out with
      | nil => exact absurd (hg'.symm.trans hro) hne'
      | cons f fs =>
        simp only []
        rw [← hg', hro]
    · intro he
      unfold printvals
      have : g.ray_out = [] := hg.trans he
      rw [this]

/-- The field string `oz~o` and ascii output: the table holds the writers of
`o`, `~` and `o` in this order, and a record ends with a newline. -/
theorem C16_field_order_witness :
    ∃ t, setoutput out_conf ['o', 'z', '~', 'o'] = .ok t ∧
      t.ray_out = [OField.oputo, OField.oputtilde, OField.oputo] ∧
      (printvals { seq_state with ray_out := t.ray_out } seq_state.thisray).2 = 1 := by
  obtain ⟨t, h1, h2, _, _, h5⟩ := C16_field_order out_conf ['o', 'z', '~', 'o']
    (by decide) (by decide) (by decide)
  have h2' : t.ray_out = [OField.oputo, OField.oputtilde, OField.oputo] := h2.trans (by decide)
  refine ⟨t, h1, h2', ?_⟩
  rw [(h5 { seq_state with ray_out := t.ray_out } seq_state.thisray rfl).1 (by rw [h2']; simp)]


/-- The ancestors of a ray are the rays of its parent chain. -/
theorem ancestors_parent (r : TRAY) :
    ancestors r = match r.parent with
      | none => []
      | some p => p :: ancestors p := by
  cases r <;> rfl

/-- Claim C18 (trace indentation). For every ray, whose parent chain is
finite, `tabin` writes exactly `d` tab characters and nothing else, `d` being
the number of ancestors of the ray, 0 for a primary ray; and a record
`ourtrace` writes for the ray starts with these `d` tabs and holds no other
tab. -/
theorem C18_trace_indent (r : TRAY) :
    tabin r = List.replicate (ancestors r).length Written.tab ∧
      (r.parent = none → tabin r = []) ∧
      ∀ c : TraceConf, ourtrace c r = [] ∨
        ∃ rest, ourtrace c r = List.replicate (ancestors r).length Written.tab ++ rest ∧
          Written.tab ∉ rest := by
  have h1 : tabin r = List.replicate (ancestors r).length Written.tab := by
    induction r with
    | primary ro => rfl
    | spawned ro p ih =>
      unfold tabin ancestors
      rw [ih]
      rfl
  refine ⟨h1, ?_, ?_⟩
  · intro hp
    cases r with
    | primary ro => rfl
    | spawned ro p => cases hp
  · intro c
    unfold ourtrace
    cases he : c.every_out with
    | nil => exact Or.inl rfl
    | cons f fs =>
      simp only []
      split_ifs with hs ha
      · exact Or.inl rfl
      · refine Or.inr ⟨(f :: fs).map Written.field ++ [Written.newline], ?_, ?_⟩
        · rw [h1, List.append_assoc]
        · simp
      · refine Or.inr ⟨(f :: fs).map Written.field, ?_, ?_⟩
        · rw [h1, List.append_nil]
        · simp

/-- Claim C19 (trace filter). With a trace field list that is not empty and
`traincl` one of its three values, `ourtrace` writes a record for the ray `r`
if and only if `traincl` is -1; or `traincl` is 1 and `r` hit an object whose
modifier is in the trace set; or `traincl` is 0 and `r` hit nothing or hit an
object whose modifier is not in the trace set. The record is the tabs of
`tabin`, the values of the fields in the order of the list, and a newline in
ascii. With an empty trace field list nothing is written. -/
theorem C19_trace_filter (c : TraceConf) (r : TRAY)
    (hincl : c.traincl = -1 ∨ c.traincl = 0 ∨ c.traincl = 1) :
    (c.every_out ≠ [] →
        ((ourtrace c r ≠ [] ↔
            (c.traincl = -1 ∨
              (c.traincl = 1 ∧ ∃ m, r.ro = some m ∧ m ∈ c.traset) ∨
              (c.traincl = 0 ∧ (r.ro = none ∨ ∃ m, r.ro = some m ∧ m ∉ c.traset)))) ∧
          (ourtrace c r ≠ [] →
            ourtrace c r = tabin r ++ c.every_out.map Written.field ++
              (if c.outform = 'a' then [Written.newline] else [])))) ∧
      (c.every_out = [] → ourtrace c r = []) := by
  constructor
  · intro hne
    cases he : c.every_out with
    | nil => exact absurd he hne
    | cons f fs =>
      have hfull : ∀ skip : Bool,
          (if skip = true then ([] : List Written)
            else tabin r ++ (f :: fs).map Written.field ++
              (if c.outform = 'a' then [Written.newline] else [])) ≠ [] ↔ skip = false := by
        intro skip
        cases skip <;> simp
      unfold ourtrace
      rw [he]
      simp only []
      constructor
      · rw [hfull]
        cases hro : r.ro with
        | none =>
          simp only [decide_eq_false_iff_not]
          constructor
          · intro h
            rcases hincl with h1 | h0 | h1
            · exact Or.inl h1
            · exact Or.inr (Or.inr ⟨h0, by simp⟩)
            · exact absurd h1 h
          · rintro (h | ⟨_, m, hm, _⟩ | ⟨h, _⟩)
            · omega
            · cases hm
            · omega
        | some m =>
          simp only [decide_eq_false_iff_not]
          unfold inset
          constructor
          · intro h
            rcases hincl with h1 | h0 | h1
            · exact Or.inl h1
            · refine Or.inr (Or.inr ⟨h0, Or.inr ⟨m, rfl, ?_⟩⟩)
              intro hm
              apply h
              rw [if_pos hm, h0]
              decide
            · refine Or.inr (Or.inl ⟨h1, m, rfl, ?_⟩)
              by_contra hm
              apply h
              rw [if_neg hm, h1]
              decide
          · rintro (h | ⟨h, m', hm', hmem⟩ | ⟨h, hn | ⟨m', hm', hmem⟩⟩)
            · intro hh
              exact hh.1 h
            · cases hm'
              intro hh
              apply hh.2
              rw [if_pos hmem, h]
            · cases hn
            · cases hm'
              intro hh
              apply hh.2
              rw [if_neg hmem, h]
      · intro hw
        split_ifs at hw ⊢ <;> first | rfl | exact absurd rfl hw
  · intro he
    unfold ourtrace
    rw [he]

/-- The modifier 7 is in the trace set: with `traincl = 1` a ray that hit an
object with this modifier is written, indented by its one ancestor, and a ray
that hit nothing is not; with `traincl = 0` it is the other way round. -/
theorem C19_trace_filter_witness :
    ourtrace (trace_conf 1) (.spawned (some 7) (.primary none)) =
        [Written.tab, Written.field OField.oputv, Written.newline] ∧
      ourtrace (trace_conf 1) (.primary none) = [] ∧
      ourtrace (trace_conf 0) (.spawned (some 7) (.primary none)) = [] ∧
      ourtrace (trace_conf 0) (.primary none) ≠ [] := by
  have h1 := C19_trace_filter (trace_conf 1) (.spawned (some 7) (.primary none))
    (Or.inr (Or.inr rfl))
  have h0 := C19_trace_filter (trace_conf 0) (.primary none) (Or.inr (Or.inl rfl))
  refine ⟨?_, by decide, by decide, ?_⟩
  · have hw := (h1.1 (by decide)).1.mpr (Or.inr (Or.inl ⟨rfl, 7, rfl, by decide⟩))
    rw [(h1.1 (by decide)).2 hw]
    decide
  · exact (h0.1 (by decide)).1.mpr (Or.inr (Or.inr ⟨rfl, Or.inl rfl⟩))


/-! ### The bounds of the ray cache and the shape declared to the device -/

/-- The shape `rtrace` declares to the device against the number of entries
of the array. With resolutions in the range of a non-negative `int` and an
input that holds the declared rows, the run ends without an error and the
product of the width and the height is the number of entries, except with a
horizontal resolution above 1 and no vertical resolution, where it is the
number of entries times the horizontal resolution. -/
theorem rtrace_device_shape (dev : Nat → RAY → RAY) (g : Globals) (input : List RAYIN)
    (hdev : g.use_optix = true) (hh : 0 ≤ g.hresolu) (hv : 0 ≤ g.vresolu)
    (hh' : g.hresolu < 2 ^ 31) (hv' : g.vresolu < 2 ^ 31)
    (hsat : (rtrace_init g).vcount ≤ input.length) :
    ∃ g' W H rays, rtrace dev g input = .ok g' ∧
      g'.out = g.out ++ [Event.computeOptix W H g.imm_irrad rays] ++
        records_for g (device_results dev rays) ++ [Event.fflush] ∧
      W = (if g.hresolu ≠ 0 then g.hresolu.toNat else 1) ∧
      H = (if g.vresolu ≠ 0 then g.vresolu.toNat else rays.length) ∧
      W * H = rays.length * (if 1 < g.hresolu ∧ g.vresolu = 0 then g.hresolu.toNat else 1) := by
  obtain ⟨gE, o1, o2⟩ := rtrace_optix_run dev g input hdev
  have hno : ¬ (rtrace_init g).vcount - input.length ≠ 0 := by omega
  rw [if_neg hno] at o2
  refine ⟨gE, _, _, _, o2, o1, rfl, rfl, ?_⟩
  rw [cache_entries_length]
  obtain ⟨a, ha⟩ := Int.eq_ofNat_of_zero_le hh
  obtain ⟨b, hb⟩ := Int.eq_ofNat_of_zero_le hv
  have ha' : a < 2 ^ 31 := by
    rw [ha] at hh'
    exact_mod_cast hh'
  have hb' : b < 2 ^ 31 := by
    rw [hb] at hv'
    exact_mod_cast hv'
  have hab : a * b < 2 ^ 64 := by
    calc a * b < 2 ^ 31 * 2 ^ 31 := Nat.mul_lt_mul'' ha' hb'
      _ < 2 ^ 64 := by norm_num
  have hvc : (rtrace_init g).vcount = if 1 < a then a * b else b := by
    have hvc0 : (rtrace_init g).vcount =
        (if 1 < g.hresolu then (g.hresolu * g.vresolu % 2 ^ 64).toNat
         else (g.vresolu % 2 ^ 64).toNat) := rfl
    rw [hvc0, ha, hb]
    by_cases h1 : 1 < a
    · have h1' : (1 : Int) < (a : Int) := by exact_mod_cast h1
      rw [if_pos h1', if_pos h1]
      have e : ((a : Int) * (b : Int)) % 2 ^ 64 = ((a * b : Nat) : Int) := by
        have : ((a : Int) * (b : Int)) = ((a * b : Nat) : Int) := by push_cast; rfl
        rw [this]
        have h2 : ((a * b : Nat) : Int) % 2 ^ 64 = (((a * b) % 2 ^ 64 : Nat) : Int) := by
          push_cast
          rfl
        rw [h2, Nat.mod_eq_of_lt hab]
      rw [e, Int.toNat_ofNat]
    · have h1' : ¬ (1 : Int) < (a : Int) := by
        intro h
        exact h1 (by exact_mod_cast h)
      rw [if_neg h1', if_neg h1]
      have e : (b : Int) % 2 ^ 64 = ((b % 2 ^ 64 : Nat) : Int) := by
        push_cast
        rfl
      rw [e, Nat.mod_eq_of_lt (by omega), Int.toNat_ofNat]
  have hlen : (rows_read (rtrace_init g).vcount input).length =
      if (rtrace_init g).vcount = 0 then input.length else (rtrace_init g).vcount := by
    unfold rows_read
    by_cases h0 : (rtrace_init g).vcount = 0
    · rw [if_pos h0, if_pos h0]
    · rw [if_neg h0, if_neg h0, List.length_take]
      omega
  rw [hlen, hvc, ha, hb]
  simp only [Int.toNat_ofNat, Nat.cast_eq_zero, ne_eq, Nat.one_lt_cast]
  by_cases h1 : 1 < a
  · have ha0 : ¬ a = 0 := by omega
    by_cases hb0 : b = 0
    · simp [h1, ha0, hb0, Nat.mul_comm]
    · have hne : ¬ a * b = 0 := by
        intro h
        rcases Nat.mul_eq_zero.mp h with h | h
        · exact ha0 h
        · exact hb0 h
      simp [h1, ha0, hb0, hne]
  · by_cases hb0 : b = 0
    · by_cases ha0 : a = 0
      · simp [h1, ha0, hb0]
      · have : a = 1 := by omega
        simp [h1, this, hb0]
    · by_cases ha0 : a = 0
      · simp [h1, ha0, hb0]
      · have : a = 1 := by omega
        simp [h1, this, hb0]

/-- Claim C22, the code at the failing input: in `rtrace` on the device with
the horizontal resolution 2 and no vertical resolution, so that no rows are
declared, and an input of one ray, the array handed to `computeOptix` has 1
entry and the shape declared is 2 by 1, of product 2; `rcontrib` on the
device with the same resolutions and one ray declares the shape 1 by 1 for its
array of 1 entry. -/
theorem C22_shape_mismatch :
    (rtrace_init optix_x2).vcount = 0 ∧
      ((rtrace (fun _ r => r) optix_x2 [ray_in]).val?.map fun g =>
          (device_calls g.out).map fun c => (c.1, c.2.1, c.2.2.length)) = some [(2, 1, 1)] ∧
      2 * 1 ≠ 1 ∧
      ((Rcontrib.rcontrib Rcontrib.no_device Rcontrib.optix_wall_x2
          [Rcontrib.wall_in]).val?.map fun g =>
          (Rcontrib.device_calls g.out).map fun c => (c.width, c.height, c.rays.length)) =
        some [(1, 1, 1)] := by
  decide!

end Rtrace
